import Mathlib

/-!
# Verification of the UpKeep task-generation engine

A shallow embedding, in Lean 4, of the pure task-generation core of
`src/app.py`: the requirement parser (`_parse_feature_requirements`), the
feature matcher (`_filter_rows_by_features`), the recurrence calculator
(`_next_anchor_date`, `_compute_next_due_date`), the overlap resolver
(`_resolve_overlaps`), the default enricher (`_enrich_task_rows_defaults`,
`_estimate_minutes`), the onboarding ramp scheduler
(`_apply_onboarding_ramp` with `RAMP_SETTINGS` and the persona/budget
overrides), and the pure part of the generation orchestrator
(`seed_tasks_from_catalog_rows` / `_insert_tasks_for_user`).

Catalog rows are Python dicts whose values are `None`, strings, booleans or
ints (CSV import produces strings/`None`; DB templates can carry JSON
bools/ints; the enricher writes back bools and ints).  We model such a value
as `Val`.  Dates are modelled by their proleptic Gregorian ordinal (the
number Python's `date.toordinal` returns): Python's `date` comparison,
`date - date` and `date + timedelta(days=n)` agree with comparison,
subtraction and addition of ordinals, which is exactly how we embed them.
-/

namespace UpKeep

/-- A Python value as it can appear in a catalog-row dict:
`None`, `str`, `bool` or `int`. -/
inductive Val where
  | none : Val
  | str (s : String) : Val
  | bool (b : Bool) : Val
  | int (n : Int) : Val
deriving DecidableEq, Repr

/-! ## Decimal strings

`_parse_int` runs Python's `int(str(val).strip())`, and the scheduler writes
offsets back with `str(n)`.  We embed Python's decimal rendering of a
non-negative integer with an explicit fuel-based recursion (so that it
reduces definitionally), and Python's `int(...)` parsing of a stripped
string. -/

/-- The decimal digit character for `d < 10` (`'0'` is code point 48). -/
def digitChar (d : Nat) : Char := Char.ofNat (48 + d)

/-- Decimal digits of `n`, most significant first; `fuel` bounds recursion
depth and any `fuel > n` is enough. -/
def digitsAux : Nat → Nat → List Char
  | 0, _ => []
  | fuel + 1, n =>
      if n < 10 then [digitChar n]
      else digitsAux fuel (n / 10) ++ [digitChar (n % 10)]

/-- Decimal digit list of a natural number (Python `str(n)` for `n ≥ 0`). -/
def natDigits (n : Nat) : List Char := digitsAux (n + 1) n

/-- Python `str(i)` for an integer. -/
def pyIntToStr (i : Int) : String :=
  if i < 0 then String.mk ('-' :: natDigits (-i).toNat)
  else String.mk (natDigits i.toNat)

/-- Value of a digit character. -/
def digitVal (c : Char) : Nat := c.toNat - 48

/-- Fold a digit list into the natural number it denotes. -/
def digitsToNat (ds : List Char) : Nat :=
  ds.foldl (fun a c => 10 * a + digitVal c) 0

/-- Parse an all-digit, non-empty character list. -/
def parseDigits (ds : List Char) : Option Nat :=
  if ds ≠ [] ∧ ds.all Char.isDigit then some (digitsToNat ds) else Option.none

/-- Strip leading and trailing whitespace from a character list
(Python `str.strip()`). -/
def pyStrip (cs : List Char) : List Char :=
  ((cs.dropWhile Char.isWhitespace).reverse.dropWhile Char.isWhitespace).reverse

/-- Python `str.strip()` on a `String` (structural implementation, so that
it reduces definitionally; catalog strings are ASCII). -/
def pyStripS (s : String) : String := String.mk (pyStrip s.toList)

/-- Lowercase an ASCII character (Python `str.lower()` on the catalog's
ASCII data). -/
def lowerChar (c : Char) : Char :=
  if 65 ≤ c.toNat ∧ c.toNat ≤ 90 then Char.ofNat (c.toNat + 32) else c

/-- Python `str.lower()` (structural implementation). -/
def pyLowerS (s : String) : String := String.mk (s.toList.map lowerChar)

/-- `str.strip().lower()`, the normalisation the code applies before
keyword comparisons. -/
def normKey (s : String) : String := pyLowerS (pyStripS s)

/-- Split a character list on a separator character (Python `str.split(sep)`
for a one-character separator). -/
def splitChar (sep : Char) : List Char → List (List Char)
  | [] => [[]]
  | c :: rest =>
      match splitChar sep rest with
      | [] => [[]]
      | g :: gs => if c = sep then [] :: g :: gs else (c :: g) :: gs

/-- Python `str.split(sep, 1)`: split on the first occurrence only;
`Option.none` when the separator does not occur. -/
def splitOnce (sep : Char) : List Char → Option (List Char × List Char)
  | [] => Option.none
  | c :: rest =>
      if c = sep then some ([], rest)
      else (splitOnce sep rest).map (fun p => (c :: p.1, p.2))

/-- Python `int(s)` on a string: strip, optional sign, decimal digits;
`Option.none` models `ValueError`. -/
def pyStrToInt (s : String) : Option Int :=
  match pyStrip s.toList with
  | [] => Option.none
  | c :: ds =>
      if c = '-' then (parseDigits ds).map (fun n => -(n : Int))
      else if c = '+' then (parseDigits ds).map (fun n => (n : Int))
      else (parseDigits (c :: ds)).map (fun n => (n : Int))

/-! ## `_parse_bool` / `_parse_int` and Python coercions -/

/-- `_parse_bool(val, default=None)` (src/app.py:501).  `str(val)` of a bool
is `"True"`/`"False"`, of an int its decimal form; the vocabulary is
`{true,1,yes,y} / {false,0,no,n}`, case-insensitive. -/
def parseBoolOpt : Val → Option Bool
  | Val.none => Option.none
  | Val.str s =>
      let t := normKey s
      if t = "true" ∨ t = "1" ∨ t = "yes" ∨ t = "y" then some true
      else if t = "false" ∨ t = "0" ∨ t = "no" ∨ t = "n" then some false
      else Option.none
  | Val.bool b => some b
  | Val.int n => if n = 1 then some true else if n = 0 then some false else Option.none

/-- `_parse_bool` with a boolean default. -/
def parseBoolD (v : Val) (d : Bool) : Bool := (parseBoolOpt v).getD d

/-- `_parse_int(val, default=None)` (src/app.py:511): `None`/blank gives the
default, `int(str(val).strip())` otherwise, any exception gives the default
(so a bool value, whose `str` is `"True"`/`"False"`, parses to the default). -/
def parseIntVal : Val → Option Int
  | Val.none => Option.none
  | Val.str s => pyStrToInt s
  | Val.bool _ => Option.none
  | Val.int n => some n

/-- Python `int(r.get(f) or 0)` guarded by `try/except` returning 0
(used for `frequency_days` in the enricher, scheduler and orchestrator). -/
def pyIntOr0 : Val → Int
  | Val.none => 0
  | Val.bool b => if b then 1 else 0
  | Val.int n => n
  | Val.str s => if s = "" then 0 else (pyStrToInt s).getD 0

/-- Python truthiness of a value (`bool(val)`). -/
def pyTruthy : Val → Bool
  | Val.none => false
  | Val.str s => s ≠ ""
  | Val.bool b => b
  | Val.int n => n ≠ 0

/-- `x.get(k) or ''` for a `None`-or-string field, as a `String`. -/
def orEmpty : Option String → String
  | Option.none => ""
  | some s => s

/-- Python `val in (None, '')`, for fields that may hold any value. -/
def isBlank : Val → Bool
  | Val.none => true
  | Val.str s => s = ""
  | _ => false

/-! ## Dates

A Python `datetime.date` is represented by its `(year, month, day)` triple
when we need the components and by its proleptic Gregorian ordinal (Python's
`date.toordinal`) when we compare, subtract, or add a `timedelta`; these two
views agree exactly with Python's semantics. -/

/-- A calendar date as a `(year, month, day)` triple of integers. -/
structure Date where
  year : Int
  month : Int
  day : Int
deriving DecidableEq, Repr

/-- Gregorian leap year. -/
def isLeap (y : Int) : Bool := (y % 4 = 0 ∧ y % 100 ≠ 0) ∨ y % 400 = 0

/-- Number of days in a month (0 for an out-of-range month). -/
def daysInMonth (y m : Int) : Int :=
  if m = 1 ∨ m = 3 ∨ m = 5 ∨ m = 7 ∨ m = 8 ∨ m = 10 ∨ m = 12 then 31
  else if m = 4 ∨ m = 6 ∨ m = 9 ∨ m = 11 then 30
  else if m = 2 then (if isLeap y then 29 else 28)
  else 0

/-- Days before month `m` in year `y` (0 for January). -/
def daysBeforeMonth (y m : Int) : Int :=
  let L : Int := if isLeap y then 1 else 0
  if m = 1 then 0
  else if m = 2 then 31
  else if m = 3 then 59 + L
  else if m = 4 then 90 + L
  else if m = 5 then 120 + L
  else if m = 6 then 151 + L
  else if m = 7 then 181 + L
  else if m = 8 then 212 + L
  else if m = 9 then 243 + L
  else if m = 10 then 273 + L
  else if m = 11 then 304 + L
  else if m = 12 then 334 + L
  else 0

/-- Proleptic Gregorian ordinal of `(y, m, d)` (Python `date.toordinal`:
0001-01-01 has ordinal 1).  Meaningful for `y ≥ 1`. -/
def ordinalOf (y m d : Int) : Int :=
  365 * (y - 1) + (y - 1) / 4 - (y - 1) / 100 + (y - 1) / 400 + daysBeforeMonth y m + d

/-- Ordinal of a `Date`. -/
def Date.ord (dt : Date) : Int := ordinalOf dt.year dt.month dt.day

/-- Whether Python's `datetime(y, m, d)` construction succeeds
(`MINYEAR = 1`, `MAXYEAR = 9999`). -/
def pyDateValid (y m d : Int) : Bool :=
  1 ≤ y ∧ y ≤ 9999 ∧ 1 ≤ m ∧ m ≤ 12 ∧ 1 ≤ d ∧ d ≤ daysInMonth y m

/-- A well-formed "today" as a Python `date` object would be. -/
def validDate (dt : Date) : Bool := pyDateValid dt.year dt.month dt.day

/-! ## Catalog rows

A catalog row dict.  Fields the code always accesses through string
operations (`(r.get(f) or '').strip()` …) are `Option String` (CSV import
yields strings or `None`); fields the code reads only through
`_parse_bool` / `_parse_int` / `int(... or 0)` — which DB-sourced templates
can populate with JSON bools and ints, and which the enricher/scheduler
write back as bools, ints and strings — are `Val`. -/

structure Row where
  task_key : Option String := Option.none
  title : Option String := Option.none
  description : Option String := Option.none
  category : Option String := Option.none
  priority : Option String := Option.none
  frequency_days : Val := Val.none
  feature_requirements : Option String := Option.none
  start_offset_days : Val := Val.none
  seasonal : Val := Val.none
  seasonal_anchor_type : Option String := Option.none
  season_code : Option String := Option.none
  season_anchor_month : Val := Val.none
  season_anchor_day : Val := Val.none
  overlap_group : Option String := Option.none
  variant_rank : Val := Val.none
  safety_critical : Val := Val.none
  estimated_minutes : Val := Val.none
  activation_stage : Val := Val.none
deriving DecidableEq, Repr

/-- The row used when an index is (never, in reachable states) out of range. -/
def dfltRow : Row := {}

/-- `r['start_offset_days'] = v` — the only mutation the scheduler performs. -/
def Row.setOff (r : Row) (v : Val) : Row := { r with start_offset_days := v }

/-! ## Recurrence Calculator (`_next_anchor_date`, `_compute_next_due_date`) -/

/-- `DEFAULT_SEASON_STARTS` (src/app.py:476). -/
def seasonStarts (code : String) : Option (Int × Int) :=
  if code = "winter" then some (12, 1)
  else if code = "spring" then some (3, 1)
  else if code = "summer" then some (6, 1)
  else if code = "autumn" then some (9, 1)
  else Option.none

/-- `_next_anchor_date(month, day, today)` (src/app.py:1718): next occurrence
of the `(month, day)` anchor from `today`; both `datetime` constructions sit
in one `try`, and a `ValueError` from either falls back to Feb 28 of
`today`'s year when `month == 2`, else `today + 365` days.  Returns the
ordinal of the produced date. -/
def nextAnchorDate (month day : Int) (today : Date) : Int :=
  if pyDateValid today.year month day then
    if today.ord ≤ ordinalOf today.year month day then ordinalOf today.year month day
    else if pyDateValid (today.year + 1) month day then
      ordinalOf (today.year + 1) month day
    else if month = 2 then ordinalOf today.year 2 28 else today.ord + 365
  else if month = 2 then ordinalOf today.year 2 28 else today.ord + 365

/-- `freq or default` after `_parse_int(..., default=default)`:
a parse result of `0` is falsy and is replaced by the default. -/
def freqOrDefault (v : Val) (d : Int) : Int :=
  let x := (parseIntVal v).getD d
  if x = 0 then d else x

/-- `_compute_next_due_date(row, today)` (src/app.py:1733), returning the
ordinal of the produced date. -/
def computeNextDueDate (r : Row) (today : Date) : Int :=
  if parseBoolD r.seasonal false then
    if normKey (orEmpty r.seasonal_anchor_type) = "fixed_date" then
      -- `if m and d:` — the parsed month/day must be non-`None` and non-zero,
      -- i.e. `(parseIntVal v).getD 0 ≠ 0`
      if (parseIntVal r.season_anchor_month).getD 0 ≠ 0 ∧
          (parseIntVal r.season_anchor_day).getD 0 ≠ 0 then
        nextAnchorDate ((parseIntVal r.season_anchor_month).getD 0)
          ((parseIntVal r.season_anchor_day).getD 0) today
      else today.ord + max 1 (freqOrDefault r.frequency_days 365)
    else if normKey (orEmpty r.seasonal_anchor_type) = "season_start" then
      match seasonStarts (normKey (orEmpty r.season_code)) with
      | some (m, d) => nextAnchorDate m d today
      | Option.none => today.ord + max 1 (freqOrDefault r.frequency_days 365)
    else today.ord + max 1 (freqOrDefault r.frequency_days 365)
  else
    match parseIntVal r.start_offset_days with
    | some offset => today.ord + max 0 offset
    | Option.none => today.ord + max 1 (freqOrDefault r.frequency_days 30)

/-! ## Requirement Parser and Feature Matcher -/

/-- `ALLOWED_FEATURE_KEYS` (src/app.py:437). -/
def allowedFeatureKeys : List String :=
  ["has_hvac", "has_gutters", "has_dishwasher", "has_smoke_detectors",
   "has_water_heater", "has_water_softener", "has_garbage_disposal",
   "has_washer_dryer", "has_sump_pump", "has_well", "has_fireplace",
   "has_septic", "has_garage", "has_window_units", "has_radiator_boiler",
   "no_central_hvac", "has_refrigerator_ice", "has_range_hood",
   "has_deck_patio", "has_pool_hot_tub", "freezes", "has_pets", "pet_dog",
   "pet_cat", "pet_other", "travel_often", "has_yard", "has_carpet",
   "has_outdoor", "has_deck"]

/-- `FEATURE_KEY_ALIASES` (src/app.py:427) applied to a key. -/
def applyAlias (k : String) : String :=
  if k = "has_disposal" then "has_garbage_disposal"
  else if k = "has_washer" then "has_washer_dryer"
  else if k = "has_smoke_dectectors" then "has_smoke_detectors"
  else if k = "has_outdoor" then "has_yard"
  else if k = "has_deck" then "has_deck_patio"
  else k

/-- The trimmed, non-empty segments of a requirement string
(`[p.strip() for p in str(s).split(';') if p.strip()]`). -/
def reqParts (s : String) : List String :=
  (((splitChar ';' s.toList).map (fun p => String.mk (pyStrip p))).filter
    (fun p => p ≠ ""))

/-- Python dict lookup on an insertion-ordered association list. -/
def dlookup {κ α : Type} [DecidableEq κ] (k : κ) : List (κ × α) → Option α
  | [] => Option.none
  | p :: ps => if p.1 = k then some p.2 else dlookup k ps

/-- Insert-or-update into an insertion-ordered association list, i.e. Python
dict assignment `m[k] = v`: an existing key keeps its position. -/
def dictSet {κ α : Type} [DecidableEq κ] (m : List (κ × α)) (k : κ) (v : α) :
    List (κ × α) :=
  if (dlookup k m).isSome then
    m.map (fun p => if p.1 = k then (k, v) else p)
  else m ++ [(k, v)]

/-- One segment of `_parse_feature_requirements`' loop: either an error
message or an accepted `(key, bool)` pair, or nothing (unknown key ignored). -/
def reqSegment (part : String) : Option String ⊕ Option (String × Bool) :=
  match splitOnce '=' part.toList with
  | Option.none =>
      Sum.inl (some ("invalid requirement '" ++ part ++ "' (expected key=value)"))
  | some (k, rest) =>
      let key := applyAlias (pyStripS (String.mk k))
      let value := pyStripS (String.mk rest)
      if key ∈ allowedFeatureKeys then
        match parseBoolOpt (Val.str value) with
        | some b => Sum.inr (some (key, b))
        | Option.none =>
            Sum.inl (some ("invalid boolean for '" ++ key ++ "' -> '" ++ value ++ "'"))
      else Sum.inr Option.none

/-- `_parse_feature_requirements(s)` (src/app.py:519): returns the predicate
map (a Python dict, i.e. an insertion-ordered association list) and the list
of error messages, in order. -/
def reqStep (acc : List (String × Bool) × List String) (part : String) :
    List (String × Bool) × List String :=
  match reqSegment part with
  | Sum.inl (some e) => (acc.1, acc.2 ++ [e])
  | Sum.inl Option.none => acc
  | Sum.inr (some (k, b)) => (dictSet acc.1 k b, acc.2)
  | Sum.inr Option.none => acc

def parseFeatureRequirements (s : Option String) : List (String × Bool) × List String :=
  match s with
  | Option.none => ([], [])
  | some str =>
      if pyStripS str = "" then ([], [])
      else (reqParts str).foldl reqStep ([], [])

/-- A household `FeatureSet`: boolean feature flags plus the three-valued
`carpet` field (`'yes' | 'no' | 'some'`) the matcher special-cases. -/
structure Features where
  flags : String → Bool
  carpet : String := ""

/-- The per-pair check of `_filter_rows_by_features` (src/app.py:1782). -/
def pairMatches (f : Features) (k : String) (v : Bool) : Bool :=
  if k = "has_carpet" then
    (f.carpet = "yes" ∨ f.carpet = "some") = v
  else f.flags k = v

/-- Whether one row survives `_filter_rows_by_features`: any parse error
drops the row; otherwise all pairs must match. -/
def rowMatches (f : Features) (r : Row) : Bool :=
  let pe := parseFeatureRequirements r.feature_requirements
  if pe.2 ≠ [] then false
  else pe.1.all (fun kv => pairMatches f kv.1 kv.2)

/-- `_filter_rows_by_features(rows, features)` (src/app.py:1773). -/
def filterRowsByFeatures (rows : List Row) (f : Features) : List Row :=
  rows.filter (rowMatches f)

/-! ## Overlap Resolver (`_resolve_overlaps`, src/app.py:1798)

Python keys grouped rows by their non-empty `overlap_group` string and each
ungrouped row by a string containing `id(r)`, the row object's identity —
fresh among live objects, so an ungrouped row can never be displaced.  We
model the key space as `String ⊕ Nat`: `Sum.inl g` for group `g`,
`Sum.inr i` for the ungrouped row at position `i`. -/

/-- Trimmed overlap group of a row (`(r.get('overlap_group') or '').strip()`). -/
def groupOf (r : Row) : String := pyStripS (orEmpty r.overlap_group)

/-- `_parse_int(r.get('variant_rank'), default=999999)`. -/
def rankOf (r : Row) : Int := (parseIntVal r.variant_rank).getD 999999

/-- The per-row body of `_resolve_overlaps`' loop. -/
def overlapStep (acc : List ((String ⊕ Nat) × Row)) (ir : Nat × Row) :
    List ((String ⊕ Nat) × Row) :=
  if groupOf ir.2 = "" then dictSet acc (Sum.inr ir.1) ir.2
  else
    match dlookup (Sum.inl (groupOf ir.2)) acc with
    | Option.none => dictSet acc (Sum.inl (groupOf ir.2)) ir.2
    | some cur =>
        if rankOf ir.2 < rankOf cur then dictSet acc (Sum.inl (groupOf ir.2)) ir.2
        else acc

/-- `_resolve_overlaps(rows)`: one pass over the rows building a Python dict
(insertion-ordered), then its values. -/
def resolveOverlaps (rows : List Row) : List Row :=
  (rows.enum.foldl overlapStep []).map (fun p => p.2)

/-- Extract the value of an ungrouped (identity-keyed) dict entry. -/
def inrVal (p : (String ⊕ Nat) × Row) : Option Row :=
  match p.1 with
  | Sum.inr _ => some p.2
  | Sum.inl _ => Option.none

/-- The invariant of `_resolve_overlaps`' loop, after `processed` enumerated
rows have been folded into the dict `acc`. -/
structure OverlapInv (processed : List (Nat × Row))
    (acc : List ((String ⊕ Nat) × Row)) : Prop where
  nodup : (acc.map Prod.fst).Nodup
  inl_grp : ∀ p ∈ acc, ∀ g : String, p.1 = Sum.inl g → groupOf p.2 = g ∧ g ≠ ""
  inr_grp : ∀ p ∈ acc, ∀ i : Nat, p.1 = Sum.inr i → groupOf p.2 = ""
  min_rank : ∀ p ∈ acc, ∀ g : String, p.1 = Sum.inl g →
    ∀ ir ∈ processed, groupOf ir.2 = g → rankOf p.2 ≤ rankOf ir.2
  from_rows : ∀ p ∈ acc, p.2 ∈ processed.map Prod.snd
  inr_seq : acc.filterMap inrVal =
    (processed.map Prod.snd).filter (fun r => groupOf r = "")
  covered : ∀ g : String, g ≠ "" → Sum.inl g ∉ acc.map Prod.fst →
    ∀ ir ∈ processed, groupOf ir.2 ≠ g

/-! ## Default Enricher (`_enrich_task_rows_defaults`, src/app.py:1909) -/

/-- Whether `n` is a prefix of `h`, on character lists. -/
def isPrefB : List Char → List Char → Bool
  | [], _ => true
  | _ :: _, [] => false
  | a :: as, b :: bs => a = b && isPrefB as bs

/-- Whether `n` occurs as a contiguous substring of `h` (Python `n in h`). -/
def infixB (n : List Char) : List Char → Bool
  | [] => isPrefB n []
  | h :: t => isPrefB n (h :: t) || infixB n t

/-- Python substring containment `needle in hay`. -/
def pyIn (needle hay : String) : Bool := infixB needle.toList hay.toList

/-- `SAFETY_SURFACES` (src/app.py:1913). -/
def safetySurfaces : List String :=
  ["smoke detector", "carbon monoxide", "co detector", "gfi", "gfci", "alarm",
   "natural gas", "leak", "dryer vent", "shutoff", "sump pump"]

/-- `SAFETY_ACTION_TESTS` (src/app.py:1917). -/
def safetyActions : List String := ["test", "check", "inspect"]

/-- `CATEGORY_MAP` (src/app.py:1918), in dict order. -/
def categoryMap : List (String × List String) :=
  [("hvac", ["filter", "furnace", "air handler", "ac ", "a/c", "condenser", "registers"]),
   ("plumbing", ["water heater", "sink", "toilet", "leak", "softener", "septic", "sump", "shutoff"]),
   ("kitchen", ["dishwasher", "range hood", "refrigerator", "garbage disposal"]),
   ("exterior", ["gutters", "downspout", "deck", "patio", "fence", "garage door", "roof", "masonry", "brick"]),
   ("safety", ["smoke", "co ", "carbon monoxide", "alarm", "extinguisher", "gfi", "gfci", "fire "]),
   ("laundry", ["dryer", "lint", "washer"])]

/-- First category whose keyword list hits the lowercased title. -/
def firstCategory (tlow : String) : Option String :=
  (categoryMap.find? (fun c => c.2.any (fun k => pyIn k tlow))).map (fun c => c.1)

/-- Safety-critical default plus the fire-extinguisher-replacement override.
(No stage below touches `title`, `priority` before its own stage, etc., so
each stage recomputes `tlow` from its input row with identical results.) -/
def enrichSafety (r : Row) : Row :=
  let tlow := pyLowerS (pyStripS (orEmpty r.title))
  let sc1 : Val :=
    if isBlank r.safety_critical then
      Val.bool ((safetySurfaces.any (fun k => pyIn k tlow)) &&
                (safetyActions.any (fun a => pyIn a tlow)))
    else r.safety_critical
  let sc2 : Val :=
    if pyIn "replace" tlow && pyIn "extinguisher" tlow then Val.bool false else sc1
  { r with safety_critical := sc2 }

/-- Priority default. -/
def enrichPriority (r1 : Row) : Row :=
  let tlow := pyLowerS (pyStripS (orEmpty r1.title))
  let pr := normKey (orEmpty r1.priority)
  if pr = "" then
    if pyTruthy r1.safety_critical then { r1 with priority := some "high" }
    else if pyIn "filter" tlow || pyIn "gutters" tlow then { r1 with priority := some "medium" }
    else { r1 with priority := Option.none }
  else r1

/-- Category default from title keywords. -/
def enrichCategory (r2 : Row) : Row :=
  let tlow := pyLowerS (pyStripS (orEmpty r2.title))
  let cat := normKey (orEmpty r2.category)
  if cat = "" then
    match firstCategory tlow with
    | some name => { r2 with category := some name }
    | Option.none => r2
  else r2

/-- Seasonal default from metadata / title keywords. -/
def enrichSeasonal (r3 : Row) : Row :=
  let tlow := pyLowerS (pyStripS (orEmpty r3.title))
  if isBlank r3.seasonal then
    let hasSeasonMeta := pyStripS (orEmpty r3.season_code) ≠ "" ||
      pyStripS (orEmpty r3.seasonal_anchor_type) ≠ ""
    if hasSeasonMeta || pyIn "winterize" tlow || pyIn "spring" tlow ||
        pyIn "fall " tlow || pyIn "autumn" tlow then
      { r3 with seasonal := Val.bool true }
    else r3
  else r3

/-- Activation stage from frequency. -/
def enrichActivation (r4 : Row) : Row :=
  let freq := pyIntOr0 r4.frequency_days
  if isBlank r4.activation_stage then
    if freq ≥ 365 * 2 then { r4 with activation_stage := Val.int 3 }
    else if freq ≥ 180 then { r4 with activation_stage := Val.int 2 }
    else { r4 with activation_stage := Val.int 1 }
  else r4

/-- `_enrich_task_rows_defaults` on one row (the Python loop body mutates
each row independently). -/
def enrichRow (r : Row) : Row :=
  enrichActivation (enrichSeasonal (enrichCategory (enrichPriority (enrichSafety r))))

/-- `_enrich_task_rows_defaults(rows)`. -/
def enrichRows (rows : List Row) : List Row := rows.map enrichRow

/-! ## `_estimate_minutes` (src/app.py:2370) -/

def estimateMinutes (r : Row) : Int :=
  let explicit : Option Int :=
    match r.estimated_minutes with
    | Val.none => Option.none
    | Val.str s =>
        if pyStripS s = "" then Option.none
        else match pyStrToInt s with
          | some v => if 0 < v then some v else Option.none
          | Option.none => Option.none
    | Val.bool b => if b then some 1 else Option.none
    | Val.int n => if 0 < n then some n else Option.none
  match explicit with
  | some v => v
  | Option.none =>
      let pri := normKey (orEmpty r.priority)
      let cat := normKey (orEmpty r.category)
      let base : Int := if pri = "high" then 45 else if pri = "medium" then 30 else 20
      let base := if cat = "exterior" ∨ cat = "general house checks" then base + 10 else base
      let base := if cat = "safety" ∨ cat = "logistics" then max 10 (base - 10) else base
      base

/-! ## Onboarding Ramp Scheduler (`_apply_onboarding_ramp`, src/app.py:1975)

The Python function mutates row dicts in place (only ever the
`start_offset_days` entry) while `immediate` / `later` hold references to
those dicts; `r in list` and `list.remove(r)` compare dicts by value.  We
model the evolving rows as a list `st : List Row` updated by index, and
`immediate` / `later` as lists of indices, with membership tests and
removals comparing the *current value* at each index — exactly Python's
semantics. -/

/-- Current value of the row object at index `i`. -/
def stGet (st : List Row) (i : Nat) : Row := st.getD i dfltRow

/-- In-place mutation `st[i]['start_offset_days'] = v`. -/
def setOffAt (st : List Row) (i : Nat) (v : Val) : List Row :=
  st.set i ((stGet st i).setOff v)

/-- Python `r in lst` where `lst` holds row references: value comparison. -/
def valueMem (st : List Row) (l : List Nat) (r : Row) : Bool :=
  l.any (fun j => stGet st j = r)

/-- Python `lst.remove(r)`: drop the first value-equal entry (total here; in
every reachable call the element is present). -/
def removeFirstVal (st : List Row) : List Nat → Row → List Nat
  | [], _ => []
  | j :: js, r => if stGet st j = r then js else j :: removeFirstVal st js r

/-- The row object at index `i` with its offset slot blanked: the scheduler
writes only `start_offset_days`, so this view is invariant through every
phase. -/
def coreAt (st : List Row) (i : Nat) : Row := (stGet st i).setOff Val.none

/-- The effective ramp configuration. -/
structure RampCaps where
  near : Int
  cap : Int
  stagger : Int
  perDay : Int
deriving DecidableEq, Repr

/-- The caps `_apply_onboarding_ramp` computes from `RAMP_SETTINGS`
(src/app.py:491: near_term_days 21, initial_cap 5, stagger_weeks 12) and the
persona / weekly-time-budget overrides (src/app.py:1994–2027), for a user
row with the given persona string and budget. -/
def rampCaps (persona : String) (budget : Option Int) : RampCaps :=
  let p := normKey persona
  let c0 : RampCaps :=
    if p = "buyer" then ⟨21, 4, 12, 2⟩
    else if p = "catching_up" then ⟨21, 6, 10, 3⟩
    else if p = "on_top" then ⟨21, 8, 8, 3⟩
    else ⟨21, 5, max 1 12, 3⟩
  match budget with
  | Option.none => c0
  | some b =>
      if b ≤ 30 then ⟨c0.near, max 3 (c0.cap - 1), max c0.stagger 12, 2⟩
      else if b ≥ 120 then ⟨c0.near, min 10 (c0.cap + 1), c0.stagger, min 4 (c0.perDay + 1)⟩
      else c0

/-- The defaults: no persona override, no time budget. -/
def defaultCaps : RampCaps := rampCaps "" Option.none

/-- Row accessors used by the scheduler (all on the *current* row value). -/
def safetyAt (st : List Row) (i : Nat) : Bool := parseBoolD (stGet st i).safety_critical false

def seasonalAt (st : List Row) (i : Nat) : Bool := parseBoolD (stGet st i).seasonal false

def freqAt (st : List Row) (i : Nat) : Int := pyIntOr0 (stGet st i).frequency_days

def offAt (st : List Row) (i : Nat) : Option Int := parseIntVal (stGet st i).start_offset_days

def priAt (st : List Row) (i : Nat) : String := normKey (orEmpty (stGet st i).priority)

/-- `(next_due - today).days` with the offset-free due date (src/app.py:2040). -/
def daysOutAt (today : Date) (st : List Row) (i : Nat) : Int :=
  computeNextDueDate (stGet st i) today - today.ord

/-- Scoring (src/app.py:2047–2056). -/
def rampScore (near : Int) (today : Date) (st : List Row) (i : Nat) : Int :=
  (if safetyAt st i then 100 else 0) +
  (if priAt st i = "high" then 20 else if priAt st i = "medium" then 10 else 0) +
  (if seasonalAt st i ∧ daysOutAt today st i ≤ near then 15 else 0)

/-- The sort key order `(-score, days_out)`; ties keep input order (Python's
sort is stable, as is `List.insertionSort` with this total preorder). -/
def rampLE (near : Int) (today : Date) (st : List Row) (i j : Nat) : Bool :=
  decide (rampScore near today st j < rampScore near today st i) ||
  (decide (rampScore near today st i = rampScore near today st j) &&
   decide (daysOutAt today st i ≤ daysOutAt today st j))

/-- Indices `0 .. n-1` in Python's `scored.sort(key=(-score, days_out))`
order. -/
def sortedIdx (near : Int) (today : Date) (st : List Row) : List Nat :=
  List.insertionSort (fun i j => rampLE near today st i j = true) (List.range st.length)

/-- Step "keep all safety immediate" (src/app.py:2061–2066): walk the sorted
list appending each index to `immediate` or `later`. -/
def splitStep (st : List Row) (p : List Nat × List Nat) (i : Nat) : List Nat × List Nat :=
  if safetyAt st i then (p.1 ++ [i], p.2) else (p.1, p.2 ++ [i])

def splitSafety (st : List Row) (sorted : List Nat) : List Nat × List Nat :=
  sorted.foldl (splitStep st) ([], [])

/-- The near-term seasonal members of `later` (src/app.py:2069). -/
def nearTermList (near : Int) (today : Date) (st : List Row) (lat : List Nat) : List Nat :=
  lat.filter (fun i => seasonalAt st i && decide (daysOutAt today st i ≤ near))

/-- Step "pull near-term seasonal into immediate" (src/app.py:2068–2073). -/
def pullStep (st : List Row) (p : List Nat × List Nat) (i : Nat) : List Nat × List Nat :=
  if valueMem st p.2 (stGet st i) then
    (p.1 ++ [i], removeFirstVal st p.2 (stGet st i))
  else p

def pullNearTerm (near : Int) (today : Date) (st : List Row) (imm lat : List Nat) :
    List Nat × List Nat :=
  (nearTermList near today st lat).foldl (pullStep st) (imm, lat)

/-- Step "defer multi-year tasks out of immediate" (src/app.py:2076–2088):
iterate over a snapshot of `immediate`, set the offset to
`str(max(parsed or 0, 180))`, then remove the (just-mutated) row from the
evolving `immediate`; returns `(st, immediate, deferred)`. -/
def deferStep (acc : List Row × List Nat × List Nat) (i : Nat) :
    List Row × List Nat × List Nat :=
  if freqAt acc.1 i ≥ 365 * 2 && !(safetyAt acc.1 i) then
    let st' := setOffAt acc.1 i (Val.str (pyIntToStr (max ((offAt acc.1 i).getD 0) 180)))
    (st', removeFirstVal st' acc.2.1 (stGet st' i), acc.2.2 ++ [i])
  else acc

def deferMultiYear (st : List Row) (imm : List Nat) : List Row × List Nat × List Nat :=
  imm.foldl deferStep (st, imm, [])

/-- Step "hard defer annual non-seasonal" (src/app.py:2091–2100): members of
`later` with `frequency_days ≥ 365`, not seasonal, and no offset yet get
offset `'90'`. -/
def hardDeferStep (st : List Row) (i : Nat) : List Row :=
  if freqAt st i ≥ 365 && !(seasonalAt st i) then
    match offAt st i with
    | Option.none => setOffAt st i (Val.str "90")
    | some _ => st
  else st

def hardDeferAnnual (st : List Row) (lat : List Nat) : List Row :=
  lat.foldl hardDeferStep st

/-- Step "fill remaining immediate up to the cap" (src/app.py:2102–2120):
walk the score-sorted list; skip rows already (value-)present in
`immediate`; stop when no slots remain; on a first seed skip non-safety
rows with `frequency_days ≥ 365`; otherwise move the row from `later` to
`immediate`. -/
def fillImmediate (st : List Row) (firstSeed : Bool) :
    List Nat → List Nat → List Nat → Int → List Nat × List Nat
  | [], imm, lat, _ => (imm, lat)
  | j :: q, imm, lat, rem =>
      if valueMem st imm (stGet st j) then fillImmediate st firstSeed q imm lat rem
      else if rem ≤ 0 then (imm, lat)
      else if firstSeed && (freqAt st j ≥ 365 && !(safetyAt st j)) then
        fillImmediate st firstSeed q imm lat rem
      else
        fillImmediate st firstSeed q (imm ++ [j]) (removeFirstVal st lat (stGet st j)) (rem - 1)

/-- The stagger loop body (src/app.py:2125–2134): assign `str(7 * week)` to
rows with no offset yet; `count` increments each iteration and rolls the
week when it reaches `per_week`. -/
def staggerLoop (perWeek : Int) : List Nat → List Row → Int → Int → List Row
  | [], st, _, _ => st
  | i :: rest, st, week, count =>
      let st' := match offAt st i with
        | Option.none => setOffAt st i (Val.str (pyIntToStr (7 * week)))
        | some _ => st
      if count + 1 ≥ perWeek then staggerLoop perWeek rest st' (week + 1) 0
      else staggerLoop perWeek rest st' week (count + 1)

/-- Step "stagger the rest across weeks" (src/app.py:2122–2134). -/
def staggerLater (stagger : Int) (st : List Row) (lat : List Nat) : List Row :=
  if lat = [] then st
  else
    let L : Int := lat.length
    let perWeek := max 1 (L.fdiv stagger + (if L.fmod stagger ≠ 0 then 1 else 0))
    staggerLoop perWeek lat st 0 0

/-- The immediate-placement loop body (src/app.py:2138–2148): roll to the
next day once `per_day_cap` rows have been counted on the current day, then
assign `str(min(6, max(0, day_cursor)))` to rows with no offset yet;
`daily_count` increments whether or not an offset was assigned. -/
def placeLoop (perDay : Int) : List Nat → List Row → Int → Int → List Row
  | [], st, _, _ => st
  | i :: rest, st, day, daily =>
      let roll := daily ≥ perDay
      let day' := if roll then day + 1 else day
      let daily' : Int := if roll then 0 else daily
      let st' := match offAt st i with
        | Option.none => setOffAt st i (Val.str (pyIntToStr (min 6 (max 0 day'))))
        | some _ => st
      placeLoop perDay rest st' day' (daily' + 1)

/-- Step "distribute immediate tasks across the first week"
(src/app.py:2136–2148). -/
def placeImmediate (perDay : Int) (st : List Row) (imm : List Nat) : List Row :=
  if imm = [] then st else placeLoop perDay imm st 0 0

/-- `_apply_onboarding_ramp(user_id, rows, today, first_seed)`
(src/app.py:1975): a no-op unless `first_seed` (`RAMP_SETTINGS['enabled']`
is the constant `True`); otherwise score, sort, split, pull near-term
seasonal, defer long-interval tasks, fill up to the cap, stagger the rest
and place the immediate set.  The caps come from `rampCaps`. -/
def applyOnboardingRamp (caps : RampCaps) (today : Date) (firstSeed : Bool)
    (rows : List Row) : List Row :=
  if !firstSeed then rows
  else
    let st := rows
    let sorted := sortedIdx caps.near today st
    let p1 := splitSafety st sorted
    let p2 := pullNearTerm caps.near today st p1.1 p1.2
    let d := if firstSeed then deferMultiYear st p2.1 else (st, p2.1, [])
    let st3 := d.1
    let imm3 := d.2.1
    let lat3 := p2.2 ++ d.2.2
    let st4 := if firstSeed then hardDeferAnnual st3 lat3 else st3
    let rem := max 0 (caps.cap - (imm3.length : Int))
    let p5 := fillImmediate st4 firstSeed sorted imm3 lat3 rem
    let st6 := staggerLater caps.stagger st4 p5.2
    placeImmediate caps.perDay st6 p5.1

/-! ## Generation orchestration (`seed_tasks_from_catalog_rows`,
src/app.py:2202, pure part) -/

/-- The post-ramp safety net (src/app.py:2269–2278): during ramp mode every
row with `frequency_days ≥ 365` that is not safety-critical and whose
offset is unset or `< 90` is forced to offset `'90'`. -/
def safetyNetRow (r : Row) : Row :=
  if pyIntOr0 r.frequency_days ≥ 365 && !(parseBoolD r.safety_critical false) then
    match parseIntVal r.start_offset_days with
    | Option.none => r.setOff (Val.str "90")
    | some so => if so < 90 then r.setOff (Val.str "90") else r
  else r

def safetyNet (rows : List Row) : List Row := rows.map safetyNetRow

/-- During ramp mode the orchestrator nulls any catalog-provided
`start_offset_days` before enrichment (src/app.py:2258–2262); DB-sourced
rows arrive without the key, which our model identifies with holding
`None`. -/
def clearOffsets (rows : List Row) : List Row :=
  rows.map (fun r => r.setOff Val.none)

/-- The pure row pipeline of `seed_tasks_from_catalog_rows`
(src/app.py:2256–2278): filter by features, clear offsets in ramp mode,
enrich defaults, resolve overlaps, apply the ramp, apply the ramp-mode
safety net. -/
def seedPipeline (caps : RampCaps) (today : Date) (rampMode : Bool)
    (f : Features) (allRows : List Row) : List Row :=
  let filtered := filterRowsByFeatures allRows f
  let cleared := if rampMode then clearOffsets filtered else filtered
  let enriched := enrichRows cleared
  let resolved := resolveOverlaps enriched
  let ramped := applyOnboardingRamp caps today rampMode resolved
  if rampMode then safetyNet ramped else ramped

/-- The intermediate resolved list the ramp is applied to. -/
def resolvedRows (rampMode : Bool) (f : Features) (allRows : List Row) : List Row :=
  let filtered := filterRowsByFeatures allRows f
  let cleared := if rampMode then clearOffsets filtered else filtered
  resolveOverlaps (enrichRows cleared)

/-- The scheduling applied to an already-resolved list on a first
generation: the ramp with `first_seed = True` followed by the ramp-mode
safety net. -/
def firstGenSchedule (caps : RampCaps) (today : Date) (resolved : List Row) : List Row :=
  safetyNet (applyOnboardingRamp caps today true resolved)

/-- A task record as `_insert_tasks_for_user` (src/app.py:1813) builds it
(persistence-only fields such as `user_id` / `is_completed` omitted; the
`task_key` column toggle is a persistence capability, out of scope). -/
structure Payload where
  title : String
  description : String
  frequency_days : Int
  next_due : Int
  priority : Option String
  category : Option String
  seasonal : Bool
  seasonal_anchor_type : Option String
  season_code : Option String
  season_anchor_month : Option Int
  season_anchor_day : Option Int
  estimated_minutes : Int
  stagger_offset : Option Int
deriving DecidableEq, Repr

/-- `s or None` for an optional string. -/
def orNone (o : Option String) : Option String :=
  if orEmpty o = "" then Option.none else o

/-- One row of `_insert_tasks_for_user`'s payload loop (src/app.py:1820):
empty titles are skipped; `next_due_date` is `_compute_next_due_date` on the
(ramped) row. -/
def buildPayload (today : Date) (r : Row) : Option Payload :=
  let title := pyStripS (orEmpty r.title)
  if title = "" then Option.none
  else
    let pr := normKey (orEmpty r.priority)
    let priority : Option String :=
      if pr = "" then Option.none
      else if pr = "low" ∨ pr = "medium" ∨ pr = "high" then some pr
      else Option.none
    let seasonal := parseBoolD r.seasonal false
    let dflt : Int := if seasonal then 365 else 30
    let fd0 := freqOrDefault r.frequency_days dflt
    some
      { title := title
        description := pyStripS (orEmpty r.description)
        frequency_days := if fd0 < 1 then dflt else fd0
        next_due := computeNextDueDate r today
        priority := priority
        category := orNone (some (pyStripS (orEmpty r.category)))
        seasonal := seasonal
        seasonal_anchor_type := orNone r.seasonal_anchor_type
        season_code := orNone (some (normKey (orEmpty r.season_code)))
        season_anchor_month := parseIntVal r.season_anchor_month
        season_anchor_day := parseIntVal r.season_anchor_day
        estimated_minutes := estimateMinutes r
        stagger_offset := parseIntVal r.start_offset_days }

def buildPayloads (today : Date) (rows : List Row) : List Payload :=
  rows.filterMap (buildPayload today)

/-- End-to-end: the payload list a generation run hands to persistence. -/
def generateTasks (caps : RampCaps) (today : Date) (rampMode : Bool)
    (f : Features) (allRows : List Row) : List Payload :=
  buildPayloads today (seedPipeline caps today rampMode f allRows)

/-! ## Spec-side definitions and concrete instances used by the claims -/

/-- The spec's description of the anchored next-occurrence rule: "compute
the next occurrence of `(month, day)` on or after today, rolling to next
year if this year's date has passed". -/
def nextOccurrenceSpec (m d : Int) (today : Date) : Int :=
  if today.ord ≤ ordinalOf today.year m d then ordinalOf today.year m d
  else ordinalOf (today.year + 1) m d

/-- The error (if any) that one requirement segment contributes. -/
def segError (part : String) : Option String :=
  match reqSegment part with
  | Sum.inl e => e
  | Sum.inr _ => Option.none

/-- Rank comparison under the claim's reading "a missing or unparseable
rank counts as effectively infinite". -/
def extRankLE (r s : Row) : Bool :=
  match parseIntVal r.variant_rank, parseIntVal s.variant_rank with
  | Option.none, Option.none => true
  | Option.none, some _ => false
  | some _, Option.none => true
  | some a, some b => a ≤ b

/-- The claim's survivor-minimality property with infinite missing ranks. -/
def survivorsMinimalInf (rows : List Row) : Prop :=
  ∀ r ∈ resolveOverlaps rows, groupOf r ≠ "" →
    ∀ s ∈ rows, groupOf s = groupOf r → extRankLE r s = true

/-- Two variants in group `"g"`: an explicit rank above 999999, and a
missing rank. -/
def rankARow : Row :=
  { title := some "A", overlap_group := some "g", variant_rank := Val.str "1000000" }

def rankBRow : Row := { title := some "B", overlap_group := some "g" }

/-- Same-group variants with explicit ranks 1 and 2, plus two ungrouped
rows sharing a title. -/
def gutterARow : Row :=
  { title := some "gutter a", overlap_group := some "gutter_check",
    variant_rank := Val.str "1" }

def gutterBRow : Row :=
  { title := some "gutter b", overlap_group := some "gutter_check",
    variant_rank := Val.str "2" }

def sameTitleRow : Row := { title := some "same" }

/-- An explicitly safety-critical catalog row. -/
def safetyRow (t : String) : Row :=
  { title := some t, frequency_days := Val.str "30", safety_critical := Val.str "true" }

/-- Four safety-critical rows: one more than the default `per_day_cap`. -/
def c2Rows : List Row := [safetyRow "a", safetyRow "b", safetyRow "c", safetyRow "d"]

/-- A household with no features enabled. -/
def noFeats : Features := { flags := fun _ => false, carpet := "" }

/-- A near-term seasonal annual task: natural due date Nov 5, within 21
days of Nov 1. -/
def winterRow : Row :=
  { title := some "Winterize faucets", frequency_days := Val.str "365",
    seasonal := Val.str "true", seasonal_anchor_type := some "fixed_date",
    season_anchor_month := Val.str "11", season_anchor_day := Val.str "5" }

/-- A near-term seasonal task below the annual threshold. -/
def springC7Row : Row :=
  { title := some "Spring yard check", frequency_days := Val.str "180",
    seasonal := Val.str "true", seasonal_anchor_type := some "fixed_date",
    season_anchor_month := Val.str "11", season_anchor_day := Val.str "5" }

/-- Whether a row's parsed offset lies in the first week, `[0, 6]`. -/
def inFirstWeek (r : Row) : Bool :=
  match parseIntVal r.start_offset_days with
  | some v => decide (0 ≤ v ∧ v ≤ 6)
  | Option.none => false

/-- The number of tasks that actually land in the first week under the
default caps (`initial_cap = 5`, `stagger_weeks = 12`) on a catalog of `n`
resolved tasks with no safety-critical and no near-term seasonal rows: the
immediate `min n 5` plus the first stagger batch, which is placed at week 0. -/
def firstWeekCount (n : Nat) : Nat :=
  min 5 n +
  min (n - 5)
    (max 1 (((n - 5 : Nat) : Int).fdiv 12 +
      (if ((n - 5 : Nat) : Int).fmod 12 ≠ 0 then 1 else 0))).toNat

/-- A plain monthly task with the given title. -/
def mk30 (t : String) : Row := { title := some t, frequency_days := Val.str "30" }

/-- Six monthly tasks: one more than the default `initial_cap`. -/
def c1Rows : List Row :=
  [mk30 "Task a", mk30 "Task b", mk30 "Task c", mk30 "Task d", mk30 "Task e", mk30 "Task f"]

/-- The C9 scenario template. -/
def hvacRow : Row :=
  { title := some "Replace HVAC Filter", frequency_days := Val.str "30",
    feature_requirements := some "has_hvac=true" }

/-- The C9 scenario feature set: only `has_hvac` is true. -/
def hvacFeats : Features := { flags := fun k => k = "has_hvac", carpet := "" }

/-- A catalog row carrying an explicit `start_offset_days`. -/
def offRow : Row :=
  { title := some "With offset", frequency_days := Val.str "30",
    start_offset_days := Val.str "3" }

/-- A row whose requirement string has one malformed segment. -/
def bogusRow : Row := { feature_requirements := some "has_hvac=true;bogus" }

/-- A household with every boolean feature enabled. -/
def allFeats : Features := { flags := fun _ => true, carpet := "" }

/-- A seasonal template anchored to the invalid fixed date Feb 30. -/
def feb30Row : Row :=
  { seasonal := Val.str "true", seasonal_anchor_type := some "fixed_date",
    season_anchor_month := Val.str "2", season_anchor_day := Val.str "30" }

/-- A seasonal fixed-date template anchored on the leap day Feb 29. -/
def feb29Row : Row :=
  { seasonal := Val.str "true", seasonal_anchor_type := some "fixed_date",
    season_anchor_month := Val.str "2", season_anchor_day := Val.str "29" }

/-! ### Round-trip: parsing a rendered offset gives the offset back -/

theorem digitsAux_ne_nil (fuel n : Nat) (h : n < fuel) : digitsAux fuel n ≠ [] := by
  induction fuel generalizing n with
  | zero => omega
  | succ f ih =>
      simp only [digitsAux]
      split
      · simp
      · exact List.append_ne_nil_of_right_ne_nil _ (by simp)

theorem isDigit_digitChar {d : Nat} (h : d < 10) : (digitChar d).isDigit = true := by
  interval_cases d <;> decide

theorem digitVal_digitChar {d : Nat} (h : d < 10) : digitVal (digitChar d) = d := by
  interval_cases d <;> decide

theorem digitsAux_all_digit (fuel n : Nat) (h : n < fuel) :
    (digitsAux fuel n).all Char.isDigit = true := by
  induction fuel generalizing n with
  | zero => omega
  | succ f ih =>
      simp only [digitsAux]
      split
      · next h10 => simp [isDigit_digitChar h10]
      · next h10 =>
          rw [List.all_append, Bool.and_eq_true]
          refine And.intro ?_ ?_
          · exact ih (n / 10) (by omega)
          · simp [isDigit_digitChar (Nat.mod_lt n (by omega))]

theorem digitsToNat_append (xs : List Char) (c : Char) :
    digitsToNat (xs ++ [c]) = 10 * digitsToNat xs + digitVal c := by
  simp [digitsToNat, List.foldl_append]

theorem digitsToNat_digitsAux (fuel n : Nat) (h : n < fuel) :
    digitsToNat (digitsAux fuel n) = n := by
  induction fuel generalizing n with
  | zero => omega
  | succ f ih =>
      simp only [digitsAux]
      split
      · next h10 => simp [digitsToNat, digitVal_digitChar h10]
      · next h10 =>
          rw [digitsToNat_append, ih (n / 10) (by omega),
            digitVal_digitChar (Nat.mod_lt n (by omega))]
          omega

theorem parseDigits_natDigits (n : Nat) : parseDigits (natDigits n) = some n := by
  have h1 := digitsAux_ne_nil (n + 1) n (by omega)
  have h2 := digitsAux_all_digit (n + 1) n (by omega)
  have h3 := digitsToNat_digitsAux (n + 1) n (by omega)
  simp [parseDigits, natDigits, h1, h2, h3]

theorem not_whitespace_of_isDigit {c : Char} (h : c.isDigit = true) :
    c.isWhitespace = false := by
  have h1 : ¬ (c = ' ') := by rintro rfl; revert h; decide
  have h2 : ¬ (c = '\t') := by rintro rfl; revert h; decide
  have h3 : ¬ (c = '\n') := by rintro rfl; revert h; decide
  have h4 : ¬ (c = '\r') := by rintro rfl; revert h; decide
  simp [Char.isWhitespace, h1, h2, h3, h4]

theorem dropWhile_eq_self_of_head {p : Char → Bool} :
    ∀ (l : List Char), (∀ c ∈ l.head?, p c = false) → l.dropWhile p = l
  | [], _ => rfl
  | c :: cs, h => by
      have := h c (by simp)
      simp [List.dropWhile, this]

theorem pyStrip_all_digits (ds : List Char) (hne : ds ≠ [])
    (hall : ds.all Char.isDigit = true) : pyStrip ds = ds := by
  have hhead : ∀ (l : List Char), l ≠ [] → l.all Char.isDigit = true →
      l.dropWhile Char.isWhitespace = l := by
    intro l hl ha
    refine dropWhile_eq_self_of_head l ?_
    intro c hc
    cases l with
    | nil => exact absurd rfl hl
    | cons x xs =>
        simp only [List.head?_cons, Option.mem_def, Option.some.injEq] at hc
        subst hc
        simp only [List.all_cons, Bool.and_eq_true] at ha
        exact not_whitespace_of_isDigit ha.1
  have h1 : ds.dropWhile Char.isWhitespace = ds := hhead ds hne hall
  have hrev_ne : ds.reverse ≠ [] := by simpa using hne
  have hrev_all : ds.reverse.all Char.isDigit = true := by
    simp only [List.all_eq_true] at hall ⊢
    intro c hc
    exact hall c (List.mem_reverse.mp hc)
  have h2 : ds.reverse.dropWhile Char.isWhitespace = ds.reverse :=
    hhead ds.reverse hrev_ne hrev_all
  simp [pyStrip, h1, h2]

theorem head_natDigits_isDigit (n : Nat) :
    ∀ c ∈ (natDigits n).head?, c.isDigit = true := by
  have hall := digitsAux_all_digit (n + 1) n (by omega)
  rw [List.all_eq_true] at hall
  intro c hc
  refine hall c ?_
  cases h : natDigits n with
  | nil => rw [h] at hc; simp at hc
  | cons x xs =>
      rw [h] at hc
      simp only [List.head?_cons, Option.mem_def, Option.some.injEq] at hc
      have : c ∈ natDigits n := by rw [h, ← hc]; simp
      simpa [natDigits] using this

/-- Rendering a natural number with `str` and parsing it back with `int`
returns the same number. -/
theorem pyStrToInt_natDigits (n : Nat) :
    pyStrToInt (String.mk (natDigits n)) = some (n : Int) := by
  have hne := digitsAux_ne_nil (n + 1) n (by omega)
  have hall := digitsAux_all_digit (n + 1) n (by omega)
  have hstrip : pyStrip (natDigits n) = natDigits n :=
    pyStrip_all_digits _ (by simpa [natDigits] using hne) (by simpa [natDigits] using hall)
  have htl : (String.mk (natDigits n)).toList = natDigits n := rfl
  rw [pyStrToInt, htl, hstrip]
  have hhead := head_natDigits_isDigit n
  cases h : natDigits n with
  | nil => exact absurd h (by simpa [natDigits] using hne)
  | cons x xs =>
      have hx : x.isDigit = true := by
        apply hhead
        rw [h]; simp
      have hxm : ¬ (x = '-') := by rintro rfl; revert hx; decide
      have hxp : ¬ (x = '+') := by rintro rfl; revert hx; decide
      have hparse : parseDigits (x :: xs) = some n := by
        rw [← h]; exact parseDigits_natDigits n
      simp [hxm, hxp, hparse]


theorem pyIntToStr_nonneg (i : Int) (h : 0 ≤ i) :
    pyIntToStr i = String.mk (natDigits i.toNat) := by
  rw [pyIntToStr, if_neg (by omega)]

/-- Round-trip for non-negative integers: `_parse_int(str(i)) = i`. -/
theorem parseIntVal_pyIntToStr (i : Int) (h : 0 ≤ i) :
    parseIntVal (Val.str (pyIntToStr i)) = some i := by
  rw [parseIntVal, pyIntToStr_nonneg i h, pyStrToInt_natDigits]
  congr 1
  omega

/-! ## Claim C4: recurrence fallback order -/

theorem daysInMonth_feb (y : Int) : daysInMonth y 2 = if isLeap y then 29 else 28 := by
  unfold daysInMonth
  norm_num

theorem pyDateValid_feb30_false (y : Int) : pyDateValid y 2 30 = false := by
  have h : daysInMonth y 2 < 30 := by
    rw [daysInMonth_feb]; split <;> norm_num
  simp only [pyDateValid]
  rw [decide_eq_false_iff_not]
  rintro ⟨_, _, _, _, _, h6⟩
  omega

/-- The `fixed_date` dispatch of the calculator. -/
theorem computeNextDueDate_fixed (r : Row) (today : Date)
    (hs : parseBoolD r.seasonal false = true)
    (ha : normKey (orEmpty r.seasonal_anchor_type) = "fixed_date")
    (mv dv : Int) (hm : parseIntVal r.season_anchor_month = some mv)
    (hd : parseIntVal r.season_anchor_day = some dv)
    (hmv : mv ≠ 0) (hdv : dv ≠ 0) :
    computeNextDueDate r today = nextAnchorDate mv dv today := by
  rw [computeNextDueDate, if_pos hs, if_pos ha, hm, hd]
  simp only [Option.getD_some]
  rw [if_pos ⟨hmv, hdv⟩]

/-- The `season_start` dispatch of the calculator. -/
theorem computeNextDueDate_season (r : Row) (today : Date)
    (hs : parseBoolD r.seasonal false = true)
    (ha : normKey (orEmpty r.seasonal_anchor_type) = "season_start")
    (m d : Int) (hc : seasonStarts (normKey (orEmpty r.season_code)) = some (m, d)) :
    computeNextDueDate r today = nextAnchorDate m d today := by
  have hne : ¬ (normKey (orEmpty r.seasonal_anchor_type) = "fixed_date") := by
    rw [ha]; decide
  rw [computeNextDueDate, if_pos hs, if_neg hne, if_pos ha, hc]

/-- When the anchor date is constructible this year and next,
`_next_anchor_date` is the spec's next-occurrence rule. -/
theorem nextAnchorDate_valid (m d : Int) (today : Date)
    (h1 : pyDateValid today.year m d = true)
    (h2 : pyDateValid (today.year + 1) m d = true) :
    nextAnchorDate m d today = nextOccurrenceSpec m d today := by
  rw [nextAnchorDate, if_pos h1, nextOccurrenceSpec]
  by_cases hle : today.ord ≤ ordinalOf today.year m d
  · rw [if_pos hle, if_pos hle]
  · rw [if_neg hle, if_neg hle, if_pos h2]

/-- When the anchor is not constructible this year, or has passed and is
not constructible next year (only a Feb 29 anchor can reach these cases),
`_next_anchor_date` does not roll to the next true occurrence: it falls back
to Feb 28 of *today's* year for a February anchor, else to `today + 365`. -/
theorem nextAnchorDate_fallback (m d : Int) (today : Date)
    (h : ¬(pyDateValid today.year m d = true ∧
      (today.ord ≤ ordinalOf today.year m d ∨
        pyDateValid (today.year + 1) m d = true))) :
    nextAnchorDate m d today =
      if m = 2 then ordinalOf today.year 2 28 else today.ord + 365 := by
  rw [nextAnchorDate]
  by_cases h1 : pyDateValid today.year m d = true
  · rw [if_pos h1]
    by_cases hle : today.ord ≤ ordinalOf today.year m d
    · exact absurd ⟨h1, Or.inl hle⟩ h
    · rw [if_neg hle, if_neg (fun h2 => h ⟨h1, Or.inr h2⟩)]
  · rw [if_neg h1]

/-- **C4 (counterexample).** The claim reads branch 1 as "parseable
month/day gives the next occurrence of that `(month, day)` on or after
today" — for the parseable, genuinely constructible anchor `(2, 29)` and
`today = 2024-03-01` (a leap year whose Feb 29 has passed), the code
returns 2024-02-28: a date *before* today that is not an occurrence of
`(2, 29)` at all, instead of the next occurrence 2028-02-29. -/
theorem c4_feb29_counterexample :
    pyDateValid 2024 2 29 = true ∧
    computeNextDueDate feb29Row ⟨2024, 3, 1⟩ = ordinalOf 2024 2 28 ∧
    computeNextDueDate feb29Row ⟨2024, 3, 1⟩ < (Date.ord ⟨2024, 3, 1⟩) ∧
    computeNextDueDate feb29Row ⟨2024, 3, 1⟩ ≠ ordinalOf 2028 2 29 := by
  decide

/-- **C4 (amended).** The recurrence calculator follows the documented
fallback order, with branch 1 weakened exactly where Feb 29 anchors force
it: (1) seasonal + `fixed_date` with a parsed month/day that is
constructible both this year and next gives the next occurrence of that
`(month, day)` on or after today; (1b) when the parsed anchor is not
constructible this year, or has passed and is not constructible next year
(i.e. a Feb 29 anchor), there is no roll to the next true occurrence: a
February anchor yields Feb 28 of today's year — possibly before today —
and any other yields `today + 365`; (2) seasonal + `season_start` with a
known season code gives the next occurrence of the season's fixed start
date; (3) seasonal with incomplete/invalid anchor metadata (anchor type
not recognised, month/day missing or falsy, or unknown season code) gives
`today + max(1, frequency_days or 365)`; (4) non-seasonal with a manual
start offset gives `today + max(0, offset)`; (5) otherwise
`today + max(1, frequency_days or 30)`. -/
theorem c4_recurrence_fallback_order_amended (r : Row) (today : Date)
    (hv : validDate today = true) :
    (parseBoolD r.seasonal false = true →
      normKey (orEmpty r.seasonal_anchor_type) = "fixed_date" →
      ∀ mv dv : Int, parseIntVal r.season_anchor_month = some mv →
        parseIntVal r.season_anchor_day = some dv →
        pyDateValid today.year mv dv = true →
        pyDateValid (today.year + 1) mv dv = true →
        computeNextDueDate r today = nextOccurrenceSpec mv dv today) ∧
    (parseBoolD r.seasonal false = true →
      normKey (orEmpty r.seasonal_anchor_type) = "fixed_date" →
      ∀ mv dv : Int, parseIntVal r.season_anchor_month = some mv →
        parseIntVal r.season_anchor_day = some dv →
        mv ≠ 0 → dv ≠ 0 →
        ¬(pyDateValid today.year mv dv = true ∧
          (today.ord ≤ ordinalOf today.year mv dv ∨
            pyDateValid (today.year + 1) mv dv = true)) →
        computeNextDueDate r today =
          if mv = 2 then ordinalOf today.year 2 28 else today.ord + 365) ∧
    (parseBoolD r.seasonal false = true →
      normKey (orEmpty r.seasonal_anchor_type) = "season_start" →
      ∀ m d : Int, seasonStarts (normKey (orEmpty r.season_code)) = some (m, d) →
        today.year + 1 ≤ 9999 →
        computeNextDueDate r today = nextOccurrenceSpec m d today) ∧
    (parseBoolD r.seasonal false = true →
      (normKey (orEmpty r.seasonal_anchor_type) = "fixed_date" →
        ¬ ((parseIntVal r.season_anchor_month).getD 0 ≠ 0 ∧
           (parseIntVal r.season_anchor_day).getD 0 ≠ 0)) →
      (normKey (orEmpty r.seasonal_anchor_type) = "season_start" →
        seasonStarts (normKey (orEmpty r.season_code)) = Option.none) →
      computeNextDueDate r today = today.ord + max 1 (freqOrDefault r.frequency_days 365)) ∧
    (parseBoolD r.seasonal false = false →
      ∀ o : Int, parseIntVal r.start_offset_days = some o →
        computeNextDueDate r today = today.ord + max 0 o) ∧
    (parseBoolD r.seasonal false = false →
      parseIntVal r.start_offset_days = Option.none →
      computeNextDueDate r today = today.ord + max 1 (freqOrDefault r.frequency_days 30)) := by
  refine ⟨?_, ?_, ?_, ?_, ?_, ?_⟩
  · -- branch 1: fixed_date, valid date this year and next
    intro hs ha mv dv hm hd hval1 hval2
    have hb : 1 ≤ mv ∧ 1 ≤ dv := by
      have h := hval1
      simp only [pyDateValid, decide_eq_true_eq] at h
      exact ⟨h.2.2.1, h.2.2.2.2.1⟩
    rw [computeNextDueDate_fixed r today hs ha mv dv hm hd (by omega) (by omega)]
    exact nextAnchorDate_valid mv dv today hval1 hval2
  · -- branch 1b: fixed_date, anchor unconstructible this year or passed
    -- with next year unconstructible
    intro hs ha mv dv hm hd hmv hdv hnot
    rw [computeNextDueDate_fixed r today hs ha mv dv hm hd hmv hdv]
    exact nextAnchorDate_fallback mv dv today hnot
  · -- branch 2: season_start with a known code
    intro hs ha m d hcode hy
    have hy1 : 1 ≤ today.year ∧ today.year ≤ 9999 := by
      simp only [validDate, pyDateValid, decide_eq_true_eq] at hv
      exact ⟨hv.1, hv.2.1⟩
    have hmd : (m = 12 ∧ d = 1) ∨ (m = 3 ∧ d = 1) ∨ (m = 6 ∧ d = 1) ∨ (m = 9 ∧ d = 1) := by
      revert hcode
      unfold seasonStarts
      split_ifs <;> intro hcode <;> simp_all
    have hval : ∀ y : Int, 1 ≤ y → y ≤ 9999 → pyDateValid y m d = true := by
      intro y hy1 hy2
      rcases hmd with ⟨hm, hd⟩ | ⟨hm, hd⟩ | ⟨hm, hd⟩ | ⟨hm, hd⟩ <;> subst hm <;> subst hd <;>
        · simp only [pyDateValid, daysInMonth, decide_eq_true_eq]
          norm_num
          omega
    rw [computeNextDueDate_season r today hs ha m d hcode]
    exact nextAnchorDate_valid m d today (hval today.year hy1.1 hy1.2)
      (hval (today.year + 1) (by omega) hy)
  · -- branch 3: incomplete/invalid anchor metadata
    intro hs hfix hss
    rw [computeNextDueDate, if_pos hs]
    by_cases hfd : normKey (orEmpty r.seasonal_anchor_type) = "fixed_date"
    · rw [if_pos hfd, if_neg (hfix hfd)]
    · rw [if_neg hfd]
      by_cases hsst : normKey (orEmpty r.seasonal_anchor_type) = "season_start"
      · rw [if_pos hsst, hss hsst]
      · rw [if_neg hsst]
  · -- branch 4: non-seasonal with a manual offset
    intro hs o ho
    rw [computeNextDueDate, if_neg (by rw [hs]; exact Bool.false_ne_true), ho]
  · -- branch 5: non-seasonal without an offset
    intro hs ho
    rw [computeNextDueDate, if_neg (by rw [hs]; exact Bool.false_ne_true), ho]

/-- Witness for C4 (amended): a July-4 fixed-date anchor on 2024-01-01
resolves via the next-occurrence rule, and the Feb 29 anchor on 2024-03-01
takes the Feb 28 fallback. -/
theorem c4_recurrence_fallback_order_amended_witness :
    (validDate ⟨2024, 1, 1⟩ = true ∧
     computeNextDueDate
       { seasonal := Val.str "true", seasonal_anchor_type := some "fixed_date",
         season_anchor_month := Val.str "7", season_anchor_day := Val.str "4" }
       ⟨2024, 1, 1⟩ = nextOccurrenceSpec 7 4 ⟨2024, 1, 1⟩) ∧
    computeNextDueDate feb29Row ⟨2024, 3, 1⟩ = ordinalOf 2024 2 28 :=
  ⟨⟨by decide,
    (c4_recurrence_fallback_order_amended _ _ (by decide)).1 (by decide) (by decide) 7 4
      (by decide) (by decide) (by decide) (by decide)⟩,
   (c4_recurrence_fallback_order_amended feb29Row ⟨2024, 3, 1⟩ (by decide)).2.1
     (by decide) (by decide) 2 29 (by decide) (by decide) (by decide) (by decide)
     (by decide)⟩

/-! ## Claim C5: the invalid Feb 30 anchor -/

/-- **C5 (counterexample).** The claim states that with `today = 2024-06-01`
(this year's Feb 28 already past) the calculator returns next year's
Feb 28 and never a date before today.  The code returns 2024-02-28, which
is before today and is not 2025-02-28. -/
theorem c5_feb30_counterexample :
    computeNextDueDate feb30Row ⟨2024, 6, 1⟩ = ordinalOf 2024 2 28 ∧
    computeNextDueDate feb30Row ⟨2024, 6, 1⟩ < (Date.ord ⟨2024, 6, 1⟩) ∧
    computeNextDueDate feb30Row ⟨2024, 6, 1⟩ ≠ ordinalOf 2025 2 28 := by
  decide

/-- **C5 (amended).** For every `today`, a seasonal template with
`anchor_type = fixed_date`, month 2 and day 30 yields Feb 28 of *today's*
year unconditionally — there is no roll to the next year, so the result can
precede `today`; the calculator never raises (it is a total function). -/
theorem c5_feb30_amended (r : Row) (today : Date)
    (hs : parseBoolD r.seasonal false = true)
    (ha : normKey (orEmpty r.seasonal_anchor_type) = "fixed_date")
    (hm : parseIntVal r.season_anchor_month = some 2)
    (hd : parseIntVal r.season_anchor_day = some 30) :
    computeNextDueDate r today = ordinalOf today.year 2 28 := by
  rw [computeNextDueDate_fixed r today hs ha 2 30 hm hd (by omega) (by omega)]
  rw [nextAnchorDate, if_neg (by rw [pyDateValid_feb30_false]; exact Bool.false_ne_true),
    if_pos rfl]

/-- Witness for C5 (amended): the Feb 30 anchor on 2024-06-01 gives
2024-02-28. -/
theorem c5_feb30_amended_witness :
    computeNextDueDate feb30Row ⟨2024, 6, 1⟩ = ordinalOf 2024 2 28 :=
  c5_feb30_amended feb30Row ⟨2024, 6, 1⟩ (by decide) (by decide) (by decide) (by decide)

/-! ## Claim C6: requirement-parser error handling and matcher exclusion -/

theorem splitChar_ne_nil (sep : Char) (cs : List Char) : splitChar sep cs ≠ [] := by
  cases cs with
  | nil => simp [splitChar]
  | cons c rest =>
      simp only [splitChar]
      cases h : splitChar sep rest with
      | nil => simp
      | cons g gs => by_cases hc : c = sep <;> simp [hc]

theorem splitChar_sub (sep : Char) :
    ∀ (cs : List Char), ∀ g ∈ splitChar sep cs, ∀ c ∈ g, c ∈ cs := by
  intro cs
  induction cs with
  | nil =>
      intro g hg c hc
      simp only [splitChar, List.mem_singleton] at hg
      subst hg
      simp at hc
  | cons x rest ih =>
      intro g hg c hc
      cases h : splitChar sep rest with
      | nil => exact absurd h (splitChar_ne_nil sep rest)
      | cons g0 gs =>
          simp only [splitChar, h] at hg
          by_cases hx : x = sep
          · rw [if_pos hx] at hg
            rcases List.mem_cons.mp hg with rfl | hg'
            · simp at hc
            · exact List.mem_cons_of_mem x (ih g (by rw [h]; exact hg') c hc)
          · rw [if_neg hx] at hg
            rcases List.mem_cons.mp hg with rfl | hg'
            · rcases List.mem_cons.mp hc with rfl | hc'
              · exact List.mem_cons_self _ _
              · refine List.mem_cons_of_mem x (ih g0 ?_ c hc')
                rw [h]
                exact List.mem_cons_self g0 gs
            · exact List.mem_cons_of_mem x (ih g (by rw [h]; exact List.mem_cons_of_mem g0 hg') c hc)

theorem pyStrip_nil_of_all (cs : List Char) (h : ∀ c ∈ cs, c.isWhitespace) :
    pyStrip cs = [] := by
  have h1 : cs.dropWhile Char.isWhitespace = [] := by
    rw [List.dropWhile_eq_nil_iff]
    exact h
  simp [pyStrip, h1]

theorem all_whitespace_of_pyStrip_nil (cs : List Char) (h : pyStrip cs = []) :
    ∀ c ∈ cs, c.isWhitespace := by
  unfold pyStrip at h
  rw [List.reverse_eq_nil_iff, List.dropWhile_eq_nil_iff] at h
  intro c hc
  by_cases hw : c.isWhitespace
  · exact hw
  · exfalso
    have hcdrop : c ∈ cs.dropWhile Char.isWhitespace := by
      have hsplit := List.takeWhile_append_dropWhile (p := Char.isWhitespace) (l := cs)
      rw [← hsplit] at hc
      rcases List.mem_append.mp hc with htake | hdrop
      · exact absurd (List.mem_takeWhile_imp htake) hw
      · exact hdrop
    exact hw (h c (List.mem_reverse.mpr hcdrop))

theorem reqParts_blank (s : String) (h : pyStripS s = "") : reqParts s = [] := by
  have hall : ∀ c ∈ s.toList, c.isWhitespace := by
    apply all_whitespace_of_pyStrip_nil
    have : (String.mk (pyStrip s.toList)).data = ("" : String).data :=
      congrArg String.data h
    simpa using this
  rw [reqParts, List.filter_eq_nil_iff]
  intro p hp
  simp only [List.mem_map] at hp
  obtain ⟨g, hg, rfl⟩ := hp
  have : pyStrip g = [] :=
    pyStrip_nil_of_all g (fun c hc => hall c (splitChar_sub ';' s.toList g hg c hc))
  simp [this]

theorem parse_foldl_errors (parts : List String) :
    ∀ acc : List (String × Bool) × List String,
      (parts.foldl reqStep acc).2 = acc.2 ++ parts.filterMap segError := by
  induction parts with
  | nil => intro acc; simp
  | cons p rest ih =>
      intro acc
      rw [List.foldl_cons, ih, List.filterMap_cons]
      rw [reqStep, segError]
      match h : reqSegment p with
      | Sum.inl (some e) => simp
      | Sum.inl Option.none => simp
      | Sum.inr (some (k, b)) => simp
      | Sum.inr Option.none => simp

/-- The error list of the parser is exactly one error per offending
segment, in segment order. -/
theorem parseErrors_eq (s : String) :
    (parseFeatureRequirements (some s)).2 = (reqParts s).filterMap segError := by
  rw [parseFeatureRequirements]
  by_cases hb : pyStripS s = ""
  · rw [if_pos hb, reqParts_blank s hb]
    rfl
  · rw [if_neg hb, parse_foldl_errors]
    rfl

/-- **C6.** Requirement-parser error handling: (1) the parser's error list
is exactly one error per offending trimmed segment, in order; (2) a segment
with no `=` yields an error that contains the literal segment text and
nothing else from that segment enters the predicate map; (3) a pair whose
alias-resolved key is not in the allow-list is dropped silently — no error,
no pair; (4) a pair with an allowed key and a value outside the boolean
vocabulary yields an error naming the bad value; (5) a template whose
requirement string produced at least one error is excluded by the feature
matcher regardless of its other pairs and of the household's features. -/
theorem c6_parser_error_handling :
    (∀ s : String,
      (parseFeatureRequirements (some s)).2 = (reqParts s).filterMap segError) ∧
    (∀ part : String, splitOnce '=' part.toList = Option.none →
      reqSegment part =
        Sum.inl (some ("invalid requirement '" ++ part ++ "' (expected key=value)")) ∧
      ∃ pre post : String,
        ("invalid requirement '" ++ part ++ "' (expected key=value)") = pre ++ part ++ post) ∧
    (∀ (part : String) (k rest : List Char),
      splitOnce '=' part.toList = some (k, rest) →
      applyAlias (pyStripS (String.mk k)) ∉ allowedFeatureKeys →
      reqSegment part = Sum.inr Option.none) ∧
    (∀ (part : String) (k rest : List Char),
      splitOnce '=' part.toList = some (k, rest) →
      applyAlias (pyStripS (String.mk k)) ∈ allowedFeatureKeys →
      parseBoolOpt (Val.str (pyStripS (String.mk rest))) = Option.none →
      reqSegment part =
        Sum.inl (some ("invalid boolean for '" ++ applyAlias (pyStripS (String.mk k)) ++
          "' -> '" ++ pyStripS (String.mk rest) ++ "'")) ∧
      ∃ pre post : String,
        ("invalid boolean for '" ++ applyAlias (pyStripS (String.mk k)) ++
          "' -> '" ++ pyStripS (String.mk rest) ++ "'") =
          pre ++ pyStripS (String.mk rest) ++ post) ∧
    (∀ (r : Row) (f : Features) (rows : List Row),
      (parseFeatureRequirements r.feature_requirements).2 ≠ [] →
      rowMatches f r = false ∧ r ∉ filterRowsByFeatures rows f) := by
  refine ⟨parseErrors_eq, ?_, ?_, ?_, ?_⟩
  · intro part hsp
    constructor
    · rw [reqSegment, hsp]
    · exact ⟨"invalid requirement '", "' (expected key=value)", rfl⟩
  · intro part k rest hsp hkey
    rw [reqSegment, hsp]
    simp only [if_neg hkey]
  · intro part k rest hsp hkey hval
    constructor
    · rw [reqSegment, hsp]
      simp only [if_pos hkey, hval]
    · exact ⟨"invalid boolean for '" ++ applyAlias (pyStripS (String.mk k)) ++ "' -> '",
        "'", by simp⟩
  · intro r f rows herr
    have hm : rowMatches f r = false := by
      rw [rowMatches]
      simp only [if_pos herr]
    refine ⟨hm, ?_⟩
    intro hmem
    rw [filterRowsByFeatures, List.mem_filter] at hmem
    rw [hm] at hmem
    exact Bool.false_ne_true hmem.2

/-- Witness for C6: the spec's scenario `"has_hvac=true;bogus"`. -/
theorem c6_parser_error_handling_witness :
    (parseFeatureRequirements (some "has_hvac=true;bogus")).2 =
      (reqParts "has_hvac=true;bogus").filterMap segError ∧
    reqSegment "bogus" =
      Sum.inl (some "invalid requirement 'bogus' (expected key=value)") ∧
    rowMatches allFeats bogusRow = false ∧
    bogusRow ∉ filterRowsByFeatures [bogusRow] allFeats :=
  ⟨c6_parser_error_handling.1 "has_hvac=true;bogus",
   (c6_parser_error_handling.2.1 "bogus" (by decide)).1,
   (c6_parser_error_handling.2.2.2.2 bogusRow allFeats [bogusRow] (by decide)).1,
   (c6_parser_error_handling.2.2.2.2 bogusRow allFeats [bogusRow] (by decide)).2⟩

/-! ## Claim C3: the overlap resolver -/

theorem dlookup_eq_none_iff {κ α : Type} [DecidableEq κ] (k : κ) (m : List (κ × α)) :
    dlookup k m = Option.none ↔ k ∉ m.map Prod.fst := by
  induction m with
  | nil => simp [dlookup]
  | cons p ps ih =>
      rw [dlookup]
      by_cases h : p.1 = k
      · rw [if_pos h]
        simp [h.symm]
      · rw [if_neg h, ih]
        constructor
        · intro hk hmem
          simp only [List.map_cons, List.mem_cons] at hmem
          rcases hmem with h1 | h2
          · exact h h1.symm
          · exact hk h2
        · intro hk h2
          refine hk ?_
          simp only [List.map_cons, List.mem_cons]
          exact Or.inr h2

theorem dlookup_mem {κ α : Type} [DecidableEq κ] (k : κ) (m : List (κ × α)) (v : α)
    (h : dlookup k m = some v) : (k, v) ∈ m := by
  induction m with
  | nil => simp [dlookup] at h
  | cons p ps ih =>
      rw [dlookup] at h
      split at h
      · next hq =>
          injection h with h1
          have hpe : p = (k, v) := by
            obtain ⟨p1, p2⟩ := p
            simp only at hq h1
            rw [hq, h1]
          rw [← hpe]
          exact List.mem_cons_self _ _
      · exact List.mem_cons_of_mem _ (ih h)

theorem dlookup_eq_of_mem_nodup {κ α : Type} [DecidableEq κ] (k : κ) (m : List (κ × α))
    (hnd : (m.map Prod.fst).Nodup) (p : κ × α) (hp : p ∈ m) (hpk : p.1 = k) :
    dlookup k m = some p.2 := by
  induction m with
  | nil => simp at hp
  | cons q qs ih =>
      rw [dlookup]
      rcases List.mem_cons.mp hp with rfl | hmem
      · rw [if_pos hpk]
      · simp only [List.map_cons, List.nodup_cons] at hnd
        rw [if_neg ?_]
        · exact ih hnd.2 hmem
        · intro hq
          refine hnd.1 (List.mem_map.mpr ⟨p, hmem, ?_⟩)
          rw [hpk, ← hq]

theorem mem_dictSet_strong {κ α : Type} [DecidableEq κ] (m : List (κ × α)) (k : κ) (v : α) :
    ∀ p ∈ dictSet m k v, p = (k, v) ∨ (p ∈ m ∧ p.1 ≠ k) := by
  intro p hp
  rw [dictSet] at hp
  split at hp
  · next hsome =>
      obtain ⟨q, hq, hpq⟩ := List.mem_map.mp hp
      by_cases h : q.1 = k
      · left
        rw [← hpq, if_pos h]
      · right
        rw [← hpq, if_neg h]
        exact ⟨hq, h⟩
  · next hnone =>
      rcases List.mem_append.mp hp with h | h
      · right
        refine ⟨h, ?_⟩
        intro hk
        have hn : dlookup k m = Option.none := Option.not_isSome_iff_eq_none.mp hnone
        exact (dlookup_eq_none_iff k m).mp hn (List.mem_map.mpr ⟨p, h, hk⟩)
      · left
        simpa using h

theorem dictSet_map_fst {κ α : Type} [DecidableEq κ] (m : List (κ × α)) (k : κ) (v : α) :
    (dictSet m k v).map Prod.fst = m.map Prod.fst ∨
    (dictSet m k v).map Prod.fst = m.map Prod.fst ++ [k] := by
  rw [dictSet]
  split
  · left
    rw [List.map_map]
    apply List.map_congr_left
    intro q _
    by_cases h : q.1 = k <;> simp [h]
  · right
    simp

theorem dictSet_nodup {κ α : Type} [DecidableEq κ] (m : List (κ × α)) (k : κ) (v : α)
    (h : (m.map Prod.fst).Nodup) : ((dictSet m k v).map Prod.fst).Nodup := by
  rw [dictSet]
  split
  · next hsome =>
      rw [List.map_map]
      have heq : m.map (Prod.fst ∘ fun p => if p.1 = k then (k, v) else p) = m.map Prod.fst := by
        apply List.map_congr_left
        intro q _
        by_cases hq : q.1 = k <;> simp [hq]
      rw [heq]
      exact h
  · next hnone =>
      have hk : k ∉ m.map Prod.fst := by
        rw [← dlookup_eq_none_iff (α := α)]
        exact Option.not_isSome_iff_eq_none.mp hnone
      simp only [List.map_append, List.map_cons, List.map_nil]
      rw [List.nodup_append]
      refine ⟨h, List.nodup_singleton k, ?_⟩
      intro a ha hak
      simp only [List.mem_singleton] at hak
      subst hak
      exact hk ha

theorem key_dictSet_self {κ α : Type} [DecidableEq κ] (m : List (κ × α)) (k : κ) (v : α) :
    k ∈ (dictSet m k v).map Prod.fst := by
  rw [dictSet]
  split
  · next hsome =>
      have hkm : k ∈ m.map Prod.fst := by
        by_contra hk
        have := (dlookup_eq_none_iff (α := α) k m).mpr hk
        rw [this] at hsome
        simp at hsome
      obtain ⟨p, hp, hpk⟩ := List.mem_map.mp hkm
      apply List.mem_map.mpr
      refine ⟨(k, v), List.mem_map.mpr ⟨p, hp, ?_⟩, rfl⟩
      simp [hpk]
  · simp

theorem key_mem_dictSet_of_mem {κ α : Type} [DecidableEq κ] (m : List (κ × α)) (k : κ)
    (v : α) : ∀ k' ∈ m.map Prod.fst, k' ∈ (dictSet m k v).map Prod.fst := by
  intro k' hk'
  rcases dictSet_map_fst m k v with h | h <;> rw [h]
  · exact hk'
  · exact List.mem_append_left _ hk'

theorem key_mem_dictSet {κ α : Type} [DecidableEq κ] (m : List (κ × α)) (k : κ) (v : α) :
    ∀ k' ∈ (dictSet m k v).map Prod.fst, k' ∈ m.map Prod.fst ∨ k' = k := by
  intro k' hk'
  rcases dictSet_map_fst m k v with h | h <;> rw [h] at hk'
  · exact Or.inl hk'
  · rcases List.mem_append.mp hk' with h1 | h1
    · exact Or.inl h1
    · exact Or.inr (by simpa using h1)

theorem filterMap_inrVal_dictSet_inl (acc : List ((String ⊕ Nat) × Row)) (g : String)
    (r : Row) :
    (dictSet acc (Sum.inl g) r).filterMap inrVal = acc.filterMap inrVal := by
  rw [dictSet]
  split
  · rw [List.filterMap_map]
    apply List.filterMap_congr
    intro p _
    simp only [Function.comp_apply]
    by_cases h : p.1 = Sum.inl g
    · rw [if_pos h]
      simp [inrVal, h]
    · rw [if_neg h]
  · rw [List.filterMap_append]
    simp [inrVal]

/-- One step of the resolver loop preserves the invariant. -/
theorem overlapStep_inv (processed : List (Nat × Row))
    (acc : List ((String ⊕ Nat) × Row)) (ir : Nat × Row)
    (hinv : OverlapInv processed acc)
    (hfresh : (Sum.inr ir.1 : String ⊕ Nat) ∉ acc.map Prod.fst) :
    OverlapInv (processed ++ [ir]) (overlapStep acc ir) := by
  rw [overlapStep]
  by_cases hg : groupOf ir.2 = ""
  · -- ungrouped: fresh identity key, entry appended
    rw [if_pos hg]
    have hnone : dlookup (Sum.inr ir.1 : String ⊕ Nat) acc = Option.none :=
      (dlookup_eq_none_iff _ _).mpr hfresh
    have happ : dictSet acc (Sum.inr ir.1 : String ⊕ Nat) ir.2 =
        acc ++ [(Sum.inr ir.1, ir.2)] := by
      rw [dictSet, if_neg (by rw [hnone]; simp)]
    rw [happ]
    refine ⟨?_, ?_, ?_, ?_, ?_, ?_, ?_⟩
    · simp only [List.map_append, List.map_cons, List.map_nil]
      rw [List.nodup_append]
      refine ⟨hinv.nodup, List.nodup_singleton _, ?_⟩
      intro a ha hak
      simp only [List.mem_singleton] at hak
      subst hak
      exact hfresh ha
    · intro p hp g hpg
      rcases List.mem_append.mp hp with h | h
      · exact hinv.inl_grp p h g hpg
      · simp only [List.mem_singleton] at h
        rw [h] at hpg
        exact absurd hpg (by simp)
    · intro p hp i hpi
      rcases List.mem_append.mp hp with h | h
      · exact hinv.inr_grp p h i hpi
      · simp only [List.mem_singleton] at h
        rw [h]
        exact hg
    · intro p hp g hpg ir' hir' hgr'
      rcases List.mem_append.mp hp with h | h
      · rcases List.mem_append.mp hir' with h2 | h2
        · exact hinv.min_rank p h g hpg ir' h2 hgr'
        · simp only [List.mem_singleton] at h2
          rw [h2] at hgr'
          exact absurd (hgr'.symm.trans hg) (hinv.inl_grp p h g hpg).2
      · simp only [List.mem_singleton] at h
        rw [h] at hpg
        exact absurd hpg (by simp)
    · intro p hp
      rw [List.map_append]
      rcases List.mem_append.mp hp with h | h
      · exact List.mem_append_left _ (hinv.from_rows p h)
      · simp only [List.mem_singleton] at h
        rw [h]
        exact List.mem_append_right _ (by simp)
    · rw [List.filterMap_append, hinv.inr_seq, List.map_append, List.filter_append]
      simp [inrVal, hg]
    · intro g hgne hgk ir' hir' hgr'
      rcases List.mem_append.mp hir' with h2 | h2
      · refine hinv.covered g hgne ?_ ir' h2 hgr'
        intro hmem
        refine hgk ?_
        simp only [List.map_append, List.map_cons, List.map_nil]
        exact List.mem_append_left _ hmem
      · simp only [List.mem_singleton] at h2
        rw [h2] at hgr'
        exact hgne (hgr'.symm.trans hg)
  · -- grouped
    rw [if_neg hg]
    cases hlook : dlookup (Sum.inl (groupOf ir.2) : String ⊕ Nat) acc with
    | none =>
        -- no current entry for the group: append, and no processed row had this group
        have hnot : Sum.inl (groupOf ir.2) ∉ acc.map Prod.fst :=
          (dlookup_eq_none_iff _ _).mp hlook
        have hcov := hinv.covered (groupOf ir.2) hg hnot
        refine ⟨dictSet_nodup _ _ _ hinv.nodup, ?_, ?_, ?_, ?_, ?_, ?_⟩
        · intro p hp g hpg
          rcases mem_dictSet_strong acc _ ir.2 p hp with h | ⟨h, _⟩
          · rw [h] at hpg ⊢
            have hgeq : groupOf ir.2 = g := by injection hpg
            exact ⟨hgeq ▸ rfl, hgeq ▸ hg⟩
          · exact hinv.inl_grp p h g hpg
        · intro p hp i hpi
          rcases mem_dictSet_strong acc _ ir.2 p hp with h | ⟨h, _⟩
          · rw [h] at hpi
            exact absurd hpi (by simp)
          · exact hinv.inr_grp p h i hpi
        · intro p hp g hpg ir' hir' hgr'
          rcases mem_dictSet_strong acc _ ir.2 p hp with h | ⟨h, hne⟩
          · rw [h] at hpg ⊢
            have hgeq : groupOf ir.2 = g := by injection hpg
            rcases List.mem_append.mp hir' with h2 | h2
            · exact absurd hgr' (hgeq ▸ hcov ir' h2)
            · simp only [List.mem_singleton] at h2
              rw [h2]
          · rcases List.mem_append.mp hir' with h2 | h2
            · exact hinv.min_rank p h g hpg ir' h2 hgr'
            · simp only [List.mem_singleton] at h2
              rw [h2] at hgr'
              exact absurd (hgr' ▸ hpg) hne
        · intro p hp
          rw [List.map_append]
          rcases mem_dictSet_strong acc _ ir.2 p hp with h | ⟨h, _⟩
          · rw [h]
            exact List.mem_append_right _ (by simp)
          · exact List.mem_append_left _ (hinv.from_rows p h)
        · rw [filterMap_inrVal_dictSet_inl, hinv.inr_seq, List.map_append, List.filter_append]
          simp [hg]
        · intro g hgne hgk ir' hir' hgr'
          rcases List.mem_append.mp hir' with h2 | h2
          · refine hinv.covered g hgne ?_ ir' h2 hgr'
            intro hmem
            exact hgk (key_mem_dictSet_of_mem acc _ ir.2 (Sum.inl g) hmem)
          · simp only [List.mem_singleton] at h2
            rw [h2] at hgr'
            refine hgk ?_
            rw [← hgr']
            exact key_dictSet_self acc _ ir.2
    | some cur =>
        show OverlapInv (processed ++ [ir])
          (if rankOf ir.2 < rankOf cur then dictSet acc (Sum.inl (groupOf ir.2)) ir.2
           else acc)
        by_cases hrank : rankOf ir.2 < rankOf cur
        · rw [if_pos hrank]
          -- the new variant wins: replace the entry for the group
          have hcur : (Sum.inl (groupOf ir.2), cur) ∈ acc := dlookup_mem _ _ _ hlook
          have hcurmin := hinv.min_rank _ hcur (groupOf ir.2) rfl
          refine ⟨dictSet_nodup _ _ _ hinv.nodup, ?_, ?_, ?_, ?_, ?_, ?_⟩
          · intro p hp g hpg
            rcases mem_dictSet_strong acc _ ir.2 p hp with h | ⟨h, _⟩
            · rw [h] at hpg ⊢
              have hgeq : groupOf ir.2 = g := by injection hpg
              exact ⟨hgeq ▸ rfl, hgeq ▸ hg⟩
            · exact hinv.inl_grp p h g hpg
          · intro p hp i hpi
            rcases mem_dictSet_strong acc _ ir.2 p hp with h | ⟨h, _⟩
            · rw [h] at hpi
              exact absurd hpi (by simp)
            · exact hinv.inr_grp p h i hpi
          · intro p hp g hpg ir' hir' hgr'
            rcases mem_dictSet_strong acc _ ir.2 p hp with h | ⟨h, hne⟩
            · rw [h] at hpg ⊢
              have hgeq : groupOf ir.2 = g := by injection hpg
              rcases List.mem_append.mp hir' with h2 | h2
              · exact le_trans (le_of_lt hrank) (hcurmin ir' h2 (hgeq ▸ hgr'))
              · simp only [List.mem_singleton] at h2
                rw [h2]
            · rcases List.mem_append.mp hir' with h2 | h2
              · exact hinv.min_rank p h g hpg ir' h2 hgr'
              · simp only [List.mem_singleton] at h2
                rw [h2] at hgr'
                exact absurd (hgr' ▸ hpg) hne
          · intro p hp
            rw [List.map_append]
            rcases mem_dictSet_strong acc _ ir.2 p hp with h | ⟨h, _⟩
            · rw [h]
              exact List.mem_append_right _ (by simp)
            · exact List.mem_append_left _ (hinv.from_rows p h)
          · rw [filterMap_inrVal_dictSet_inl, hinv.inr_seq, List.map_append,
              List.filter_append]
            simp [hg]
          · intro g hgne hgk ir' hir' hgr'
            rcases List.mem_append.mp hir' with h2 | h2
            · refine hinv.covered g hgne ?_ ir' h2 hgr'
              intro hmem
              exact hgk (key_mem_dictSet_of_mem acc _ ir.2 (Sum.inl g) hmem)
            · simp only [List.mem_singleton] at h2
              rw [h2] at hgr'
              refine hgk ?_
              rw [← hgr']
              exact key_dictSet_self acc _ ir.2
        · rw [if_neg hrank]
          -- the current entry keeps its place
          have hcur : (Sum.inl (groupOf ir.2), cur) ∈ acc := dlookup_mem _ _ _ hlook
          refine ⟨hinv.nodup, hinv.inl_grp, hinv.inr_grp, ?_, ?_, ?_, ?_⟩
          · intro p hp g hpg ir' hir' hgr'
            rcases List.mem_append.mp hir' with h2 | h2
            · exact hinv.min_rank p hp g hpg ir' h2 hgr'
            · simp only [List.mem_singleton] at h2
              rw [h2] at hgr'
              have hgeq : p.1 = Sum.inl (groupOf ir.2) := by
                rw [hpg, hgr']
              have hpv : dlookup (Sum.inl (groupOf ir.2) : String ⊕ Nat) acc = some p.2 :=
                dlookup_eq_of_mem_nodup _ _ hinv.nodup p hp hgeq
              rw [hlook] at hpv
              injection hpv with hpv
              rw [hpv] at hrank
              rw [h2]
              omega
          · intro p hp
            rw [List.map_append]
            exact List.mem_append_left _ (hinv.from_rows p hp)
          · rw [hinv.inr_seq, List.map_append, List.filter_append]
            simp [hg]
          · intro g hgne hgk ir' hir' hgr'
            rcases List.mem_append.mp hir' with h2 | h2
            · exact hinv.covered g hgne hgk ir' h2 hgr'
            · simp only [List.mem_singleton] at h2
              rw [h2] at hgr'
              refine hgk ?_
              rw [← hgr']
              exact List.mem_map.mpr ⟨_, hcur, rfl⟩

theorem overlapStep_keys (acc : List ((String ⊕ Nat) × Row)) (ir : Nat × Row) :
    ∀ k ∈ (overlapStep acc ir).map Prod.fst,
      k ∈ acc.map Prod.fst ∨ k = Sum.inr ir.1 ∨ k = Sum.inl (groupOf ir.2) := by
  intro k
  rw [overlapStep]
  by_cases hg : groupOf ir.2 = ""
  · rw [if_pos hg]
    intro hk
    rcases key_mem_dictSet _ _ _ k hk with h | h
    · exact Or.inl h
    · exact Or.inr (Or.inl h)
  · rw [if_neg hg]
    cases hlook : dlookup (Sum.inl (groupOf ir.2) : String ⊕ Nat) acc with
    | none =>
        intro hk
        rcases key_mem_dictSet acc (Sum.inl (groupOf ir.2)) ir.2 k hk with h | h
        · exact Or.inl h
        · exact Or.inr (Or.inr h)
    | some cur =>
        show k ∈ (if rankOf ir.2 < rankOf cur then
            dictSet acc (Sum.inl (groupOf ir.2)) ir.2 else acc).map Prod.fst → _
        by_cases hrank : rankOf ir.2 < rankOf cur
        · rw [if_pos hrank]
          intro hk
          rcases key_mem_dictSet acc (Sum.inl (groupOf ir.2)) ir.2 k hk with h | h
          · exact Or.inl h
          · exact Or.inr (Or.inr h)
        · rw [if_neg hrank]
          exact fun hk => Or.inl hk

theorem overlap_fold_inv (l : List (Nat × Row)) :
    ∀ (processed : List (Nat × Row)) (acc : List ((String ⊕ Nat) × Row)),
    OverlapInv processed acc →
    (∀ ir ∈ l, (Sum.inr ir.1 : String ⊕ Nat) ∉ acc.map Prod.fst) →
    (l.map Prod.fst).Nodup →
    OverlapInv (processed ++ l) (l.foldl overlapStep acc) := by
  induction l with
  | nil =>
      intro processed acc hinv _ _
      simpa using hinv
  | cons ir rest ih =>
      intro processed acc hinv hfresh hnd
      rw [List.foldl_cons]
      simp only [List.map_cons, List.nodup_cons] at hnd
      have hstep := overlapStep_inv processed acc ir hinv (hfresh ir (by simp))
      have hres := ih (processed ++ [ir]) (overlapStep acc ir) hstep ?_ hnd.2
      · simpa [List.append_assoc] using hres
      · intro ir' hir' hmem
        rcases overlapStep_keys acc ir _ hmem with h | h | h
        · exact hfresh ir' (List.mem_cons_of_mem ir hir') h
        · have : ir'.1 = ir.1 := by injection h
          exact hnd.1 (this ▸ List.mem_map.mpr ⟨ir', hir', rfl⟩)
        · exact Sum.noConfusion h

/-- The resolver's loop invariant at the end of the pass. -/
theorem resolveOverlaps_inv (rows : List Row) :
    OverlapInv rows.enum (rows.enum.foldl overlapStep []) := by
  have hinit : OverlapInv ([] : List (Nat × Row)) [] := by
    refine ⟨by simp, by simp, by simp, by simp, by simp, by simp, ?_⟩
    intro g _ _ ir hir
    simp at hir
  have h := overlap_fold_inv rows.enum [] [] hinit (by simp) ?_
  · simpa using h
  · rw [List.enum_map_fst]
    exact List.nodup_range _

/-- Every output row of the overlap resolver is one of the input rows. -/
theorem resolveOverlaps_subset (rows : List Row) : ∀ r ∈ resolveOverlaps rows, r ∈ rows := by
  have hinv := resolveOverlaps_inv rows
  intro r hr
  rw [resolveOverlaps] at hr
  obtain ⟨p, hp, rfl⟩ := List.mem_map.mp hr
  have := hinv.from_rows p hp
  rw [List.enum_map_snd] at this
  exact this

theorem countP_key_le_one {κ α : Type} [DecidableEq κ] (m : List (κ × α)) (k : κ)
    (hnd : (m.map Prod.fst).Nodup) :
    List.countP (fun p => decide (p.1 = k)) m ≤ 1 := by
  induction m with
  | nil => simp
  | cons q qs ih =>
      simp only [List.map_cons, List.nodup_cons] at hnd
      rw [List.countP_cons]
      by_cases hq : q.1 = k
      · have hz : List.countP (fun p => decide (p.1 = k)) qs = 0 := by
          rw [List.countP_eq_zero]
          intro p hp
          simp only [decide_eq_true_eq]
          intro hpk
          exact hnd.1 (List.mem_map.mpr ⟨p, hp, by rw [hpk, ← hq]⟩)
        simp [hz, hq]
      · simpa [hq] using ih hnd.2

theorem filter_empty_group_eq_filterMap (acc : List ((String ⊕ Nat) × Row))
    (hinl : ∀ p ∈ acc, ∀ g : String, p.1 = Sum.inl g → groupOf p.2 = g ∧ g ≠ "")
    (hinr : ∀ p ∈ acc, ∀ i : Nat, p.1 = Sum.inr i → groupOf p.2 = "") :
    (acc.map (fun p => p.2)).filter (fun r => groupOf r = "") = acc.filterMap inrVal := by
  induction acc with
  | nil => simp
  | cons p ps ih =>
      simp only [List.map_cons, List.filter_cons, List.filterMap_cons]
      have ihp := ih (fun q hq => hinl q (List.mem_cons_of_mem p hq))
        (fun q hq => hinr q (List.mem_cons_of_mem p hq))
      cases hp1 : p.1 with
      | inl g =>
          have hg := hinl p (List.mem_cons_self p ps) g hp1
          rw [if_neg (by simp [hg.1]; exact hg.2)]
          rw [ihp]
          have : inrVal p = Option.none := by
            rw [inrVal, hp1]
          rw [this]
      | inr i =>
          have hg := hinr p (List.mem_cons_self p ps) i hp1
          rw [if_pos (by simp [hg])]
          rw [ihp]
          have : inrVal p = some p.2 := by
            rw [inrVal, hp1]
          rw [this]

/-- **C3 (counterexample).** The claim reads a missing/unparseable
`variant_rank` as *effectively infinite* (always losing).  The code defaults
it to the finite sentinel 999999, so a variant with explicit rank 1000000
loses to a variant with *no* rank: the survivor does not have the lowest
rank under the claim's ∞-semantics. -/
theorem c3_overlap_resolver_counterexample :
    resolveOverlaps [rankARow, rankBRow] = [rankBRow] ∧
    ¬ survivorsMinimalInf [rankARow, rankBRow] := by
  constructor
  · decide
  · unfold survivorsMinimalInf
    decide

/-- **C3 (amended).** For every input list: at most one surviving row per
non-empty overlap group; the survivor of a group has the lowest rank where
a missing/unparseable rank counts as the finite sentinel 999999 (not
infinity — an explicit rank above 999999 loses to a missing one); every
row with an empty/absent overlap group is kept, and two such rows never
collapse (the ungrouped survivors are exactly the ungrouped inputs, in
order); and every output row is one of the input rows. -/
theorem c3_overlap_resolver_amended (rows : List Row) :
    (∀ g : String, g ≠ "" →
      ((resolveOverlaps rows).filter (fun r => groupOf r = g)).length ≤ 1) ∧
    (∀ r ∈ resolveOverlaps rows, groupOf r ≠ "" →
      ∀ s ∈ rows, groupOf s = groupOf r → rankOf r ≤ rankOf s) ∧
    ((resolveOverlaps rows).filter (fun r => groupOf r = "") =
      rows.filter (fun r => groupOf r = "")) ∧
    (∀ r ∈ resolveOverlaps rows, r ∈ rows) := by
  have hinv := resolveOverlaps_inv rows
  refine ⟨?_, ?_, ?_, ?_⟩
  · -- at most one survivor per non-empty group
    intro g hgne
    rw [resolveOverlaps, ← List.countP_eq_length_filter, List.countP_map]
    calc List.countP ((fun r => decide (groupOf r = g)) ∘ fun p => p.2)
          (rows.enum.foldl overlapStep [])
        ≤ List.countP (fun p => decide (p.1 = Sum.inl g))
          (rows.enum.foldl overlapStep []) := by
          apply List.countP_mono_left
          intro p hp
          simp only [Function.comp_apply, decide_eq_true_eq]
          intro hpg
          cases hp1 : p.1 with
          | inl g' =>
              have := (hinv.inl_grp p hp g' hp1).1
              rw [← hpg, this]
          | inr i =>
              have := hinv.inr_grp p hp i hp1
              rw [this] at hpg
              exact absurd hpg.symm hgne
      _ ≤ 1 := countP_key_le_one _ _ hinv.nodup
  · -- survivor rank is minimal in its group (999999 default)
    intro r hr hgne s hs hgs
    rw [resolveOverlaps] at hr
    obtain ⟨p, hp, rfl⟩ := List.mem_map.mp hr
    cases hp1 : p.1 with
    | inr i => exact absurd (hinv.inr_grp p hp i hp1) hgne
    | inl g =>
        have hgrp := (hinv.inl_grp p hp g hp1).1
        have hsmem : s ∈ rows.enum.map Prod.snd := by
          rw [List.enum_map_snd]
          exact hs
        obtain ⟨ir, hir, hirs⟩ := List.mem_map.mp hsmem
        have hmin := hinv.min_rank p hp g hp1 ir hir (by rw [hirs, hgs, hgrp])
        rw [hirs] at hmin
        exact hmin
  · -- ungrouped rows are kept verbatim, in order
    rw [resolveOverlaps,
      filter_empty_group_eq_filterMap _ hinv.inl_grp hinv.inr_grp, hinv.inr_seq,
      List.enum_map_snd]
  · -- every output row is an input row
    intro r hr
    rw [resolveOverlaps] at hr
    obtain ⟨p, hp, rfl⟩ := List.mem_map.mp hr
    have := hinv.from_rows p hp
    rw [List.enum_map_snd] at this
    exact this

/-- Witness for C3 (amended): two same-group variants with ranks 1 and 2,
and two ungrouped rows sharing a title. -/
theorem c3_overlap_resolver_amended_witness :
    ((resolveOverlaps [gutterARow, gutterBRow, sameTitleRow, sameTitleRow]).filter
        (fun r => groupOf r = "gutter_check")).length ≤ 1 ∧
    (resolveOverlaps [gutterARow, gutterBRow, sameTitleRow, sameTitleRow]).filter
        (fun r => groupOf r = "") = [sameTitleRow, sameTitleRow] :=
  ⟨(c3_overlap_resolver_amended _).1 "gutter_check" (by decide),
   by
    rw [(c3_overlap_resolver_amended _).2.2.1]
    decide⟩

/-! ## Ramp-scheduler infrastructure

The scheduler only ever writes the `start_offset_days` entry of a row, so
every other accessor is stable under its mutations. -/

theorem stGet_set_self (st : List Row) (i : Nat) (r : Row) (h : i < st.length) :
    stGet (st.set i r) i = r := by
  simp [stGet, List.getD_eq_getElem?_getD, List.getElem?_set_self h]

theorem stGet_set_ne (st : List Row) (i j : Nat) (r : Row) (h : i ≠ j) :
    stGet (st.set i r) j = stGet st j := by
  simp [stGet, List.getD_eq_getElem?_getD, List.getElem?_set_ne h]

theorem length_setOffAt (st : List Row) (i : Nat) (v : Val) :
    (setOffAt st i v).length = st.length := by
  simp [setOffAt]

theorem stGet_setOffAt_ne (st : List Row) (i j : Nat) (v : Val) (h : i ≠ j) :
    stGet (setOffAt st i v) j = stGet st j := stGet_set_ne _ _ _ _ h

theorem setOff_safety (r : Row) (v : Val) : (r.setOff v).safety_critical = r.safety_critical :=
  rfl

theorem safetyAt_setOffAt (st : List Row) (i : Nat) (v : Val) (j : Nat) :
    safetyAt (setOffAt st i v) j = safetyAt st j := by
  by_cases hij : i = j
  · subst hij
    by_cases h : i < st.length
    · rw [safetyAt, setOffAt, stGet_set_self st i _ h, setOff_safety, safetyAt]
    · rw [setOffAt, List.set_eq_of_length_le (by omega)]
  · rw [safetyAt, setOffAt, stGet_set_ne _ _ _ _ hij, safetyAt]

theorem seasonalAt_setOffAt (st : List Row) (i : Nat) (v : Val) (j : Nat) :
    seasonalAt (setOffAt st i v) j = seasonalAt st j := by
  by_cases hij : i = j
  · subst hij
    by_cases h : i < st.length
    · rw [seasonalAt, setOffAt, stGet_set_self st i _ h]
      rfl
    · rw [setOffAt, List.set_eq_of_length_le (by omega)]
  · rw [seasonalAt, setOffAt, stGet_set_ne _ _ _ _ hij, seasonalAt]

theorem freqAt_setOffAt (st : List Row) (i : Nat) (v : Val) (j : Nat) :
    freqAt (setOffAt st i v) j = freqAt st j := by
  by_cases hij : i = j
  · subst hij
    by_cases h : i < st.length
    · rw [freqAt, setOffAt, stGet_set_self st i _ h]
      rfl
    · rw [setOffAt, List.set_eq_of_length_le (by omega)]
  · rw [freqAt, setOffAt, stGet_set_ne _ _ _ _ hij, freqAt]

theorem offAt_setOffAt_self (st : List Row) (i : Nat) (v : Val) (h : i < st.length) :
    offAt (setOffAt st i v) i = parseIntVal v := by
  rw [offAt, setOffAt, stGet_set_self st i _ h]
  rfl

theorem offAt_setOffAt_ne (st : List Row) (i j : Nat) (v : Val) (h : i ≠ j) :
    offAt (setOffAt st i v) j = offAt st j := by
  rw [offAt, setOffAt, stGet_set_ne _ _ _ _ h, offAt]

/-! ### The immediate-placement loop (claims C10, C2, C7, C1) -/

theorem placeLoop_length (perDay : Int) :
    ∀ (imm : List Nat) (st : List Row) (day daily : Int),
      (placeLoop perDay imm st day daily).length = st.length := by
  intro imm
  induction imm with
  | nil => intro st day daily; rfl
  | cons i rest ih =>
      intro st day daily
      rw [placeLoop]
      cases h : offAt st i with
      | none => rw [ih, length_setOffAt]
      | some _ => rw [ih]

theorem placeLoop_frame (perDay : Int) :
    ∀ (imm : List Nat) (st : List Row) (day daily : Int) (j : Nat), j ∉ imm →
      offAt (placeLoop perDay imm st day daily) j = offAt st j := by
  intro imm
  induction imm with
  | nil => intro st day daily j _; rfl
  | cons i rest ih =>
      intro st day daily j hj
      have hji : i ≠ j := fun h => hj (h ▸ List.mem_cons_self i rest)
      have hjr : j ∉ rest := fun h => hj (List.mem_cons_of_mem i h)
      rw [placeLoop]
      cases h : offAt st i with
      | none => rw [ih _ _ _ j hjr, offAt_setOffAt_ne st i j _ hji]
      | some _ => rw [ih _ _ _ j hjr]

theorem placeLoop_frame_some (perDay : Int) :
    ∀ (imm : List Nat) (st : List Row) (day daily : Int) (j : Nat) (v : Int),
      offAt st j = some v →
      offAt (placeLoop perDay imm st day daily) j = some v := by
  intro imm
  induction imm with
  | nil => intro st day daily j v hv; exact hv
  | cons i rest ih =>
      intro st day daily j v hv
      rw [placeLoop]
      cases h : offAt st i with
      | none =>
          have hji : i ≠ j := by
            intro he
            rw [he, hv] at h
            exact Option.noConfusion h
          exact ih _ _ _ j v (by rw [offAt_setOffAt_ne st i j _ hji]; exact hv)
      | some _ => exact ih _ _ _ j v hv

theorem placeLoop_assign (perDay : Int) (hpd : 1 ≤ perDay) :
    ∀ (imm : List Nat) (st : List Row) (day daily : Int),
      0 ≤ day → 0 ≤ daily → daily ≤ perDay → imm.Nodup →
      (∀ i ∈ imm, i < st.length) →
      ∀ (k : Nat) (hk : k < imm.length),
        offAt st (imm.get ⟨k, hk⟩) = Option.none →
        offAt (placeLoop perDay imm st day daily) (imm.get ⟨k, hk⟩) =
          some (min 6 ((day * perDay + daily + k).fdiv perDay)) := by
  intro imm
  induction imm with
  | nil =>
      intro st day daily _ _ _ _ _ k hk
      exact absurd hk (by simp)
  | cons i rest ih =>
      intro st day daily hday hdaily hdcap hnd hlen k hk hnone
      have hilen : i < st.length := hlen i (List.mem_cons_self i rest)
      simp only [List.nodup_cons] at hnd
      rw [placeLoop]
      -- the state at the assignment of the head
      have hroll : (if daily ≥ perDay then day + 1 else day) * perDay +
          ((if daily ≥ perDay then (0 : Int) else daily) + 1) =
          day * perDay + daily + 1 := by
        by_cases hr : daily ≥ perDay
        · have : daily = perDay := le_antisymm hdcap hr
          rw [if_pos hr, if_pos hr, this]
          ring
        · rw [if_neg hr, if_neg hr]
          ring
      cases k with
      | zero =>
          have hget : (i :: rest).get ⟨0, hk⟩ = i := rfl
          rw [hget] at hnone ⊢
          rw [hnone]
          have hval : (min 6 (max 0 (if daily ≥ perDay then day + 1 else day))) =
              min 6 ((day * perDay + daily + (0 : Nat)).fdiv perDay) := by
            have hfd : (day * perDay + daily + (0 : Nat)).fdiv perDay =
                (day * perDay + daily) / perDay := by
              rw [Int.fdiv_eq_ediv _ (by omega)]
              norm_num
            rw [hfd]
            by_cases hr : daily ≥ perDay
            · have hde : daily = perDay := le_antisymm hdcap hr
              rw [if_pos hr, hde]
              have : day * perDay + perDay = (day + 1) * perDay := by ring
              rw [this, Int.mul_ediv_cancel _ (by omega)]
              have : max 0 (day + 1) = day + 1 := by omega
              rw [this]
            · rw [if_neg hr]
              have hz : daily / perDay = 0 := Int.ediv_eq_zero_of_lt hdaily (by omega)
              have harith : (day * perDay + daily) / perDay = day := by
                have hc : day * perDay + daily = daily + day * perDay := by ring
                rw [hc, Int.add_mul_ediv_right daily day (by omega : perDay ≠ 0), hz]
                omega
              rw [harith]
              have hmax : max 0 day = day := by omega
              rw [hmax]
          rw [← hval]
          -- after the assignment the head's offset is fixed
          have hset : offAt (setOffAt st i (Val.str (pyIntToStr
              (min 6 (max 0 (if daily ≥ perDay then day + 1 else day)))))) i =
              some (min 6 (max 0 (if daily ≥ perDay then day + 1 else day))) := by
            rw [offAt_setOffAt_self st i _ hilen]
            exact parseIntVal_pyIntToStr _ (by
              by_cases hr : daily ≥ perDay <;> simp [hr] <;> omega)
          exact placeLoop_frame_some perDay rest _ _ _ i _ hset
      | succ k' =>
          have hget : (i :: rest).get ⟨k' + 1, hk⟩ = rest.get ⟨k', by simpa using hk⟩ := rfl
          rw [hget] at hnone ⊢
          have hmem : rest.get ⟨k', by simpa using hk⟩ ∈ rest :=
            List.get_mem rest k' (by simpa using hk)
          have hir : i ≠ rest.get ⟨k', by simpa using hk⟩ := fun h => hnd.1 (h ▸ hmem)
          have harr : day * perDay + daily + 1 + (k' : Int) =
              day * perDay + daily + ((k' + 1 : Nat) : Int) := by
            push_cast
            ring
          cases h : offAt st i with
          | none =>
              have := ih (setOffAt st i (Val.str (pyIntToStr
                  (min 6 (max 0 (if daily ≥ perDay then day + 1 else day))))))
                (if daily ≥ perDay then day + 1 else day)
                ((if daily ≥ perDay then (0 : Int) else daily) + 1)
                (by by_cases hr : daily ≥ perDay <;> simp [hr] <;> omega)
                (by by_cases hr : daily ≥ perDay <;> simp [hr] <;> omega)
                (by by_cases hr : daily ≥ perDay <;> simp [hr] <;> omega)
                hnd.2
                (by intro x hx; rw [length_setOffAt]; exact hlen x (List.mem_cons_of_mem i hx))
                k' (by simpa using hk)
                (by rw [offAt_setOffAt_ne st i _ _ hir]; exact hnone)
              rw [this, hroll, harr]
          | some w =>
              have := ih st
                (if daily ≥ perDay then day + 1 else day)
                ((if daily ≥ perDay then (0 : Int) else daily) + 1)
                (by by_cases hr : daily ≥ perDay <;> simp [hr] <;> omega)
                (by by_cases hr : daily ≥ perDay <;> simp [hr] <;> omega)
                (by by_cases hr : daily ≥ perDay <;> simp [hr] <;> omega)
                hnd.2
                (fun x hx => hlen x (List.mem_cons_of_mem i hx))
                k' (by simpa using hk) hnone
              rw [this, hroll, harr]

/-! ## Claim C10: day offsets are clamped at 6 in the placement step -/

/-- **C10.** In the immediate-placement step with `per_day_cap ≥ 1`,
distinct in-range indices, and no offsets preset: the task at position `k`
is assigned day `min(6, k div per_day_cap)`; every task at a position
`k ≥ 7 × per_day_cap` is assigned exactly day 6 (so the number of tasks on
day 6 can exceed `per_day_cap`); and no immediate task is ever assigned an
offset greater than 6 (or less than 0). -/
theorem c10_placement_clamped_at_6 (perDay : Int) (hpd : 1 ≤ perDay)
    (st : List Row) (imm : List Nat) (hnd : imm.Nodup)
    (hlen : ∀ i ∈ imm, i < st.length)
    (hnone : ∀ i ∈ imm, offAt st i = Option.none) :
    (∀ (k : Nat) (hk : k < imm.length),
      offAt (placeImmediate perDay st imm) (imm.get ⟨k, hk⟩) =
        some (min 6 ((k : Int).fdiv perDay))) ∧
    (∀ (k : Nat) (hk : k < imm.length), 7 * perDay ≤ (k : Int) →
      offAt (placeImmediate perDay st imm) (imm.get ⟨k, hk⟩) = some 6) ∧
    (∀ i ∈ imm, ∃ v : Int,
      offAt (placeImmediate perDay st imm) i = some v ∧ 0 ≤ v ∧ v ≤ 6) := by
  have hpos : ∀ (k : Nat) (hk : k < imm.length),
      offAt (placeImmediate perDay st imm) (imm.get ⟨k, hk⟩) =
        some (min 6 ((k : Int).fdiv perDay)) := by
    intro k hk
    have hne : imm ≠ [] := by
      intro h
      rw [h] at hk
      simp at hk
    rw [placeImmediate, if_neg hne]
    have := placeLoop_assign perDay hpd imm st 0 0 (by omega) (by omega) (by omega)
      hnd hlen k hk (hnone _ (List.get_mem imm k hk))
    simpa using this
  refine ⟨hpos, ?_, ?_⟩
  · intro k hk h7
    rw [hpos k hk]
    have h1 : (7 : Int) ≤ (k : Int).fdiv perDay := by
      rw [Int.fdiv_eq_ediv _ (by omega)]
      rw [Int.le_ediv_iff_mul_le (by omega)]
      omega
    have : min (6 : Int) ((k : Int).fdiv perDay) = 6 := by omega
    rw [this]
  · intro i hi
    obtain ⟨k, hk, rfl⟩ := List.mem_iff_get.mp hi
    obtain ⟨k, hk⟩ := k
    refine ⟨min 6 ((k : Int).fdiv perDay), hpos k hk, ?_, ?_⟩
    · have : (0 : Int) ≤ (k : Int).fdiv perDay := by
        rw [Int.fdiv_eq_ediv _ (by omega)]
        exact Int.ediv_nonneg (by omega) (by omega)
      omega
    · omega

/-- Witness for C10: eight immediate tasks with `per_day_cap = 1`; the task
at position 7 (the eighth) is assigned day 6 even though position 6 already
holds day 6. -/
theorem c10_placement_clamped_at_6_witness :
    offAt (placeImmediate 1 (List.replicate 8 dfltRow) [0, 1, 2, 3, 4, 5, 6, 7])
      ((([0, 1, 2, 3, 4, 5, 6, 7] : List Nat)).get ⟨7, by decide⟩) = some 6 ∧
    offAt (placeImmediate 1 (List.replicate 8 dfltRow) [0, 1, 2, 3, 4, 5, 6, 7])
      ((([0, 1, 2, 3, 4, 5, 6, 7] : List Nat)).get ⟨6, by decide⟩) = some 6 :=
  ⟨(c10_placement_clamped_at_6 1 (by decide) (List.replicate 8 dfltRow)
      [0, 1, 2, 3, 4, 5, 6, 7] (by decide) (by decide) (by decide)).2.1 7 (by decide)
      (by decide),
   by
    rw [(c10_placement_clamped_at_6 1 (by decide) (List.replicate 8 dfltRow)
      [0, 1, 2, 3, 4, 5, 6, 7] (by decide) (by decide) (by decide)).1 6 (by decide)]
    decide⟩

/-! ### Per-phase facts used by the scheduler claims -/

theorem removeFirstVal_subset (st : List Row) :
    ∀ (l : List Nat) (r : Row), removeFirstVal st l r ⊆ l := by
  intro l
  induction l with
  | nil => intro r; simp [removeFirstVal]
  | cons j js ih =>
      intro r
      rw [removeFirstVal]
      split
      · exact List.subset_cons_self j js
      · intro x hx
        rcases List.mem_cons.mp hx with rfl | hx'
        · exact List.mem_cons_self _ _
        · exact List.mem_cons_of_mem _ (ih r hx')

theorem removeFirstVal_mem_of_ne (st : List Row) :
    ∀ (l : List Nat) (r : Row) (i : Nat), i ∈ l → stGet st i ≠ r →
      i ∈ removeFirstVal st l r := by
  intro l
  induction l with
  | nil => intro r i hi; simp at hi
  | cons j js ih =>
      intro r i hi hne
      rw [removeFirstVal]
      split
      · next hj =>
          rcases List.mem_cons.mp hi with rfl | hi'
          · exact absurd hj hne
          · exact hi'
      · rcases List.mem_cons.mp hi with rfl | hi'
        · exact List.mem_cons_self _ _
        · exact List.mem_cons_of_mem _ (ih r i hi' hne)

theorem safetyAt_eq_of_stGet_eq (st : List Row) (i j : Nat) (h : stGet st i = stGet st j) :
    safetyAt st i = safetyAt st j := by
  rw [safetyAt, safetyAt, h]

theorem splitSafety_aux (st : List Row) :
    ∀ (l : List Nat) (a b : List Nat),
      l.foldl (splitStep st) (a, b) =
        (a ++ l.filter (fun i => safetyAt st i), b ++ l.filter (fun i => !(safetyAt st i))) := by
  intro l
  induction l with
  | nil => intro a b; simp
  | cons i rest ih =>
      intro a b
      rw [List.foldl_cons, splitStep]
      by_cases h : safetyAt st i
      · rw [if_pos h, ih]
        simp [List.filter_cons, h]
      · rw [if_neg h, ih]
        simp only [List.filter_cons]
        rw [if_neg (by simpa using h), if_pos (by simpa using h)]
        simp
/-- `splitSafety` is the partition of the sorted list by the safety flag. -/
theorem splitSafety_eq (st : List Row) (sorted : List Nat) :
    splitSafety st sorted =
      (sorted.filter (fun i => safetyAt st i),
       sorted.filter (fun i => !(safetyAt st i))) := by
  rw [splitSafety, splitSafety_aux]
  simp

theorem pullNearTerm_imm_mono (near : Int) (today : Date) (st : List Row) :
    ∀ (ntl : List Nat) (imm lat : List Nat) (i : Nat), i ∈ imm →
      i ∈ (ntl.foldl (pullStep st) (imm, lat)).1 := by
  intro ntl
  induction ntl with
  | nil => intro imm lat i hi; exact hi
  | cons j rest ih =>
      intro imm lat i hi
      rw [List.foldl_cons, pullStep]
      split
      · exact ih _ _ i (List.mem_append_left _ hi)
      · exact ih _ _ i hi

theorem pullNearTerm_lat_subset (st : List Row) :
    ∀ (ntl : List Nat) (imm lat : List Nat),
      (ntl.foldl (pullStep st) (imm, lat)).2 ⊆ lat := by
  intro ntl
  induction ntl with
  | nil => intro imm lat; exact fun x hx => hx
  | cons j rest ih =>
      intro imm lat
      rw [List.foldl_cons, pullStep]
      split
      · exact fun x hx => removeFirstVal_subset st lat _ (ih _ _ hx)
      · exact ih _ _

theorem deferMultiYear_aux (queue : List Nat) :
    ∀ (st : List Row) (im defs : List Nat),
      (∀ j, safetyAt (queue.foldl deferStep (st, im, defs)).1 j = safetyAt st j) ∧
      (∀ j, seasonalAt (queue.foldl deferStep (st, im, defs)).1 j = seasonalAt st j) ∧
      (∀ j, freqAt (queue.foldl deferStep (st, im, defs)).1 j = freqAt st j) ∧
      ((queue.foldl deferStep (st, im, defs)).1.length = st.length) ∧
      (∀ i, safetyAt st i = true →
        offAt (queue.foldl deferStep (st, im, defs)).1 i = offAt st i) ∧
      (∀ i, safetyAt st i = true → i ∈ im →
        i ∈ (queue.foldl deferStep (st, im, defs)).2.1) ∧
      (∀ j ∈ (queue.foldl deferStep (st, im, defs)).2.2,
        j ∈ defs ∨ safetyAt st j = false) := by
  induction queue with
  | nil =>
      intro st im defs
      exact ⟨fun j => rfl, fun j => rfl, fun j => rfl, rfl, fun i _ => rfl,
        fun i _ hi => hi, fun j hj => Or.inl hj⟩
  | cons q rest ih =>
      intro st im defs
      rw [List.foldl_cons, deferStep]
      by_cases hc : (freqAt st q ≥ 365 * 2 && !(safetyAt st q)) = true
      · rw [if_pos hc]
        simp only [Bool.and_eq_true, Bool.not_eq_eq_eq_not, Bool.not_true,
          decide_eq_true_eq] at hc
        have hqsafe : safetyAt st q = false := hc.2
        obtain ⟨ih1, ih2, ih3, ih4, ih5, ih6, ih7⟩ :=
          ih (setOffAt st q (Val.str (pyIntToStr (max ((offAt st q).getD 0) 180))))
            (removeFirstVal (setOffAt st q (Val.str (pyIntToStr (max ((offAt st q).getD 0) 180))))
              im (stGet (setOffAt st q (Val.str (pyIntToStr (max ((offAt st q).getD 0) 180)))) q))
            (defs ++ [q])
        refine ⟨?_, ?_, ?_, ?_, ?_, ?_, ?_⟩
        · intro j
          rw [ih1 j, safetyAt_setOffAt]
        · intro j
          rw [ih2 j, seasonalAt_setOffAt]
        · intro j
          rw [ih3 j, freqAt_setOffAt]
        · rw [ih4, length_setOffAt]
        · intro i hi
          have hiq : i ≠ q := by
            intro he
            rw [he, hqsafe] at hi
            exact Bool.noConfusion hi
          rw [ih5 i (by rw [safetyAt_setOffAt]; exact hi), offAt_setOffAt_ne st q i _
            (fun he => hiq he.symm)]
        · intro i hi him
          refine ih6 i (by rw [safetyAt_setOffAt]; exact hi) ?_
          refine removeFirstVal_mem_of_ne _ im _ i him ?_
          intro he
          have := safetyAt_eq_of_stGet_eq _ i q he
          rw [safetyAt_setOffAt, safetyAt_setOffAt, hi, hqsafe] at this
          exact Bool.noConfusion this
        · intro j hj
          rcases ih7 j hj with hj' | hj'
          · rcases List.mem_append.mp hj' with h | h
            · exact Or.inl h
            · simp only [List.mem_singleton] at h
              rw [h]
              exact Or.inr hqsafe
          · rw [safetyAt_setOffAt] at hj'
            exact Or.inr hj'
      · rw [if_neg hc]
        exact ih st im defs

theorem hardDeferAnnual_aux (lat : List Nat) :
    ∀ (st : List Row),
      (∀ j, safetyAt (lat.foldl hardDeferStep st) j = safetyAt st j) ∧
      (∀ j, seasonalAt (lat.foldl hardDeferStep st) j = seasonalAt st j) ∧
      (∀ j, freqAt (lat.foldl hardDeferStep st) j = freqAt st j) ∧
      ((lat.foldl hardDeferStep st).length = st.length) ∧
      (∀ j, j ∉ lat → offAt (lat.foldl hardDeferStep st) j = offAt st j) := by
  induction lat with
  | nil => intro st; exact ⟨fun j => rfl, fun j => rfl, fun j => rfl, rfl, fun j _ => rfl⟩
  | cons q rest ih =>
      intro st
      rw [List.foldl_cons]
      have hone : (∀ j, safetyAt (hardDeferStep st q) j = safetyAt st j) ∧
          (∀ j, seasonalAt (hardDeferStep st q) j = seasonalAt st j) ∧
          (∀ j, freqAt (hardDeferStep st q) j = freqAt st j) ∧
          ((hardDeferStep st q).length = st.length) ∧
          (∀ j, j ≠ q → offAt (hardDeferStep st q) j = offAt st j) := by
        rw [hardDeferStep]
        split
        · cases h : offAt st q with
          | none =>
              exact ⟨fun j => safetyAt_setOffAt .., fun j => seasonalAt_setOffAt ..,
                fun j => freqAt_setOffAt .., length_setOffAt .., fun j hj =>
                  offAt_setOffAt_ne st q j _ (fun he => hj he.symm)⟩
          | some _ =>
              exact ⟨fun j => rfl, fun j => rfl, fun j => rfl, rfl, fun j _ => rfl⟩
        · exact ⟨fun j => rfl, fun j => rfl, fun j => rfl, rfl, fun j _ => rfl⟩
      obtain ⟨ih1, ih2, ih3, ih4, ih5⟩ := ih (hardDeferStep st q)
      refine ⟨?_, ?_, ?_, ?_, ?_⟩
      · intro j
        rw [ih1 j, hone.1 j]
      · intro j
        rw [ih2 j, hone.2.1 j]
      · intro j
        rw [ih3 j, hone.2.2.1 j]
      · rw [ih4, hone.2.2.2.1]
      · intro j hj
        have hjq : j ≠ q := fun he => hj (he ▸ List.mem_cons_self q rest)
        have hjr : j ∉ rest := fun hm => hj (List.mem_cons_of_mem q hm)
        rw [ih5 j hjr, hone.2.2.2.2 j hjq]

theorem fillImmediate_imm_mono (st : List Row) (fs : Bool) :
    ∀ (queue imm lat : List Nat) (rem : Int) (i : Nat), i ∈ imm →
      i ∈ (fillImmediate st fs queue imm lat rem).1 := by
  intro queue
  induction queue with
  | nil => intro imm lat rem i hi; exact hi
  | cons j rest ih =>
      intro imm lat rem i hi
      rw [fillImmediate]
      split
      · exact ih imm lat rem i hi
      · split
        · exact hi
        · split
          · exact ih imm lat rem i hi
          · exact ih _ _ _ i (List.mem_append_left _ hi)

theorem fillImmediate_lat_subset (st : List Row) (fs : Bool) :
    ∀ (queue imm lat : List Nat) (rem : Int),
      (fillImmediate st fs queue imm lat rem).2 ⊆ lat := by
  intro queue
  induction queue with
  | nil => intro imm lat rem; exact fun x hx => hx
  | cons j rest ih =>
      intro imm lat rem
      rw [fillImmediate]
      split
      · exact ih imm lat rem
      · split
        · exact fun x hx => hx
        · split
          · exact ih imm lat rem
          · exact fun x hx => removeFirstVal_subset st lat _ (ih _ _ _ hx)

theorem staggerLoop_stable (perWeek : Int) :
    ∀ (lat : List Nat) (st : List Row) (week count : Int),
      (∀ j, safetyAt (staggerLoop perWeek lat st week count) j = safetyAt st j) ∧
      (∀ j, seasonalAt (staggerLoop perWeek lat st week count) j = seasonalAt st j) ∧
      (∀ j, freqAt (staggerLoop perWeek lat st week count) j = freqAt st j) ∧
      ((staggerLoop perWeek lat st week count).length = st.length) ∧
      (∀ j, j ∉ lat → offAt (staggerLoop perWeek lat st week count) j = offAt st j) := by
  intro lat
  induction lat with
  | nil => intro st week count; exact ⟨fun j => rfl, fun j => rfl, fun j => rfl, rfl,
      fun j _ => rfl⟩
  | cons q rest ih =>
      intro st week count
      rw [staggerLoop]
      have hone : ∀ st' : List Row,
          (st' = st ∨ st' = setOffAt st q (Val.str (pyIntToStr (7 * week)))) →
          (∀ j, safetyAt st' j = safetyAt st j) ∧
          (∀ j, seasonalAt st' j = seasonalAt st j) ∧
          (∀ j, freqAt st' j = freqAt st j) ∧ (st'.length = st.length) ∧
          (∀ j, j ≠ q → offAt st' j = offAt st j) := by
        rintro st' (rfl | rfl)
        · exact ⟨fun j => rfl, fun j => rfl, fun j => rfl, rfl, fun j _ => rfl⟩
        · exact ⟨fun j => safetyAt_setOffAt .., fun j => seasonalAt_setOffAt ..,
            fun j => freqAt_setOffAt .., length_setOffAt .., fun j hj =>
              offAt_setOffAt_ne st q j _ (fun he => hj he.symm)⟩
      cases h : offAt st q with
      | none =>
          have h1 := hone _ (Or.inr rfl)
          split
          all_goals {
            obtain ⟨ih1, ih2, ih3, ih4, ih5⟩ := ih _ _ _
            refine ⟨fun j => by rw [ih1 j, h1.1 j],
              fun j => by rw [ih2 j, h1.2.1 j],
              fun j => by rw [ih3 j, h1.2.2.1 j],
              by rw [ih4, h1.2.2.2.1], ?_⟩
            intro j hj
            have hjq : j ≠ q := fun he => hj (he ▸ List.mem_cons_self q rest)
            have hjr : j ∉ rest := fun hm => hj (List.mem_cons_of_mem q hm)
            rw [ih5 j hjr, h1.2.2.2.2 j hjq]
          }
      | some _ =>
          split
          all_goals {
            obtain ⟨ih1, ih2, ih3, ih4, ih5⟩ := ih _ _ _
            refine ⟨ih1, ih2, ih3, ih4, ?_⟩
            intro j hj
            have hjr : j ∉ rest := fun hm => hj (List.mem_cons_of_mem q hm)
            rw [ih5 j hjr]
          }

theorem staggerLater_stable (stagger : Int) (st : List Row) (lat : List Nat) :
    (∀ j, safetyAt (staggerLater stagger st lat) j = safetyAt st j) ∧
    (∀ j, seasonalAt (staggerLater stagger st lat) j = seasonalAt st j) ∧
    (∀ j, freqAt (staggerLater stagger st lat) j = freqAt st j) ∧
    ((staggerLater stagger st lat).length = st.length) ∧
    (∀ j, j ∉ lat → offAt (staggerLater stagger st lat) j = offAt st j) := by
  rw [staggerLater]
  split
  · exact ⟨fun j => rfl, fun j => rfl, fun j => rfl, rfl, fun j _ => rfl⟩
  · exact staggerLoop_stable _ lat st 0 0

theorem placeLoop_stable (perDay : Int) :
    ∀ (imm : List Nat) (st : List Row) (day daily : Int),
      (∀ j, safetyAt (placeLoop perDay imm st day daily) j = safetyAt st j) ∧
      (∀ j, seasonalAt (placeLoop perDay imm st day daily) j = seasonalAt st j) ∧
      (∀ j, freqAt (placeLoop perDay imm st day daily) j = freqAt st j) := by
  intro imm
  induction imm with
  | nil => intro st day daily; exact ⟨fun j => rfl, fun j => rfl, fun j => rfl⟩
  | cons q rest ih =>
      intro st day daily
      rw [placeLoop]
      cases h : offAt st q with
      | none =>
          obtain ⟨ih1, ih2, ih3⟩ := ih _ _ _
          exact ⟨fun j => by rw [ih1 j, safetyAt_setOffAt],
            fun j => by rw [ih2 j, seasonalAt_setOffAt],
            fun j => by rw [ih3 j, freqAt_setOffAt]⟩
      | some _ => exact ih _ _ _

/-- Whatever the day state, an immediate member whose offset is unset ends
with an offset in `[0, 6]`. -/
theorem placeLoop_mem_none (perDay : Int) :
    ∀ (imm : List Nat) (st : List Row) (day daily : Int) (i : Nat),
      i ∈ imm → i < st.length → offAt st i = Option.none →
      ∃ v : Int, offAt (placeLoop perDay imm st day daily) i = some v ∧ 0 ≤ v ∧ v ≤ 6 := by
  intro imm
  induction imm with
  | nil => intro st day daily i hi; simp at hi
  | cons q rest ih =>
      intro st day daily i hi hlen hnone
      rw [placeLoop]
      by_cases hiq : i = q
      · subst hiq
        rw [hnone]
        set v : Int := min 6 (max 0 (if daily ≥ perDay then day + 1 else day)) with hv
        have hset : offAt (setOffAt st i (Val.str (pyIntToStr v))) i = some v := by
          rw [offAt_setOffAt_self st i _ hlen]
          exact parseIntVal_pyIntToStr _ (by rw [hv]; omega)
        refine ⟨v, placeLoop_frame_some perDay rest _ _ _ i v hset, by rw [hv]; omega,
          by rw [hv]; omega⟩
      · have hir : i ∈ rest := by
          rcases List.mem_cons.mp hi with rfl | h
          · exact absurd rfl hiq
          · exact h
        cases h : offAt st q with
        | none =>
            exact ih _ _ _ i hir (by rw [length_setOffAt]; exact hlen)
              (by rw [offAt_setOffAt_ne st q i _ (fun he => hiq he.symm)]; exact hnone)
        | some _ => exact ih _ _ _ i hir hlen hnone

/-! ## Claim C2: safety-critical tasks and the first week -/

theorem stGet_eq_get (st : List Row) (i : Nat) (h : i < st.length) :
    stGet st i = st.get ⟨i, h⟩ := by
  simp [stGet, List.getD_eq_getElem?_getD, List.getElem?_eq_getElem h]

theorem stGet_mem (st : List Row) (i : Nat) (h : i < st.length) : stGet st i ∈ st := by
  rw [stGet_eq_get st i h]
  exact List.get_mem st i h

theorem placeImmediate_length (perDay : Int) (st : List Row) (imm : List Nat) :
    (placeImmediate perDay st imm).length = st.length := by
  rw [placeImmediate]
  split
  · rfl
  · exact placeLoop_length perDay imm st 0 0

theorem placeImmediate_stable (perDay : Int) (st : List Row) (imm : List Nat) :
    ∀ j, safetyAt (placeImmediate perDay st imm) j = safetyAt st j := by
  intro j
  rw [placeImmediate]
  split
  · rfl
  · exact (placeLoop_stable perDay imm st 0 0).1 j

theorem pullNearTerm_mono (near : Int) (today : Date) (st : List Row) (imm lat : List Nat)
    (i : Nat) (hi : i ∈ imm) : i ∈ (pullNearTerm near today st imm lat).1 := by
  rw [pullNearTerm]
  exact pullNearTerm_imm_mono near today st _ imm lat i hi

theorem pullNearTerm_subset (near : Int) (today : Date) (st : List Row) (imm lat : List Nat) :
    (pullNearTerm near today st imm lat).2 ⊆ lat := by
  rw [pullNearTerm]
  exact pullNearTerm_lat_subset st _ imm lat

theorem mem_sortedIdx (near : Int) (today : Date) (st : List Row) (i : Nat) :
    i ∈ sortedIdx near today st ↔ i < st.length := by
  rw [sortedIdx]
  rw [(List.perm_insertionSort _ (List.range st.length)).mem_iff]
  exact List.mem_range

/-- Every safety-critical row of a ramp run over offset-free rows ends with
an offset between 0 and 6. -/
theorem applyOnboardingRamp_safety (caps : RampCaps) (today : Date) (rows : List Row)
    (hoff : ∀ r ∈ rows, r.start_offset_days = Val.none) :
    ∀ r ∈ applyOnboardingRamp caps today true rows,
      parseBoolD r.safety_critical false = true →
      ∃ v : Int, parseIntVal r.start_offset_days = some v ∧ 0 ≤ v ∧ v ≤ 6 := by
  intro r hr hsafe
  rw [applyOnboardingRamp] at hr
  simp only [Bool.not_true, Bool.false_eq_true, if_false, eq_self_iff_true, if_true] at hr
  set sorted := sortedIdx caps.near today rows with hsorted
  set p1 := splitSafety rows sorted with hp1
  set p2 := pullNearTerm caps.near today rows p1.1 p1.2 with hp2
  set d := deferMultiYear rows p2.1 with hd
  set lat3 := p2.2 ++ d.2.2 with hlat3
  set st4 := hardDeferAnnual d.1 lat3 with hst4
  set p5 := fillImmediate st4 true sorted d.2.1 lat3 (max 0 (caps.cap - (d.2.1.length : Int)))
    with hp5
  set st6 := staggerLater caps.stagger st4 p5.2 with hst6
  -- stage facts
  have hdaux := deferMultiYear_aux p2.1 rows p2.1 []
  have hhaux := hardDeferAnnual_aux lat3 d.1
  have hsaux := staggerLater_stable caps.stagger st4 p5.2
  have hd_eq : d = p2.1.foldl deferStep (rows, p2.1, []) := hd
  rw [← hd_eq] at hdaux
  have hh_eq : st4 = lat3.foldl hardDeferStep d.1 := hst4
  rw [← hh_eq] at hhaux
  -- lengths
  have hlen3 : d.1.length = rows.length := hdaux.2.2.2.1
  have hlen4 : st4.length = rows.length := by rw [hhaux.2.2.2.1, hlen3]
  have hlen6 : st6.length = rows.length := by rw [hsaux.2.2.2.1, hlen4]
  -- the produced row is the row at some index of the final state
  obtain ⟨⟨i, hi⟩, rfl⟩ := List.mem_iff_get.mp hr
  have hiF : i < (placeImmediate caps.perDay st6 p5.1).length := hi
  have hin : i < rows.length := by
    rw [placeImmediate_length, hlen6] at hiF
    exact hiF
  have hrget : (placeImmediate caps.perDay st6 p5.1).get ⟨i, hi⟩ =
      stGet (placeImmediate caps.perDay st6 p5.1) i := (stGet_eq_get _ _ _).symm
  rw [hrget] at hsafe ⊢
  -- the safety flag is stable through every stage
  have hsafe0 : safetyAt rows i = true := by
    have h1 : safetyAt (placeImmediate caps.perDay st6 p5.1) i = safetyAt st6 i :=
      placeImmediate_stable _ _ _ i
    have h2 : safetyAt st6 i = safetyAt st4 i := hsaux.1 i
    have h3 : safetyAt st4 i = safetyAt d.1 i := hhaux.1 i
    have h4 : safetyAt d.1 i = safetyAt rows i := hdaux.1 i
    rw [← h4, ← h3, ← h2, ← h1]
    exact hsafe
  -- i is immediate from the start and stays immediate
  have him1 : i ∈ p1.1 := by
    rw [hp1, splitSafety_eq]
    exact List.mem_filter.mpr ⟨(mem_sortedIdx caps.near today rows i).mpr hin,
      by simpa using hsafe0⟩
  have him2 : i ∈ p2.1 := pullNearTerm_mono _ _ _ _ _ i him1
  have him3 : i ∈ d.2.1 := hdaux.2.2.2.2.2.1 i hsafe0 him2
  have him5 : i ∈ p5.1 := fillImmediate_imm_mono st4 true sorted d.2.1 lat3 _ i him3
  -- members of `later` are never safety-critical
  have hlat1 : ∀ j ∈ p1.2, safetyAt rows j = false := by
    intro j hj
    rw [hp1, splitSafety_eq] at hj
    have := (List.mem_filter.mp hj).2
    simpa using this
  have hlat3mem : ∀ j ∈ lat3, safetyAt rows j = false := by
    intro j hj
    rcases List.mem_append.mp hj with h | h
    · exact hlat1 j (pullNearTerm_subset _ _ _ _ _ h)
    · rcases hdaux.2.2.2.2.2.2 j h with h' | h'
      · simp at h'
      · exact h'
  -- the offset of i is still unset when placement starts
  have hoffi : offAt rows i = Option.none := by
    rw [offAt, hoff _ (stGet_mem rows i hin)]
    rfl
  have hoff3 : offAt d.1 i = Option.none := by
    rw [hdaux.2.2.2.2.1 i hsafe0, hoffi]
  have hoff4 : offAt st4 i = Option.none := by
    rw [hhaux.2.2.2.2 i ?_, hoff3]
    intro hmem
    rw [hlat3mem i hmem] at hsafe0
    exact Bool.noConfusion hsafe0
  have hoff6 : offAt st6 i = Option.none := by
    rw [hsaux.2.2.2.2 i ?_, hoff4]
    intro hmem
    have := hlat3mem i (fillImmediate_lat_subset st4 true sorted d.2.1 lat3 _ hmem)
    rw [this] at hsafe0
    exact Bool.noConfusion hsafe0
  -- placement assigns a day in [0, 6]
  have hne : p5.1 ≠ [] := fun h => by rw [h] at him5; exact absurd him5 (by simp)
  have hfin : ∃ v : Int, offAt (placeImmediate caps.perDay st6 p5.1) i = some v ∧
      0 ≤ v ∧ v ≤ 6 := by
    rw [placeImmediate, if_neg hne]
    exact placeLoop_mem_none caps.perDay p5.1 st6 0 0 i him5 (by rw [hlen6]; exact hin) hoff6
  exact hfin

theorem enrichSafety_off (r : Row) : (enrichSafety r).start_offset_days = r.start_offset_days :=
  rfl

theorem enrichPriority_off (r : Row) :
    (enrichPriority r).start_offset_days = r.start_offset_days := by
  unfold enrichPriority
  dsimp only
  repeat' split
  all_goals rfl

theorem enrichCategory_off (r : Row) :
    (enrichCategory r).start_offset_days = r.start_offset_days := by
  unfold enrichCategory
  dsimp only
  repeat' split
  all_goals rfl

theorem enrichSeasonal_off (r : Row) :
    (enrichSeasonal r).start_offset_days = r.start_offset_days := by
  unfold enrichSeasonal
  dsimp only
  repeat' split
  all_goals rfl

theorem enrichActivation_off (r : Row) :
    (enrichActivation r).start_offset_days = r.start_offset_days := by
  unfold enrichActivation
  dsimp only
  repeat' split
  all_goals rfl

theorem enrichRow_off (r : Row) : (enrichRow r).start_offset_days = r.start_offset_days := by
  unfold enrichRow
  rw [enrichActivation_off, enrichSeasonal_off, enrichCategory_off, enrichPriority_off,
    enrichSafety_off]

theorem safetyNetRow_safety_field (r : Row) :
    (safetyNetRow r).safety_critical = r.safety_critical := by
  rw [safetyNetRow]
  split
  · split
    · rfl
    · split <;> rfl
  · rfl

theorem safetyNetRow_of_safety (r : Row) (h : parseBoolD r.safety_critical false = true) :
    safetyNetRow r = r := by
  rw [safetyNetRow, if_neg]
  simp [h]

/-- **C2 (counterexample).** Four safety-critical tasks with the default
`per_day_cap = 3`: the fourth is placed on day 1, not day 0, so a
safety-critical task is deferred past day 0 of the first week (while still
staying at offset ≤ 6). -/
theorem c2_safety_counterexample :
    (seedPipeline defaultCaps ⟨2024, 1, 1⟩ true noFeats c2Rows).map
      (fun r => (parseBoolD r.safety_critical false, r.start_offset_days)) =
      [(true, Val.str "0"), (true, Val.str "0"), (true, Val.str "0"), (true, Val.str "1")] := by
  decide

/-- **C2 (amended).** On a first-generation run — any persona and time
budget, any features, any catalog — every safety-critical resolved task
ends with `start_offset_days` between 0 and 6.  It is not necessarily day
0: safety tasks beyond `per_day_cap` roll to later days of the first week
(clamped at day 6). -/
theorem c2_safety_first_week (persona : String) (budget : Option Int) (today : Date)
    (f : Features) (allRows : List Row) :
    ∀ r ∈ seedPipeline (rampCaps persona budget) today true f allRows,
      parseBoolD r.safety_critical false = true →
      ∃ v : Int, parseIntVal r.start_offset_days = some v ∧ 0 ≤ v ∧ v ≤ 6 := by
  intro r hr hsafe
  rw [seedPipeline] at hr
  simp only [if_true] at hr
  obtain ⟨r0, hr0, rfl⟩ := List.mem_map.mp hr
  have hsafe0 : parseBoolD r0.safety_critical false = true := by
    rw [safetyNetRow_safety_field] at hsafe
    exact hsafe
  rw [safetyNetRow_of_safety r0 hsafe0]
  have hoffres : ∀ s ∈ resolveOverlaps (enrichRows (clearOffsets
      (filterRowsByFeatures allRows f))), s.start_offset_days = Val.none := by
    intro s hs
    have hmem := resolveOverlaps_subset _ s hs
    obtain ⟨s1, hs1, rfl⟩ := List.mem_map.mp hmem
    obtain ⟨s2, hs2, rfl⟩ := List.mem_map.mp hs1
    rw [enrichRow_off]
    rfl
  exact applyOnboardingRamp_safety (rampCaps persona budget) today _ hoffres r0 hr0 hsafe0

/-- Witness for C2 (amended): the fourth of four safety tasks. -/
theorem c2_safety_first_week_witness :
    ∃ v : Int,
      parseIntVal ((seedPipeline (rampCaps "" Option.none) ⟨2024, 1, 1⟩ true noFeats
        c2Rows).getD 3 dfltRow).start_offset_days = some v ∧ 0 ≤ v ∧ v ≤ 6 :=
  c2_safety_first_week "" Option.none ⟨2024, 1, 1⟩ noFeats c2Rows _ (by decide) (by decide)

/-! ## Claim C7: near-term seasonal tasks and the first week -/

theorem setOff_setOff (r : Row) (a b : Val) : (r.setOff a).setOff b = r.setOff b := rfl

theorem setOff_none_eq (r : Row) (h : r.start_offset_days = Val.none) :
    r.setOff Val.none = r := by
  rw [Row.setOff, ← h]

theorem stGet_setOffAt_ge (st : List Row) (i : Nat) (v : Val) (h : st.length ≤ i) :
    stGet (setOffAt st i v) i = stGet st i := by
  rw [stGet, stGet, setOffAt]
  rw [List.getD_eq_default _ _ (by simpa using h), List.getD_eq_default _ _ h]

theorem coreAt_setOffAt (st : List Row) (i : Nat) (v : Val) (j : Nat) :
    coreAt (setOffAt st i v) j = coreAt st j := by
  by_cases hij : j = i
  · subst hij
    by_cases hlt : j < st.length
    · rw [coreAt, coreAt, setOffAt, stGet_set_self st j _ hlt, setOff_setOff]
    · rw [coreAt, coreAt, stGet_setOffAt_ge st j v (Nat.le_of_not_lt hlt)]
  · rw [coreAt, coreAt, stGet_setOffAt_ne st i j v (fun he => hij he.symm)]

theorem coreAt_deferFold (queue : List Nat) :
    ∀ (st : List Row) (im defs : List Nat) (j : Nat),
      coreAt (queue.foldl deferStep (st, im, defs)).1 j = coreAt st j := by
  induction queue with
  | nil => intro st im defs j; rfl
  | cons q rest ih =>
      intro st im defs j
      rw [List.foldl_cons, deferStep]
      by_cases hc : (freqAt st q ≥ 365 * 2 && !(safetyAt st q)) = true
      · rw [if_pos hc]
        exact (ih _ _ _ j).trans (coreAt_setOffAt st q _ j)
      · rw [if_neg hc]
        exact ih st im defs j

theorem coreAt_hardDefer (lat : List Nat) :
    ∀ (st : List Row) (j : Nat), coreAt (lat.foldl hardDeferStep st) j = coreAt st j := by
  induction lat with
  | nil => intro st j; rfl
  | cons q rest ih =>
      intro st j
      rw [List.foldl_cons]
      refine (ih _ j).trans ?_
      rw [hardDeferStep]
      split
      · cases h : offAt st q with
        | none => exact coreAt_setOffAt st q _ j
        | some _ => rfl
      · rfl

theorem coreAt_staggerLoop (perWeek : Int) :
    ∀ (lat : List Nat) (st : List Row) (week count : Int) (j : Nat),
      coreAt (staggerLoop perWeek lat st week count) j = coreAt st j := by
  intro lat
  induction lat with
  | nil => intro st week count j; rfl
  | cons q rest ih =>
      intro st week count j
      rw [staggerLoop]
      cases h : offAt st q with
      | none =>
          split
          · exact (ih _ _ _ j).trans (coreAt_setOffAt st q _ j)
          · exact (ih _ _ _ j).trans (coreAt_setOffAt st q _ j)
      | some _ =>
          split
          · exact ih _ _ _ j
          · exact ih _ _ _ j

theorem coreAt_staggerLater (stagger : Int) (st : List Row) (lat : List Nat) (j : Nat) :
    coreAt (staggerLater stagger st lat) j = coreAt st j := by
  rw [staggerLater]
  split
  · rfl
  · exact coreAt_staggerLoop _ lat st 0 0 j

theorem coreAt_placeLoop (perDay : Int) :
    ∀ (imm : List Nat) (st : List Row) (day daily : Int) (j : Nat),
      coreAt (placeLoop perDay imm st day daily) j = coreAt st j := by
  intro imm
  induction imm with
  | nil => intro st day daily j; rfl
  | cons q rest ih =>
      intro st day daily j
      rw [placeLoop]
      cases h : offAt st q with
      | none => exact (ih _ _ _ j).trans (coreAt_setOffAt st q _ j)
      | some _ => exact ih _ _ _ j

theorem coreAt_placeImmediate (perDay : Int) (st : List Row) (imm : List Nat) (j : Nat) :
    coreAt (placeImmediate perDay st imm) j = coreAt st j := by
  rw [placeImmediate]
  split
  · rfl
  · exact coreAt_placeLoop perDay imm st 0 0 j

theorem freqAt_eq_of_stGet_eq (st : List Row) (i j : Nat) (h : stGet st i = stGet st j) :
    freqAt st i = freqAt st j := by
  rw [freqAt, freqAt, h]

theorem stGet_inj (st : List Row) (hnd : st.Nodup) (a b : Nat)
    (ha : a < st.length) (hb : b < st.length) (he : stGet st a = stGet st b) : a = b := by
  rw [stGet_eq_get st a ha, stGet_eq_get st b hb] at he
  have := (List.Nodup.get_inj_iff hnd).mp he
  exact congrArg Fin.val this

theorem valueMem_of_mem (st : List Row) (l : List Nat) (j : Nat) (hj : j ∈ l) :
    valueMem st l (stGet st j) = true := by
  rw [valueMem, List.any_eq_true]
  exact ⟨j, hj, by simp⟩

theorem removeFirstVal_sublist (st : List Row) :
    ∀ (l : List Nat) (r : Row), (removeFirstVal st l r).Sublist l := by
  intro l
  induction l with
  | nil => intro r; simp [removeFirstVal]
  | cons j js ih =>
      intro r
      rw [removeFirstVal]
      split
      · exact List.sublist_cons_self j js
      · exact List.Sublist.cons₂ j (ih r)

theorem not_mem_removeFirstVal_self (st : List Row) :
    ∀ (l : List Nat) (j : Nat), l.Nodup →
      (∀ x ∈ l, stGet st x = stGet st j → x = j) →
      j ∉ removeFirstVal st l (stGet st j) := by
  intro l
  induction l with
  | nil => intro j _ _; simp [removeFirstVal]
  | cons x xs ih =>
      intro j hnd hinj
      rw [removeFirstVal]
      split
      · next hx =>
          have hxj : x = j := hinj x (List.mem_cons_self _ _) hx
          subst hxj
          exact (List.nodup_cons.mp hnd).1
      · next hx =>
          intro hmem
          rcases List.mem_cons.mp hmem with he | hmem2
          · exact hx (he ▸ rfl)
          · exact ih j (List.nodup_cons.mp hnd).2
              (fun y hy hye => hinj y (List.mem_cons_of_mem _ hy) hye) hmem2

/-- Under pairwise-distinct row values, the near-term pull moves every member
of the near-term list into `immediate` and out of `later`. -/
theorem pullNearTerm_pull_aux (st : List Row) :
    ∀ (ntl : List Nat) (imm lat : List Nat),
      lat.Nodup → ntl.Nodup →
      (∀ a b, a ∈ lat → b ∈ lat → stGet st a = stGet st b → a = b) →
      (∀ x ∈ ntl, x ∈ lat) →
      ∀ i ∈ ntl,
        i ∈ (ntl.foldl (pullStep st) (imm, lat)).1 ∧
        i ∉ (ntl.foldl (pullStep st) (imm, lat)).2 := by
  intro ntl
  induction ntl with
  | nil => intro imm lat _ _ _ _ i hi; simp at hi
  | cons q rest ih =>
      intro imm lat hndl hndn hinj hsub i hi
      rw [List.foldl_cons, pullStep]
      have hqlat : q ∈ lat := hsub q (List.mem_cons_self _ _)
      have hvm : valueMem st lat (stGet st q) = true := valueMem_of_mem st lat q hqlat
      rw [if_pos hvm]
      have hsubl : (removeFirstVal st lat (stGet st q)).Sublist lat :=
        removeFirstVal_sublist st lat _
      have hndl2 : (removeFirstVal st lat (stGet st q)).Nodup := hndl.sublist hsubl
      have hinj2 : ∀ a b, a ∈ removeFirstVal st lat (stGet st q) →
          b ∈ removeFirstVal st lat (stGet st q) → stGet st a = stGet st b → a = b :=
        fun a b ha hb => hinj a b (hsubl.subset ha) (hsubl.subset hb)
      have hnq : q ∉ rest := (List.nodup_cons.mp hndn).1
      have hndr : rest.Nodup := (List.nodup_cons.mp hndn).2
      have hsubr : ∀ x ∈ rest, x ∈ removeFirstVal st lat (stGet st q) := by
        intro x hx
        refine removeFirstVal_mem_of_ne st lat _ x (hsub x (List.mem_cons_of_mem _ hx)) ?_
        intro he
        exact hnq (hinj x q (hsub x (List.mem_cons_of_mem _ hx)) hqlat he ▸ hx)
      rcases List.mem_cons.mp hi with hiq | hirest
      · subst hiq
        refine ⟨?_, ?_⟩
        · exact pullNearTerm_imm_mono 0 ⟨0, 0, 0⟩ st rest (imm ++ [i])
            (removeFirstVal st lat (stGet st i)) i
            (List.mem_append_right _ (List.mem_singleton.mpr rfl))
        · intro hmem
          have hsub2 := pullNearTerm_lat_subset st rest (imm ++ [i])
            (removeFirstVal st lat (stGet st i))
          exact not_mem_removeFirstVal_self st lat i hndl
            (fun x hx he => hinj x i hx hqlat he) (hsub2 hmem)
      · exact ih (imm ++ [q]) (removeFirstVal st lat (stGet st q)) hndl2 hndr hinj2
          hsubr i hirest

/-- The multi-year defer step leaves sub-biennial rows in `immediate`, leaves
their offsets alone, and only ever defers rows with `frequency_days ≥ 730`. -/
theorem deferMultiYear_keep (queue : List Nat) :
    ∀ (st : List Row) (im defs : List Nat),
      (∀ i, freqAt st i < 365 * 2 →
        offAt (queue.foldl deferStep (st, im, defs)).1 i = offAt st i) ∧
      (∀ i, freqAt st i < 365 * 2 → i ∈ im →
        i ∈ (queue.foldl deferStep (st, im, defs)).2.1) ∧
      (∀ j ∈ (queue.foldl deferStep (st, im, defs)).2.2,
        j ∈ defs ∨ freqAt st j ≥ 365 * 2) := by
  induction queue with
  | nil =>
      intro st im defs
      exact ⟨fun i _ => rfl, fun i _ hi => hi, fun j hj => Or.inl hj⟩
  | cons q rest ih =>
      intro st im defs
      rw [List.foldl_cons, deferStep]
      by_cases hc : (freqAt st q ≥ 365 * 2 && !(safetyAt st q)) = true
      · rw [if_pos hc]
        simp only [Bool.and_eq_true, decide_eq_true_eq] at hc
        have hqf : freqAt st q ≥ 365 * 2 := hc.1
        obtain ⟨ih1, ih2, ih3⟩ :=
          ih (setOffAt st q (Val.str (pyIntToStr (max ((offAt st q).getD 0) 180))))
            (removeFirstVal (setOffAt st q (Val.str (pyIntToStr (max ((offAt st q).getD 0) 180))))
              im (stGet (setOffAt st q (Val.str (pyIntToStr (max ((offAt st q).getD 0) 180)))) q))
            (defs ++ [q])
        refine ⟨?_, ?_, ?_⟩
        · intro i hif
          have hiq : i ≠ q := fun he => by rw [he] at hif; omega
          rw [ih1 i (by rw [freqAt_setOffAt]; exact hif),
            offAt_setOffAt_ne st q i _ (fun he => hiq he.symm)]
        · intro i hif him
          refine ih2 i (by rw [freqAt_setOffAt]; exact hif) ?_
          refine removeFirstVal_mem_of_ne _ im _ i him ?_
          intro he
          have hfe := freqAt_eq_of_stGet_eq _ i q he
          rw [freqAt_setOffAt, freqAt_setOffAt] at hfe
          rw [hfe] at hif
          omega
        · intro j hj
          rcases ih3 j hj with hj2 | hj2
          · rcases List.mem_append.mp hj2 with h | h
            · exact Or.inl h
            · simp only [List.mem_singleton] at h
              rw [h]
              exact Or.inr hqf
          · rw [freqAt_setOffAt] at hj2
            exact Or.inr hj2
      · rw [if_neg hc]
        exact ih st im defs

/-- The hard annual defer never touches the offset of a seasonal row. -/
theorem hardDeferAnnual_keep (lat : List Nat) :
    ∀ (st : List Row) (i : Nat), seasonalAt st i = true →
      offAt (lat.foldl hardDeferStep st) i = offAt st i := by
  induction lat with
  | nil => intro st i _; rfl
  | cons q rest ih =>
      intro st i hseas
      rw [List.foldl_cons]
      have hone : offAt (hardDeferStep st q) i = offAt st i ∧
          seasonalAt (hardDeferStep st q) i = seasonalAt st i := by
        rw [hardDeferStep]
        split
        · next hcond =>
            have hiq : i ≠ q := by
              intro he
              simp only [Bool.and_eq_true, Bool.not_eq_eq_eq_not, Bool.not_true,
                decide_eq_true_eq] at hcond
              have hqs := hcond.2
              rw [← he, hseas] at hqs
              exact Bool.noConfusion hqs
            cases hoq : offAt st q with
            | none =>
                exact ⟨offAt_setOffAt_ne st q i _ (fun he => hiq he.symm),
                  seasonalAt_setOffAt ..⟩
            | some _ => exact ⟨rfl, rfl⟩
        · exact ⟨rfl, rfl⟩
      rw [ih _ i (by rw [hone.2]; exact hseas), hone.1]

/-- Resolved rows of a ramp-mode run carry no offset: the orchestrator nulls
them before enrichment, and neither enrichment nor the resolver writes one. -/
theorem resolved_off_none (f : Features) (allRows : List Row) :
    ∀ s ∈ resolveOverlaps (enrichRows (clearOffsets (filterRowsByFeatures allRows f))),
      s.start_offset_days = Val.none := by
  intro s hs
  have hmem := resolveOverlaps_subset _ s hs
  obtain ⟨s1, hs1, rfl⟩ := List.mem_map.mp hmem
  obtain ⟨s2, hs2, rfl⟩ := List.mem_map.mp hs1
  rw [enrichRow_off]
  rfl

theorem safetyNetRow_seasonal_field (r : Row) : (safetyNetRow r).seasonal = r.seasonal := by
  rw [safetyNetRow]
  repeat' split
  all_goals rfl

theorem safetyNetRow_freq_field (r : Row) :
    (safetyNetRow r).frequency_days = r.frequency_days := by
  rw [safetyNetRow]
  repeat' split
  all_goals rfl

theorem safetyNetRow_eq_of_lowfreq (r : Row) (h : pyIntOr0 r.frequency_days < 365) :
    safetyNetRow r = r := by
  rw [safetyNetRow]
  split
  · next hc =>
      simp only [Bool.and_eq_true, decide_eq_true_eq] at hc
      exact absurd hc.1 (by omega)
  · rfl

/-- Every non-safety seasonal row of a ramp run over pairwise-distinct,
offset-free rows whose natural due date is within `near` days ends with an
offset between 0 and 6. -/
theorem applyOnboardingRamp_nearSeasonal (caps : RampCaps) (today : Date) (rows : List Row)
    (hnodup : rows.Nodup)
    (hoff : ∀ r ∈ rows, r.start_offset_days = Val.none) :
    ∀ r ∈ applyOnboardingRamp caps today true rows,
      parseBoolD r.safety_critical false = false →
      parseBoolD r.seasonal false = true →
      pyIntOr0 r.frequency_days < 365 →
      computeNextDueDate (r.setOff Val.none) today - today.ord ≤ caps.near →
      ∃ v : Int, parseIntVal r.start_offset_days = some v ∧ 0 ≤ v ∧ v ≤ 6 := by
  intro r hr hsafe hseas hfreq hnear
  rw [applyOnboardingRamp] at hr
  simp only [Bool.not_true, Bool.false_eq_true, if_false, eq_self_iff_true, if_true] at hr
  set sorted := sortedIdx caps.near today rows with hsorted
  set p1 := splitSafety rows sorted with hp1
  set p2 := pullNearTerm caps.near today rows p1.1 p1.2 with hp2
  set d := deferMultiYear rows p2.1 with hd
  set lat3 := p2.2 ++ d.2.2 with hlat3
  set st4 := hardDeferAnnual d.1 lat3 with hst4
  set p5 := fillImmediate st4 true sorted d.2.1 lat3 (max 0 (caps.cap - (d.2.1.length : Int)))
    with hp5
  set st6 := staggerLater caps.stagger st4 p5.2 with hst6
  -- stage facts
  have hdaux := deferMultiYear_aux p2.1 rows p2.1 []
  have hdkeep := deferMultiYear_keep p2.1 rows p2.1 []
  have hhaux := hardDeferAnnual_aux lat3 d.1
  have hsaux := staggerLater_stable caps.stagger st4 p5.2
  have hd_eq : d = p2.1.foldl deferStep (rows, p2.1, []) := hd
  rw [← hd_eq] at hdaux hdkeep
  have hh_eq : st4 = lat3.foldl hardDeferStep d.1 := hst4
  rw [← hh_eq] at hhaux
  have hlen3 : d.1.length = rows.length := hdaux.2.2.2.1
  have hlen4 : st4.length = rows.length := by rw [hhaux.2.2.2.1, hlen3]
  have hlen6 : st6.length = rows.length := by rw [hsaux.2.2.2.1, hlen4]
  obtain ⟨⟨i, hi⟩, rfl⟩ := List.mem_iff_get.mp hr
  have hiF : i < (placeImmediate caps.perDay st6 p5.1).length := hi
  have hin : i < rows.length := by
    rw [placeImmediate_length, hlen6] at hiF
    exact hiF
  have hrget : (placeImmediate caps.perDay st6 p5.1).get ⟨i, hi⟩ =
      stGet (placeImmediate caps.perDay st6 p5.1) i := (stGet_eq_get _ _ _).symm
  rw [hrget] at hsafe hseas hfreq hnear ⊢
  -- the offset-blanked row is invariant through every stage
  have h1 : coreAt (placeImmediate caps.perDay st6 p5.1) i = coreAt st6 i :=
    coreAt_placeImmediate caps.perDay st6 p5.1 i
  have h2 : coreAt st6 i = coreAt st4 i := by
    rw [hst6]
    exact coreAt_staggerLater caps.stagger st4 p5.2 i
  have h3 : coreAt st4 i = coreAt d.1 i := by
    rw [hh_eq]
    exact coreAt_hardDefer lat3 d.1 i
  have h4 : coreAt d.1 i = coreAt rows i := by
    rw [hd_eq]
    exact coreAt_deferFold p2.1 rows p2.1 [] i
  have hcore : coreAt (placeImmediate caps.perDay st6 p5.1) i = coreAt rows i :=
    h1.trans (h2.trans (h3.trans h4))
  -- transfer the hypotheses to the initial index
  have hsafe0 : safetyAt rows i = false := by
    have hcg := congrArg (fun row => parseBoolD row.safety_critical false) hcore
    exact hcg.symm.trans hsafe
  have hseas0 : seasonalAt rows i = true := by
    have hcg := congrArg (fun row => parseBoolD row.seasonal false) hcore
    exact hcg.symm.trans hseas
  have hfreq0 : freqAt rows i < 365 := by
    have hcg := congrArg (fun row => pyIntOr0 row.frequency_days) hcore
    exact lt_of_eq_of_lt hcg.symm hfreq
  have hoffi : (stGet rows i).start_offset_days = Val.none := hoff _ (stGet_mem rows i hin)
  have hnear0 : daysOutAt today rows i ≤ caps.near := by
    rw [daysOutAt]
    have h5 : coreAt rows i = stGet rows i := setOff_none_eq _ hoffi
    have hre : stGet rows i =
        (stGet (placeImmediate caps.perDay st6 p5.1) i).setOff Val.none := by
      rw [← h5, ← hcore]
      rfl
    rw [hre]
    exact hnear
  -- membership chain through the phases
  have hsorted_nodup : sorted.Nodup := by
    rw [hsorted, sortedIdx]
    exact ((List.perm_insertionSort _ _).nodup_iff).mpr (List.nodup_range _)
  have hlatnodup : p1.2.Nodup := by
    rw [hp1, splitSafety_eq]
    exact hsorted_nodup.filter _
  have hlat_lt : ∀ x ∈ p1.2, x < rows.length := by
    intro x hx
    rw [hp1, splitSafety_eq] at hx
    exact (mem_sortedIdx caps.near today rows x).mp (List.mem_filter.mp hx).1
  have hinj : ∀ a b, a ∈ p1.2 → b ∈ p1.2 → stGet rows a = stGet rows b → a = b :=
    fun a b ha hb => stGet_inj rows hnodup a b (hlat_lt a ha) (hlat_lt b hb)
  have him1 : i ∈ p1.2 := by
    rw [hp1, splitSafety_eq]
    refine List.mem_filter.mpr ⟨(mem_sortedIdx caps.near today rows i).mpr hin, ?_⟩
    simp [hsafe0]
  have hint : i ∈ nearTermList caps.near today rows p1.2 := by
    rw [nearTermList]
    refine List.mem_filter.mpr ⟨him1, ?_⟩
    simp only [Bool.and_eq_true, decide_eq_true_eq]
    exact ⟨hseas0, hnear0⟩
  have hpull := pullNearTerm_pull_aux rows (nearTermList caps.near today rows p1.2)
    p1.1 p1.2 hlatnodup (hlatnodup.filter _) hinj
    (fun x hx => (List.mem_filter.mp hx).1) i hint
  have hp2_eq : p2 =
      (nearTermList caps.near today rows p1.2).foldl (pullStep rows) (p1.1, p1.2) := hp2
  rw [← hp2_eq] at hpull
  have hfreq2 : freqAt rows i < 365 * 2 := by omega
  have him3 : i ∈ d.2.1 := hdkeep.2.1 i hfreq2 hpull.1
  have hoffd : offAt d.1 i = offAt rows i := hdkeep.1 i hfreq2
  have hnlat3 : i ∉ lat3 := by
    rw [hlat3]
    intro hmem
    rcases List.mem_append.mp hmem with h | h
    · exact hpull.2 h
    · rcases hdkeep.2.2 i h with h2 | h2
      · simp at h2
      · omega
  have hseasd : seasonalAt d.1 i = true := by
    rw [hdaux.2.1 i]
    exact hseas0
  have hoffi0 : offAt rows i = Option.none := by
    rw [offAt, hoffi]
    rfl
  have hoff4 : offAt st4 i = Option.none := by
    rw [hh_eq, hardDeferAnnual_keep lat3 d.1 i hseasd, hoffd, hoffi0]
  have him5 : i ∈ p5.1 := fillImmediate_imm_mono st4 true sorted d.2.1 lat3 _ i him3
  have hnp52 : i ∉ p5.2 :=
    fun hmem => hnlat3 (fillImmediate_lat_subset st4 true sorted d.2.1 lat3 _ hmem)
  have hoff6 : offAt st6 i = Option.none := by
    rw [hsaux.2.2.2.2 i hnp52, hoff4]
  have hne : p5.1 ≠ [] := fun h => by rw [h] at him5; exact absurd him5 (by simp)
  have hfin : ∃ v : Int, offAt (placeImmediate caps.perDay st6 p5.1) i = some v ∧
      0 ≤ v ∧ v ≤ 6 := by
    rw [placeImmediate, if_neg hne]
    exact placeLoop_mem_none caps.perDay p5.1 st6 0 0 i him5 (by rw [hlen6]; exact hin) hoff6
  exact hfin

/-- **C7 (counterexample).** A non-safety seasonal annual task due within
`near_term_days` is pulled into the immediate set and placed on day 0 — but
the post-ramp safety net of `seed_tasks_from_catalog_rows` applies to *all*
non-safety rows with `frequency_days ≥ 365`, not only to deferred ones, so
the task ends with offset 90, not a day offset between 0 and 6. -/
theorem c7_near_seasonal_counterexample :
    (seedPipeline defaultCaps ⟨2024, 11, 1⟩ true noFeats [winterRow]).map
        (fun r => (parseBoolD r.safety_critical false, parseBoolD r.seasonal false,
          decide (computeNextDueDate (r.setOff Val.none) ⟨2024, 11, 1⟩ -
            (⟨2024, 11, 1⟩ : Date).ord ≤ defaultCaps.near), r.start_offset_days)) =
      [(false, true, true, Val.str "90")] := by
  decide

/-- **C7 (amended).** On a first-generation run whose resolved rows are
pairwise distinct, every non-safety-critical *seasonal* task whose natural
due date (recurrence calculator with the offset blanked) falls within
`near_term_days` of today **and whose `frequency_days` is below 365** is
moved into the immediate set and ends with a day offset between 0 and 6.
The sub-annual restriction is necessary: the seeding safety net forces every
non-safety row with `frequency_days ≥ 365` — immediate or deferred — to
offset 90. -/
theorem c7_near_seasonal_first_week (persona : String) (budget : Option Int) (today : Date)
    (f : Features) (allRows : List Row)
    (hnodup : (resolvedRows true f allRows).Nodup) :
    ∀ r ∈ seedPipeline (rampCaps persona budget) today true f allRows,
      parseBoolD r.safety_critical false = false →
      parseBoolD r.seasonal false = true →
      pyIntOr0 r.frequency_days < 365 →
      computeNextDueDate (r.setOff Val.none) today - today.ord ≤
        (rampCaps persona budget).near →
      ∃ v : Int, parseIntVal r.start_offset_days = some v ∧ 0 ≤ v ∧ v ≤ 6 := by
  intro r hr hsafe hseas hfreq hnear
  rw [seedPipeline] at hr
  simp only [if_true] at hr
  obtain ⟨r0, hr0, rfl⟩ := List.mem_map.mp hr
  have hsafe0 : parseBoolD r0.safety_critical false = false := by
    rw [safetyNetRow_safety_field] at hsafe
    exact hsafe
  have hseas0 : parseBoolD r0.seasonal false = true := by
    rw [safetyNetRow_seasonal_field] at hseas
    exact hseas
  have hfreq0 : pyIntOr0 r0.frequency_days < 365 := by
    rw [safetyNetRow_freq_field] at hfreq
    exact hfreq
  have hnr : safetyNetRow r0 = r0 := safetyNetRow_eq_of_lowfreq r0 hfreq0
  rw [hnr]
  rw [hnr] at hnear
  exact applyOnboardingRamp_nearSeasonal (rampCaps persona budget) today _ hnodup
    (resolved_off_none f allRows) r0 hr0 hsafe0 hseas0 hfreq0 hnear

/-- Witness for C7 (amended): a 180-day seasonal task due in 4 days lands on
day 0. -/
theorem c7_near_seasonal_first_week_witness :
    ∃ v : Int,
      parseIntVal ((seedPipeline (rampCaps "" Option.none) ⟨2024, 11, 1⟩ true noFeats
        [springC7Row]).getD 0 dfltRow).start_offset_days = some v ∧ 0 ≤ v ∧ v ≤ 6 :=
  c7_near_seasonal_first_week "" Option.none ⟨2024, 11, 1⟩ noFeats [springC7Row]
    (by decide) _ (by decide) (by decide) (by decide) (by decide) (by decide)

/-! ## Claim C8: the scheduler never overwrites a set offset -/

theorem staggerLoop_frame_some (perWeek : Int) :
    ∀ (lat : List Nat) (st : List Row) (week count : Int) (j : Nat) (v : Int),
      offAt st j = some v →
      offAt (staggerLoop perWeek lat st week count) j = some v := by
  intro lat
  induction lat with
  | nil => intro st week count j v h; exact h
  | cons q rest ih =>
      intro st week count j v h
      rw [staggerLoop]
      cases hq : offAt st q with
      | none =>
          have hjq : q ≠ j := by
            intro he
            rw [he, h] at hq
            exact Option.noConfusion hq
          have h2 : offAt (setOffAt st q (Val.str (pyIntToStr (7 * week)))) j = some v := by
            rw [offAt_setOffAt_ne st q j _ hjq]
            exact h
          split
          · exact ih _ _ _ j v h2
          · exact ih _ _ _ j v h2
      | some w =>
          split
          · exact ih _ _ _ j v h
          · exact ih _ _ _ j v h

/-- **C8 (counterexample).** The catalog offset `'3'` does *not* survive a
generation run: in ramp mode the orchestrator nulls catalog offsets before
the ramp (src/app.py:2258-2262), and the placement step then assigns day 0. -/
theorem c8_offset_overwritten_counterexample :
    offRow.start_offset_days = Val.str "3" ∧
    (seedPipeline defaultCaps ⟨2024, 1, 1⟩ true noFeats [offRow]).map
      (fun r => r.start_offset_days) = [Val.str "0"] := by
  decide

/-- **C8 (amended).** The two ramp steps themselves are frame-correct: the
deferred-stagger loop and the immediate-placement loop assign an offset only
to rows whose offset is unset, so an already-set offset survives both.  But
on a ramp-mode run the orchestrator nulls catalog offsets *before* the ramp,
so a catalog-specified value survives into the resolved task only on
non-ramp runs, where the row pipeline never writes offsets at all. -/
theorem c8_offset_frame :
    (∀ (perWeek : Int) (lat : List Nat) (st : List Row) (week count : Int) (j : Nat) (v : Int),
      offAt st j = some v → offAt (staggerLoop perWeek lat st week count) j = some v) ∧
    (∀ (perDay : Int) (imm : List Nat) (st : List Row) (day daily : Int) (j : Nat) (v : Int),
      offAt st j = some v → offAt (placeLoop perDay imm st day daily) j = some v) ∧
    (∀ (caps : RampCaps) (today : Date) (f : Features) (allRows : List Row),
      ∀ r ∈ seedPipeline caps today false f allRows,
        ∃ r0 ∈ allRows, r.start_offset_days = r0.start_offset_days) := by
  refine ⟨staggerLoop_frame_some, placeLoop_frame_some, ?_⟩
  intro caps today f allRows r hr
  have hr2 : r ∈ resolveOverlaps (enrichRows (filterRowsByFeatures allRows f)) := hr
  have hmem := resolveOverlaps_subset _ r hr2
  obtain ⟨s1, hs1, rfl⟩ := List.mem_map.mp hmem
  exact ⟨s1, List.mem_of_mem_filter hs1, enrichRow_off s1⟩

/-- Witness for C8 (amended): the set offset `3` survives the stagger loop,
the placement loop, and a whole non-ramp run. -/
theorem c8_offset_frame_witness :
    offAt (staggerLoop 1 [0] [offRow] 1 0) 0 = some 3 ∧
    offAt (placeLoop 3 [0] [offRow] 0 0) 0 = some 3 ∧
    ∃ r0 ∈ [offRow],
      ((seedPipeline defaultCaps ⟨2024, 1, 1⟩ false noFeats [offRow]).getD 0
        dfltRow).start_offset_days = r0.start_offset_days :=
  ⟨c8_offset_frame.1 1 [0] [offRow] 1 0 0 3 (by decide),
   c8_offset_frame.2.1 3 [0] [offRow] 0 0 0 3 (by decide),
   c8_offset_frame.2.2 defaultCaps ⟨2024, 1, 1⟩ noFeats [offRow] _ (by decide)⟩

/-! ## Claim C9: the HVAC-filter scenario -/

/-- **C9.** For a catalog with the single template
`{title: "Replace HVAC Filter", frequency_days: 30,
feature_requirements: "has_hvac=true"}`, a feature set with `has_hvac` true
and today = 2024-01-01, generation produces exactly one task whose
`next_due_date` lies in [2024-01-01, 2024-01-31], with category enriched to
`hvac` and priority enriched to `medium` (the `filter` keyword). -/
theorem c9_hvac_scenario :
    (generateTasks defaultCaps ⟨2024, 1, 1⟩ true hvacFeats [hvacRow]).length = 1 ∧
    ∀ p ∈ generateTasks defaultCaps ⟨2024, 1, 1⟩ true hvacFeats [hvacRow],
      ordinalOf 2024 1 1 ≤ p.next_due ∧ p.next_due ≤ ordinalOf 2024 1 31 ∧
      p.category = some "hvac" ∧ p.priority = some "medium" := by
  decide

/-! ## Claim C1: the ramp cap and the first stagger batch -/

theorem valueMem_false_of_ne (st : List Row) (l : List Nat) (r : Row)
    (h : ∀ x ∈ l, stGet st x ≠ r) : valueMem st l r = false := by
  rw [valueMem, List.any_eq_false]
  intro x hx
  simpa using h x hx

theorem map_id_of_eq {α : Type} (l : List α) (f : α → α) (h : ∀ x ∈ l, f x = x) :
    l.map f = l := by
  induction l with
  | nil => rfl
  | cons a t ih =>
      rw [List.map_cons, h a (List.mem_cons_self a t),
        ih (fun x hx => h x (List.mem_cons_of_mem a hx))]

theorem range_map_stGet (st : List Row) :
    (List.range st.length).map (fun i => stGet st i) = st := by
  apply List.ext_get
  · simp
  · intro k h1 h2
    simp only [List.get_map, List.get_range]
    exact stGet_eq_get st k h2

theorem countP_of_get_iff {α : Type} (q : α → Bool) :
    ∀ (l : List α) (m : Nat),
      (∀ (k : Nat) (hk : k < l.length), q (l.get ⟨k, hk⟩) = decide (k < m)) →
      l.countP q = min l.length m := by
  intro l
  induction l with
  | nil => intro m _; simp
  | cons a t ih =>
      intro m h
      rw [List.countP_cons]
      have ha : q a = decide (0 < m) := h 0 (by simp)
      cases m with
      | zero =>
          have ht : t.countP q = min t.length 0 := by
            refine ih 0 ?_
            intro k hk
            have := h (k + 1) (by simpa using hk)
            simpa using this
          simp only [decide_eq_true_eq] at ha
          have haf : q a = false := by
            rw [ha]
            simp
          rw [ht, haf]
          simp
      | succ m =>
          have ht : t.countP q = min t.length m := by
            refine ih m ?_
            intro k hk
            have := h (k + 1) (by simpa using hk)
            simpa [Nat.succ_lt_succ_iff] using this
          have hat : q a = true := by
            rw [ha]
            simp
          rw [ht, hat]
          simp only [if_true, eq_self_iff_true, List.length_cons]
          omega

theorem hardDeferAnnual_noop (lat : List Nat) :
    ∀ st : List Row, (∀ i ∈ lat, freqAt st i < 365) →
      lat.foldl hardDeferStep st = st := by
  induction lat with
  | nil => intro st _; rfl
  | cons q rest ih =>
      intro st h
      rw [List.foldl_cons]
      have hnc : ¬((freqAt st q ≥ 365 && !(seasonalAt st q)) = true) := by
        intro hc
        simp only [Bool.and_eq_true, decide_eq_true_eq] at hc
        have := h q (List.mem_cons_self q rest)
        omega
      have hone : hardDeferStep st q = st := by
        rw [hardDeferStep, if_neg hnc]
      rw [hone]
      exact ih st (fun i hi => h i (List.mem_cons_of_mem q hi))

/-- Positional form of the stagger loop: with entry invariant
`week * per_week + count` processed so far, the `k`-th remaining row (if its
offset is unset) receives `7 * ((week * per_week + count + k) div per_week)`.
The first batch is at week 0. -/
theorem staggerLoop_assign (perWeek : Int) (hpw : 1 ≤ perWeek) :
    ∀ (lat : List Nat) (st : List Row) (week count : Int),
      0 ≤ week → 0 ≤ count → count < perWeek → lat.Nodup →
      (∀ i ∈ lat, i < st.length) →
      ∀ (k : Nat) (hk : k < lat.length),
        offAt st (lat.get ⟨k, hk⟩) = Option.none →
        offAt (staggerLoop perWeek lat st week count) (lat.get ⟨k, hk⟩) =
          some (7 * ((week * perWeek + count + k).fdiv perWeek)) := by
  intro lat
  induction lat with
  | nil =>
      intro st week count _ _ _ _ _ k hk
      exact absurd hk (by simp)
  | cons i rest ih =>
      intro st week count hweek hcount hclt hnd hlen k hk hnone
      have hilen : i < st.length := hlen i (List.mem_cons_self i rest)
      simp only [List.nodup_cons] at hnd
      rw [staggerLoop]
      cases k with
      | zero =>
          have hget : (i :: rest).get ⟨0, hk⟩ = i := rfl
          rw [hget] at hnone ⊢
          rw [hnone]
          have hval : 7 * week = 7 * ((week * perWeek + count + (0 : Nat)).fdiv perWeek) := by
            have hfd : (week * perWeek + count + (0 : Nat)).fdiv perWeek =
                (week * perWeek + count) / perWeek := by
              rw [Int.fdiv_eq_ediv _ (by omega)]
              norm_num
            rw [hfd]
            have harith : (week * perWeek + count) / perWeek = week := by
              have hc : week * perWeek + count = count + week * perWeek := by ring
              rw [hc, Int.add_mul_ediv_right count week (by omega : perWeek ≠ 0),
                Int.ediv_eq_zero_of_lt hcount (by omega)]
              omega
            rw [harith]
          have hset : offAt (setOffAt st i (Val.str (pyIntToStr (7 * week)))) i =
              some (7 * week) := by
            rw [offAt_setOffAt_self st i _ hilen]
            exact parseIntVal_pyIntToStr _ (by omega)
          rw [← hval]
          split
          · exact staggerLoop_frame_some perWeek rest _ _ _ i _ hset
          · exact staggerLoop_frame_some perWeek rest _ _ _ i _ hset
      | succ k2 =>
          have hget : (i :: rest).get ⟨k2 + 1, hk⟩ = rest.get ⟨k2, by simpa using hk⟩ := rfl
          rw [hget] at hnone ⊢
          have hmem : rest.get ⟨k2, by simpa using hk⟩ ∈ rest :=
            List.get_mem rest k2 (by simpa using hk)
          have hir : i ≠ rest.get ⟨k2, by simpa using hk⟩ := fun h => hnd.1 (h ▸ hmem)
          cases h : offAt st i with
          | none =>
              split
              · next hcond =>
                  have hceq : count + 1 = perWeek := by omega
                  have hrec := ih (setOffAt st i (Val.str (pyIntToStr (7 * week))))
                    (week + 1) 0 (by omega) (by omega) (by omega) hnd.2
                    (by
                      intro x hx
                      rw [length_setOffAt]
                      exact hlen x (List.mem_cons_of_mem i hx))
                    k2 (by simpa using hk)
                    (by rw [offAt_setOffAt_ne st i _ _ hir]; exact hnone)
                  rw [hrec]
                  have harg : (week + 1) * perWeek + 0 + (k2 : Int) =
                      week * perWeek + count + ((k2 + 1 : Nat) : Int) := by
                    push_cast
                    have hexp : (week + 1) * perWeek = week * perWeek + perWeek := by ring
                    rw [hexp]
                    linarith
                  rw [harg]
              · next hcond =>
                  have hclt2 : count + 1 < perWeek := by omega
                  have hrec := ih (setOffAt st i (Val.str (pyIntToStr (7 * week))))
                    week (count + 1) hweek (by omega) hclt2 hnd.2
                    (by
                      intro x hx
                      rw [length_setOffAt]
                      exact hlen x (List.mem_cons_of_mem i hx))
                    k2 (by simpa using hk)
                    (by rw [offAt_setOffAt_ne st i _ _ hir]; exact hnone)
                  rw [hrec]
                  have harg : week * perWeek + (count + 1) + (k2 : Int) =
                      week * perWeek + count + ((k2 + 1 : Nat) : Int) := by
                    push_cast
                    ring
                  rw [harg]
          | some w2 =>
              split
              · next hcond =>
                  have hceq : count + 1 = perWeek := by omega
                  have hrec := ih st (week + 1) 0 (by omega) (by omega) (by omega) hnd.2
                    (fun x hx => hlen x (List.mem_cons_of_mem i hx))
                    k2 (by simpa using hk) hnone
                  rw [hrec]
                  have harg : (week + 1) * perWeek + 0 + (k2 : Int) =
                      week * perWeek + count + ((k2 + 1 : Nat) : Int) := by
                    push_cast
                    have hexp : (week + 1) * perWeek = week * perWeek + perWeek := by ring
                    rw [hexp]
                    linarith
                  rw [harg]
              · next hcond =>
                  have hclt2 : count + 1 < perWeek := by omega
                  have hrec := ih st week (count + 1) hweek (by omega) hclt2 hnd.2
                    (fun x hx => hlen x (List.mem_cons_of_mem i hx))
                    k2 (by simpa using hk) hnone
                  rw [hrec]
                  have harg : week * perWeek + (count + 1) + (k2 : Int) =
                      week * perWeek + count + ((k2 + 1 : Nat) : Int) := by
                    push_cast
                    ring
                  rw [harg]

/-- Positional form of the stagger step: the `k`-th later row receives
`7 * (k div per_week)`; in particular the first `per_week` rows get offset 0. -/
theorem staggerLater_assign (stagger : Int) (st : List Row) (lat : List Nat)
    (hnd : lat.Nodup) (hlen : ∀ i ∈ lat, i < st.length)
    (hnone : ∀ i ∈ lat, offAt st i = Option.none)
    (k : Nat) (hk : k < lat.length) :
    offAt (staggerLater stagger st lat) (lat.get ⟨k, hk⟩) =
      some (7 * ((k : Int).fdiv (max 1 (((lat.length : Nat) : Int).fdiv stagger +
        (if (((lat.length : Nat) : Int)).fmod stagger ≠ 0 then 1 else 0))))) := by
  have hlatne : lat ≠ [] := by
    intro h
    rw [h] at hk
    simp at hk
  rw [staggerLater, if_neg hlatne]
  have hpw : 1 ≤ max 1 (((lat.length : Nat) : Int).fdiv stagger +
      (if (((lat.length : Nat) : Int)).fmod stagger ≠ 0 then 1 else 0)) :=
    le_max_left 1 _
  have hres := staggerLoop_assign _ hpw lat st 0 0 (by omega) (by omega) (by omega)
    hnd hlen k hk (hnone _ (List.get_mem lat k hk))
  simpa using hres

/-- When the queue equals `later`, the rows are pairwise distinct, none is
already immediate, and none is skipped by the first-seed annual rule, the
fill step moves exactly the first `rem` rows of the queue to `immediate`. -/
theorem fillImmediate_take (st : List Row) :
    ∀ (queue imm : List Nat) (rem : Int), 0 ≤ rem →
      (∀ j ∈ queue, ∀ x ∈ imm, stGet st x ≠ stGet st j) →
      (∀ j ∈ queue, freqAt st j < 365) →
      (∀ a b, a ∈ queue → b ∈ queue → stGet st a = stGet st b → a = b) →
      queue.Nodup →
      fillImmediate st true queue imm queue rem =
        (imm ++ queue.take rem.toNat, queue.drop rem.toNat) := by
  intro queue
  induction queue with
  | nil =>
      intro imm rem _ _ _ _ _
      rw [fillImmediate]
      simp
  | cons j q ih =>
      intro imm rem h0 hdisj hfr hinj hnd
      rw [fillImmediate]
      have hvm : valueMem st imm (stGet st j) = false :=
        valueMem_false_of_ne st imm _ (fun x hx => hdisj j (List.mem_cons_self j q) x hx)
      rw [if_neg (by rw [hvm]; simp)]
      by_cases hr : rem ≤ 0
      · have hrz : rem = 0 := le_antisymm hr h0
        rw [if_pos hr, hrz]
        simp
      · rw [if_neg hr]
        have hnskip : ¬((true && (freqAt st j ≥ 365 && !(safetyAt st j))) = true) := by
          intro hc
          simp only [Bool.true_and, Bool.and_eq_true, decide_eq_true_eq] at hc
          have := hfr j (List.mem_cons_self j q)
          omega
        rw [if_neg hnskip]
        have hrm : removeFirstVal st (j :: q) (stGet st j) = q := by
          rw [removeFirstVal, if_pos rfl]
        rw [hrm]
        have hdisj2 : ∀ j2 ∈ q, ∀ x ∈ imm ++ [j], stGet st x ≠ stGet st j2 := by
          intro j2 hj2 x hx
          rcases List.mem_append.mp hx with hx1 | hx1
          · exact hdisj j2 (List.mem_cons_of_mem _ hj2) x hx1
          · simp only [List.mem_singleton] at hx1
            subst hx1
            intro he
            have hjj : x = j2 := hinj x j2 (List.mem_cons_self x q)
              (List.mem_cons_of_mem _ hj2) he
            exact (List.nodup_cons.mp hnd).1 (hjj ▸ hj2)
        have hih := ih (imm ++ [j]) (rem - 1) (by omega) hdisj2
          (fun j2 hj2 => hfr j2 (List.mem_cons_of_mem _ hj2))
          (fun a b ha hb => hinj a b (List.mem_cons_of_mem _ ha) (List.mem_cons_of_mem _ hb))
          (List.nodup_cons.mp hnd).2
        rw [hih]
        have htn : rem.toNat = (rem - 1).toNat + 1 := by omega
        have hq2 : (j :: q).take rem.toNat = j :: q.take (rem - 1).toNat := by
          rw [htn]
          rfl
        have hd2 : (j :: q).drop rem.toNat = q.drop (rem - 1).toNat := by
          rw [htn]
          rfl
        rw [hq2, hd2]
        simp

/-- Under C1's hypotheses (no safety rows, no near-term seasonal rows, all
frequencies sub-annual, distinct rows) the ramp reduces to: fill the first
`cap` score-sorted rows into `immediate`, stagger the rest, place the
immediate set. -/
theorem applyOnboardingRamp_normal (caps : RampCaps) (today : Date) (rows : List Row)
    (hnodup : rows.Nodup) (hcap : 0 ≤ caps.cap)
    (hsafeI : ∀ i, i < rows.length → safetyAt rows i = false)
    (hseasI : ∀ i, i < rows.length →
      (seasonalAt rows i && decide (daysOutAt today rows i ≤ caps.near)) = false)
    (hfreqI : ∀ i, i < rows.length → freqAt rows i < 365) :
    applyOnboardingRamp caps today true rows =
      placeImmediate caps.perDay
        (staggerLater caps.stagger rows
          ((sortedIdx caps.near today rows).drop caps.cap.toNat))
        ((sortedIdx caps.near today rows).take caps.cap.toNat) := by
  have hsmem : ∀ i ∈ sortedIdx caps.near today rows, i < rows.length :=
    fun i hi => (mem_sortedIdx caps.near today rows i).mp hi
  have hfA : (sortedIdx caps.near today rows).filter (fun i => safetyAt rows i) = [] := by
    rw [List.filter_eq_nil]
    intro i hi
    simp [hsafeI i (hsmem i hi)]
  have hfB : (sortedIdx caps.near today rows).filter (fun i => !(safetyAt rows i)) =
      sortedIdx caps.near today rows := by
    rw [List.filter_eq_self]
    intro i hi
    simp [hsafeI i (hsmem i hi)]
  have hps : splitSafety rows (sortedIdx caps.near today rows) =
      ([], sortedIdx caps.near today rows) := by
    rw [splitSafety_eq, hfA, hfB]
  have hntl : nearTermList caps.near today rows (sortedIdx caps.near today rows) = [] := by
    rw [nearTermList, List.filter_eq_nil]
    intro i hi
    rw [hseasI i (hsmem i hi)]
    simp
  have hsnd : (sortedIdx caps.near today rows).Nodup := by
    rw [sortedIdx]
    exact ((List.perm_insertionSort _ _).nodup_iff).mpr (List.nodup_range _)
  have hfill : fillImmediate rows true (sortedIdx caps.near today rows) []
      (sortedIdx caps.near today rows) caps.cap =
      ((sortedIdx caps.near today rows).take caps.cap.toNat,
       (sortedIdx caps.near today rows).drop caps.cap.toNat) := by
    have hres := fillImmediate_take rows (sortedIdx caps.near today rows) [] caps.cap hcap
      (by intro j hj x hx; simp at hx)
      (fun j hj => hfreqI j (hsmem j hj))
      (fun a b ha hb => stGet_inj rows hnodup a b (hsmem a ha) (hsmem b hb))
      hsnd
    simpa using hres
  have hhd : (sortedIdx caps.near today rows).foldl hardDeferStep rows = rows :=
    hardDeferAnnual_noop _ rows (fun i hi => hfreqI i (hsmem i hi))
  rw [applyOnboardingRamp]
  simp only [Bool.not_true, Bool.false_eq_true, if_false, eq_self_iff_true, if_true]
  rw [hps]
  dsimp only
  rw [pullNearTerm, hntl]
  simp only [List.foldl_nil]
  rw [deferMultiYear]
  simp only [List.foldl_nil]
  simp only [List.append_nil]
  rw [hardDeferAnnual, hhd]
  simp only [List.length_nil, Nat.cast_zero, sub_zero]
  rw [max_eq_right hcap]
  rw [hfill]

theorem inFirstWeek_stGet (st : List Row) (i : Nat) :
    inFirstWeek (stGet st i) =
      match offAt st i with
      | some v => decide (0 ≤ v ∧ v ≤ 6)
      | Option.none => false := rfl

/-- Full account of a ramp run under C1's hypotheses: the number of rows
landing in the first week is the immediate count `min cap n` *plus the first
stagger batch* `min (n - cap) per_week`; and every row gets a nonnegative
offset. -/
theorem applyOnboardingRamp_count (caps : RampCaps) (today : Date) (rows : List Row)
    (hnodup : rows.Nodup) (hcap : 0 ≤ caps.cap) (hpd : 1 ≤ caps.perDay)
    (hoffI : ∀ i, i < rows.length → offAt rows i = Option.none)
    (hsafeI : ∀ i, i < rows.length → safetyAt rows i = false)
    (hseasI : ∀ i, i < rows.length →
      (seasonalAt rows i && decide (daysOutAt today rows i ≤ caps.near)) = false)
    (hfreqI : ∀ i, i < rows.length → freqAt rows i < 365) :
    ((applyOnboardingRamp caps today true rows).countP inFirstWeek =
      min caps.cap.toNat rows.length +
      min (rows.length - caps.cap.toNat)
        (max 1 (((rows.length - caps.cap.toNat : Nat) : Int).fdiv caps.stagger +
          (if ((rows.length - caps.cap.toNat : Nat) : Int).fmod caps.stagger ≠ 0
            then 1 else 0))).toNat) ∧
    (∀ r ∈ applyOnboardingRamp caps today true rows,
      ∃ v : Int, parseIntVal r.start_offset_days = some v ∧ 0 ≤ v) ∧
    (∀ r ∈ applyOnboardingRamp caps today true rows, pyIntOr0 r.frequency_days < 365) := by
  rw [applyOnboardingRamp_normal caps today rows hnodup hcap hsafeI hseasI hfreqI]
  set sorted := sortedIdx caps.near today rows with hsortedDef
  set immL := sorted.take caps.cap.toNat with himmDef
  set latL := sorted.drop caps.cap.toNat with hlatDef
  set st6 := staggerLater caps.stagger rows latL with hst6Def
  set S := placeImmediate caps.perDay st6 immL with hSDef
  -- basic facts about the index lists
  have hperm : sorted.Perm (List.range rows.length) := by
    rw [hsortedDef, sortedIdx]
    exact List.perm_insertionSort _ _
  have hsortlen : sorted.length = rows.length := by
    rw [hperm.length_eq, List.length_range]
  have hsnd : sorted.Nodup := hperm.nodup_iff.mpr (List.nodup_range _)
  have hsortmem : ∀ i ∈ sorted, i < rows.length := by
    intro i hi
    have := hperm.mem_iff.mp hi
    simpa using this
  have hsplit : immL ++ latL = sorted := by
    rw [himmDef, hlatDef]
    exact List.take_append_drop _ _
  have hndA : (immL ++ latL).Nodup := by rw [hsplit]; exact hsnd
  have hdisj : immL.Disjoint latL := (List.nodup_append.mp hndA).2.2
  have himmnd : immL.Nodup := (List.nodup_append.mp hndA).1
  have hlatnd : latL.Nodup := (List.nodup_append.mp hndA).2.1
  have himmem : ∀ i ∈ immL, i < rows.length :=
    fun i hi => hsortmem i (by rw [← hsplit]; exact List.mem_append_left _ hi)
  have hlatmem : ∀ i ∈ latL, i < rows.length :=
    fun i hi => hsortmem i (by rw [← hsplit]; exact List.mem_append_right _ hi)
  -- lengths of the states
  have hst6len : st6.length = rows.length := by
    rw [hst6Def]
    exact (staggerLater_stable _ _ _).2.2.2.1
  have hSlen : S.length = rows.length := by
    rw [hSDef, placeImmediate_length, hst6len]
  -- the immediate rows still have no offset when placement starts
  have hoff6imm : ∀ i ∈ immL, offAt st6 i = Option.none := by
    intro i hi
    rw [hst6Def, (staggerLater_stable _ _ _).2.2.2.2 i (fun hmem => hdisj hi hmem),
      hoffI i (himmem i hi)]
  -- positional offsets
  have hSimm : ∀ (k : Nat) (hk : k < immL.length),
      offAt S (immL.get ⟨k, hk⟩) = some (min 6 ((k : Int).fdiv caps.perDay)) := by
    intro k hk
    have hne : immL ≠ [] := by
      intro h
      rw [h] at hk
      simp at hk
    rw [hSDef, placeImmediate, if_neg hne]
    have hres := placeLoop_assign caps.perDay hpd immL st6 0 0 (by omega) (by omega)
      (by omega) himmnd (fun i hi => by rw [hst6len]; exact himmem i hi) k hk
      (hoff6imm _ (List.get_mem immL k hk))
    simpa using hres
  have hlat6 : ∀ (k : Nat) (hk : k < latL.length),
      offAt st6 (latL.get ⟨k, hk⟩) =
        some (7 * ((k : Int).fdiv (max 1 (((latL.length : Nat) : Int).fdiv caps.stagger +
          (if (((latL.length : Nat) : Int)).fmod caps.stagger ≠ 0 then 1 else 0))))) := by
    intro k hk
    rw [hst6Def]
    exact staggerLater_assign caps.stagger rows latL hlatnd hlatmem
      (fun i hi => hoffI i (hlatmem i hi)) k hk
  have hSlat : ∀ (k : Nat) (hk : k < latL.length),
      offAt S (latL.get ⟨k, hk⟩) =
        some (7 * ((k : Int).fdiv (max 1 (((latL.length : Nat) : Int).fdiv caps.stagger +
          (if (((latL.length : Nat) : Int)).fmod caps.stagger ≠ 0 then 1 else 0))))) := by
    intro k hk
    rw [hSDef, placeImmediate]
    split
    · exact hlat6 k hk
    · rw [placeLoop_frame caps.perDay immL st6 0 0 _
        (fun hmem => hdisj hmem (List.get_mem latL k hk))]
      exact hlat6 k hk
  -- every row keeps its (sub-annual) frequency
  have hfreqS : ∀ r ∈ S, pyIntOr0 r.frequency_days < 365 := by
    intro r hr
    obtain ⟨⟨i, hi⟩, rfl⟩ := List.mem_iff_get.mp hr
    rw [← stGet_eq_get]
    have hiR : i < rows.length := by rw [← hSlen]; exact hi
    have hc1 : coreAt S i = coreAt st6 i := by
      rw [hSDef]
      exact coreAt_placeImmediate caps.perDay st6 immL i
    have hc2 : coreAt st6 i = coreAt rows i := by
      rw [hst6Def]
      exact coreAt_staggerLater caps.stagger rows latL i
    have hcg := congrArg (fun row => pyIntOr0 row.frequency_days) (hc1.trans hc2)
    exact lt_of_eq_of_lt hcg (hfreqI i hiR)
  -- the count
  have hq : ∀ (k : Nat) (hk : k < latL.length),
      inFirstWeek (stGet S (latL.get ⟨k, hk⟩)) =
        decide (k < (max 1 (((latL.length : Nat) : Int).fdiv caps.stagger +
          (if (((latL.length : Nat) : Int)).fmod caps.stagger ≠ 0 then 1 else 0))).toNat) := by
    intro k hk
    rw [inFirstWeek_stGet, hSlat k hk]
    have hpw1 : 1 ≤ max 1 (((latL.length : Nat) : Int).fdiv caps.stagger +
        (if (((latL.length : Nat) : Int)).fmod caps.stagger ≠ 0 then 1 else 0)) :=
      le_max_left 1 _
    set pw := max 1 (((latL.length : Nat) : Int).fdiv caps.stagger +
      (if (((latL.length : Nat) : Int)).fmod caps.stagger ≠ 0 then 1 else 0)) with hpwDef
    show decide (0 ≤ 7 * ((k : Int).fdiv pw) ∧ 7 * ((k : Int).fdiv pw) ≤ 6) =
      decide (k < pw.toNat)
    rw [Int.fdiv_eq_ediv _ (by omega)]
    rw [decide_eq_decide]
    by_cases hklt : (k : Int) < pw
    · have hd0 : (k : Int) / pw = 0 := Int.ediv_eq_zero_of_lt (by omega) hklt
      rw [hd0]
      constructor
      · intro _
        omega
      · intro _
        norm_num
    · have hd1 : 1 ≤ (k : Int) / pw := by
        rw [Int.le_ediv_iff_mul_le (by omega)]
        omega
      constructor
      · intro hcon
        omega
      · intro hcon
        omega
  have hcountLat : latL.countP (fun i => inFirstWeek (stGet S i)) =
      min latL.length (max 1 (((latL.length : Nat) : Int).fdiv caps.stagger +
        (if (((latL.length : Nat) : Int)).fmod caps.stagger ≠ 0 then 1 else 0))).toNat := by
    exact countP_of_get_iff _ latL _ hq
  have hcountImm : immL.countP (fun i => inFirstWeek (stGet S i)) = immL.length := by
    rw [List.countP_eq_length]
    intro i hi
    obtain ⟨⟨k, hk⟩, rfl⟩ := List.mem_iff_get.mp hi
    rw [inFirstWeek_stGet, hSimm k hk]
    show decide (0 ≤ min 6 ((k : Int).fdiv caps.perDay) ∧
      min 6 ((k : Int).fdiv caps.perDay) ≤ 6) = true
    have hdp : 0 ≤ (k : Int).fdiv caps.perDay := by
      rw [Int.fdiv_eq_ediv _ (by omega)]
      exact Int.ediv_nonneg (by omega) (by omega)
    simp only [decide_eq_true_eq]
    omega
  have hcount : S.countP inFirstWeek =
      immL.length + min latL.length
        (max 1 (((latL.length : Nat) : Int).fdiv caps.stagger +
          (if (((latL.length : Nat) : Int)).fmod caps.stagger ≠ 0 then 1 else 0))).toNat := by
    have h1 : S.countP inFirstWeek =
        (List.range rows.length).countP (fun i => inFirstWeek (stGet S i)) := by
      conv_lhs => rw [← range_map_stGet S]
      rw [List.countP_map, hSlen]
      rfl
    have h2 : (List.range rows.length).countP (fun i => inFirstWeek (stGet S i)) =
        sorted.countP (fun i => inFirstWeek (stGet S i)) :=
      (hperm.countP_eq _).symm
    have h3 : sorted.countP (fun i => inFirstWeek (stGet S i)) =
        immL.countP (fun i => inFirstWeek (stGet S i)) +
        latL.countP (fun i => inFirstWeek (stGet S i)) := by
      rw [← hsplit, List.countP_append]
    rw [h1, h2, h3, hcountImm, hcountLat]
  have himmlen : immL.length = min caps.cap.toNat rows.length := by
    rw [himmDef, List.length_take, hsortlen]
  have hlatlen : latL.length = rows.length - caps.cap.toNat := by
    rw [hlatDef, List.length_drop, hsortlen]
  refine ⟨?_, ?_, hfreqS⟩
  · rw [hcount, himmlen, hlatlen]
  · -- every row has a nonnegative assigned offset
    intro r hr
    obtain ⟨⟨i, hi⟩, rfl⟩ := List.mem_iff_get.mp hr
    rw [← stGet_eq_get]
    have hiR : i < rows.length := by rw [← hSlen]; exact hi
    have hisort : i ∈ sorted := hperm.mem_iff.mpr (by simpa using hiR)
    rw [← hsplit] at hisort
    rcases List.mem_append.mp hisort with him | hlat
    · obtain ⟨⟨k, hk⟩, hkeq⟩ := List.mem_iff_get.mp him
      rw [← hkeq]
      refine ⟨min 6 ((k : Int).fdiv caps.perDay), hSimm k hk, ?_⟩
      have hdp : 0 ≤ (k : Int).fdiv caps.perDay := by
        rw [Int.fdiv_eq_ediv _ (by omega)]
        exact Int.ediv_nonneg (by omega) (by omega)
      omega
    · obtain ⟨⟨k, hk⟩, hkeq⟩ := List.mem_iff_get.mp hlat
      rw [← hkeq]
      have hpw1 : 1 ≤ max 1 (((latL.length : Nat) : Int).fdiv caps.stagger +
          (if (((latL.length : Nat) : Int)).fmod caps.stagger ≠ 0 then 1 else 0)) :=
        le_max_left 1 _
      refine ⟨_, hSlat k hk, ?_⟩
      have hdp : 0 ≤ (k : Int).fdiv (max 1 (((latL.length : Nat) : Int).fdiv caps.stagger +
          (if (((latL.length : Nat) : Int)).fmod caps.stagger ≠ 0 then 1 else 0))) := by
        rw [Int.fdiv_eq_ediv _ (by omega)]
        exact Int.ediv_nonneg (by omega) (by omega)
      omega

/-- **C1 (counterexample).** Six monthly tasks, none safety-critical and
none seasonal, under the default settings: the sixth (deferred) task is
staggered at week 0, so *all six* tasks receive offsets in `[0, 6]` —
`min(5, 6) = 5` tasks is wrong, and the sixth task does not get an offset
`≥ 7`. -/
theorem c1_ramp_cap_counterexample :
    (∀ r ∈ seedPipeline defaultCaps ⟨2024, 1, 1⟩ true noFeats c1Rows,
      parseBoolD r.safety_critical false = false ∧ parseBoolD r.seasonal false = false) ∧
    (seedPipeline defaultCaps ⟨2024, 1, 1⟩ true noFeats c1Rows).length = 6 ∧
    (seedPipeline defaultCaps ⟨2024, 1, 1⟩ true noFeats c1Rows).countP inFirstWeek = 6 := by
  decide

/-- **C1 (amended).** On a first-generation run with default ramp settings
over a catalog whose resolved tasks are pairwise distinct, include no
safety-critical task, no seasonal task due within `near_term_days`, and no
task with `frequency_days ≥ 365`: the number of tasks receiving
`start_offset_days` in `[0, 6]` is exactly
`min 5 n + min (n - 5) per_week` — the immediate set *plus the first
stagger batch*, which the week-0 start places in the first week; every
offset is a nonnegative integer, so all remaining tasks get offsets
`≥ 7`. -/
theorem c1_first_week_count (today : Date) (f : Features) (allRows : List Row)
    (hnodup : (resolvedRows true f allRows).Nodup)
    (hsafe : ∀ r ∈ resolvedRows true f allRows, parseBoolD r.safety_critical false = false)
    (hseas : ∀ r ∈ resolvedRows true f allRows, parseBoolD r.seasonal false = true →
      ¬(computeNextDueDate r today - today.ord ≤ defaultCaps.near))
    (hfreq : ∀ r ∈ resolvedRows true f allRows, pyIntOr0 r.frequency_days < 365) :
    (seedPipeline defaultCaps today true f allRows).countP inFirstWeek =
      firstWeekCount (resolvedRows true f allRows).length ∧
    ∀ r ∈ seedPipeline defaultCaps today true f allRows,
      ∃ v : Int, parseIntVal r.start_offset_days = some v ∧ 0 ≤ v := by
  have hsafeI : ∀ i, i < (resolvedRows true f allRows).length →
      safetyAt (resolvedRows true f allRows) i = false :=
    fun i hi => hsafe _ (stGet_mem _ i hi)
  have hseasI : ∀ i, i < (resolvedRows true f allRows).length →
      (seasonalAt (resolvedRows true f allRows) i &&
        decide (daysOutAt today (resolvedRows true f allRows) i ≤
          defaultCaps.near)) = false := by
    intro i hi
    cases hsb : seasonalAt (resolvedRows true f allRows) i with
    | false => rw [Bool.false_and]
    | true =>
        rw [Bool.true_and, decide_eq_false_iff_not]
        exact hseas _ (stGet_mem _ i hi) hsb
  have hfreqI : ∀ i, i < (resolvedRows true f allRows).length →
      freqAt (resolvedRows true f allRows) i < 365 :=
    fun i hi => hfreq _ (stGet_mem _ i hi)
  have hoffI : ∀ i, i < (resolvedRows true f allRows).length →
      offAt (resolvedRows true f allRows) i = Option.none := by
    intro i hi
    have hmem : stGet (resolvedRows true f allRows) i ∈
        resolveOverlaps (enrichRows (clearOffsets (filterRowsByFeatures allRows f))) :=
      stGet_mem _ i hi
    rw [offAt, resolved_off_none f allRows _ hmem]
    rfl
  obtain ⟨hcnt, hpos, hfr⟩ := applyOnboardingRamp_count defaultCaps today
    (resolvedRows true f allRows) hnodup (by decide) (by decide)
    hoffI hsafeI hseasI hfreqI
  have hSN : safetyNet (applyOnboardingRamp defaultCaps today true
      (resolvedRows true f allRows)) =
      applyOnboardingRamp defaultCaps today true (resolvedRows true f allRows) :=
    map_id_of_eq _ safetyNetRow (fun r hr => safetyNetRow_eq_of_lowfreq r (hfr r hr))
  have hPipe : seedPipeline defaultCaps today true f allRows =
      applyOnboardingRamp defaultCaps today true (resolvedRows true f allRows) := by
    rw [← hSN]
    rfl
  constructor
  · rw [hPipe, hcnt]
    have hc5 : defaultCaps.cap.toNat = 5 := by decide
    have hs12 : defaultCaps.stagger = 12 := by decide
    rw [hc5, hs12, firstWeekCount]
  · rw [hPipe]
    exact hpos

/-- Witness for C1 (amended): the six-task catalog gives
`firstWeekCount 6 = 5 + 1 = 6` first-week tasks. -/
theorem c1_first_week_count_witness :
    (seedPipeline defaultCaps ⟨2024, 1, 1⟩ true noFeats c1Rows).countP inFirstWeek =
      firstWeekCount (resolvedRows true noFeats c1Rows).length ∧
    ∀ r ∈ seedPipeline defaultCaps ⟨2024, 1, 1⟩ true noFeats c1Rows,
      ∃ v : Int, parseIntVal r.start_offset_days = some v ∧ 0 ≤ v :=
  c1_first_week_count ⟨2024, 1, 1⟩ noFeats c1Rows (by decide) (by decide) (by decide)
    (by decide)

end UpKeep
